import Mathlib

/-!
# 2048 board engine (package `game`): shallow embedding and verified properties

The definitions below follow `src/game/types.go`, `src/game/board.go` and
`src/game/logic.go` (the same code is repeated verbatim in `src/main.go`).

Modelling conventions.
* Go's `[4]T` is the four-field record `Arr4 T`; `get`/`set` take the index as a
  natural number.  Every index the program uses is within `0..3`; outside that
  range `get` yields `default` and `set` changes nothing.
* Go's `int` is the 64-bit two's-complement integer of the usual targets.  A value of that
  type is modelled by the `Int` it denotes, and the two arithmetic operations of the
  program, `row[k-1] *= 2` and `g.Score += row[k-1]`, wrap around: their exact result is
  passed through `wrap64`, which reduces it into `-2^63 .. 2^63 - 1`.
* A method with receiver `g *Game` is a function from the state before the call to
  the state after it; `Move` also returns its boolean result.
* The pseudo-random draws of `addRandomTile` are an explicit argument of type `Draw`.
-/

namespace Game2048

/-! ## Data model (`types.go`) -/

/-- Fixed-size array of four elements, Go's `[4]T`. -/
structure Arr4 (α : Type) where
  x0 : α
  x1 : α
  x2 : α
  x3 : α
deriving DecidableEq, Repr

namespace Arr4

/-- Indexing `a[i]`. -/
def get {α : Type} [Inhabited α] (a : Arr4 α) : Nat → α
  | 0 => a.x0
  | 1 => a.x1
  | 2 => a.x2
  | 3 => a.x3
  | _ => default

/-- Assignment `a[i] = v`. -/
def set {α : Type} (a : Arr4 α) (i : Nat) (v : α) : Arr4 α :=
  match i with
  | 0 => ⟨v, a.x1, a.x2, a.x3⟩
  | 1 => ⟨a.x0, v, a.x2, a.x3⟩
  | 2 => ⟨a.x0, a.x1, v, a.x3⟩
  | 3 => ⟨a.x0, a.x1, a.x2, v⟩
  | _ => a

/-- The elements in index order. -/
def toList {α : Type} (a : Arr4 α) : List α := [a.x0, a.x1, a.x2, a.x3]

/-- The array read from the far end. -/
def reverse {α : Type} (a : Arr4 α) : Arr4 α := ⟨a.x3, a.x2, a.x1, a.x0⟩

end Arr4

/-- One line of tiles, Go's `[4]int`. -/
abbrev Row := Arr4 Int

/-- The grid, Go's `[4][4]int`: `Board[i]` is row `i`. -/
abbrev Board := Arr4 Row

/-- The `merged` marker slice of one line, `make([]bool, 4)`. -/
abbrev Marks := Arr4 Bool

instance : Inhabited Row := ⟨⟨0, 0, 0, 0⟩⟩

/-- The zero value `[4][4]int{}`. -/
def emptyBoard : Board :=
  ⟨⟨0, 0, 0, 0⟩, ⟨0, 0, 0, 0⟩, ⟨0, 0, 0, 0⟩, ⟨0, 0, 0, 0⟩⟩

/-- The value of `make([]bool, 4)`. -/
def noMarks : Marks := ⟨false, false, false, false⟩

/-- Reading `Board[i][j]`. -/
def cell (b : Board) (i j : Nat) : Int := (b.get i).get j

/-- Writing `Board[i][j] = v`. -/
def setCell (b : Board) (i j : Nat) (v : Int) : Board := b.set i ((b.get i).set j v)

/-- Move selector, `type Direction int`. -/
abbrev Direction := Int

/-- Constant `Up`, `iota` value 0. -/
def Up : Direction := 0

/-- Constant `Down`, `iota` value 1. -/
def Down : Direction := 1

/-- Constant `Left`, `iota` value 2. -/
def Left : Direction := 2

/-- Constant `Right`, `iota` value 3. -/
def Right : Direction := 3

/-- Game state, `type Game struct`. -/
structure Game where
  Board : Board
  Score : Int
  GameOver : Bool
  Won : Bool
deriving DecidableEq, Repr

/-- Outcome of the two pseudo-random draws made by one call of `addRandomTile`:
`pick` is the raw generator output behind `rand.Intn(n)`, which returns `pick % n`,
and `small` tells whether `rand.Float64() < 0.1` came out true. -/
structure Draw where
  pick : Nat
  small : Bool
deriving DecidableEq, Repr

/-! ## Tile spawn and construction (`board.go`) -/

/-- The `emptyCells` slice built by the two nested loops of `addRandomTile`. -/
def emptyCells (b : Board) : List (Nat × Nat) :=
  (List.range 4).foldl
    (fun acc i =>
      (List.range 4).foldl
        (fun acc j => if cell b i j = 0 then acc ++ [(i, j)] else acc) acc)
    []

/-- Method `addRandomTile`. -/
def addRandomTile (g : Game) (d : Draw) : Game :=
  let cells := emptyCells g.Board
  if cells.length = 0 then g
  else
    let c := cells.getD (d.pick % cells.length) (0, 0)
    let value : Int := if d.small then 4 else 2
    { g with Board := setCell g.Board c.1 c.2 value }

/-- Method `initializeBoard`. -/
def initializeBoard (g : Game) (d1 d2 : Draw) : Game :=
  let g1 : Game := { g with Board := emptyBoard, Score := 0, GameOver := false, Won := false }
  addRandomTile (addRandomTile g1 d1) d2

/-- The zero value `&Game{}`. -/
def zeroGame : Game := { Board := emptyBoard, Score := 0, GameOver := false, Won := false }

/-- Function `NewGame`. -/
def NewGame (d1 d2 : Draw) : Game := initializeBoard zeroGame d1 d2

/-! ## Directional compaction (`logic.go`) -/

/-- The value that Go's 64-bit `int` holds after an arithmetic operation whose exact result
is `x`: the representative of `x` modulo `2^64` in `-2^63 .. 2^63 - 1`
(`9223372036854775808` is `2^63`, `18446744073709551616` is `2^64`). -/
def wrap64 (x : Int) : Int :=
  (x + 9223372036854775808) % 18446744073709551616 - 9223372036854775808

/-- The tuple assignment `row[i], row[j] = row[j], row[i]`. -/
def swapCells (row : Row) (i j : Nat) : Row :=
  (row.set i (row.get j)).set j (row.get i)

/-- Inner loop of `moveLeft`, `for k > 0 && row[k-1] == 0`, started at `k`;
yields the row and the final `k`. -/
def slideLeft (row : Row) : Nat → Row × Nat
  | 0 => (row, 0)
  | k + 1 => if row.get k = 0 then slideLeft (swapCells row k (k + 1)) k else (row, k + 1)

/-- Body of the `j` loop of `moveLeft` on the local state `(row, merged, g.Score)`. -/
def stepLeft (st : Row × Marks × Int) (j : Nat) : Row × Marks × Int :=
  if st.1.get j = 0 then st
  else
    let r := slideLeft st.1 j
    let row := r.1
    let k := r.2
    if k > 0 ∧ row.get (k - 1) = row.get k ∧ st.2.1.get (k - 1) = false then
      let row1 := row.set (k - 1) (wrap64 (row.get (k - 1) * 2))
      let row2 := row1.set k 0
      (row2, st.2.1.set (k - 1) true, wrap64 (st.2.2 + row2.get (k - 1)))
    else (row, st.2.1, st.2.2)

/-- The `j` loop of `moveLeft`, `for j := 1; j < 4; j++`, on a row with fresh markers. -/
def lineLeft (row : Row) (score : Int) : Row × Marks × Int :=
  [1, 2, 3].foldl stepLeft (row, noMarks, score)

/-- Body of the `i` loop of `moveLeft`: compaction of row `i`. -/
def moveLeftRow (g : Game) (i : Nat) : Game :=
  let r := lineLeft (g.Board.get i) g.Score
  { g with Board := g.Board.set i r.1, Score := r.2.2 }

/-- Method `moveLeft`. -/
def moveLeft (g : Game) : Game := [0, 1, 2, 3].foldl moveLeftRow g

/-- Inner loop of `moveRight`, `for k < 3 && row[k+1] == 0`, started at `k`;
the last argument bounds the number of iterations. -/
def slideRight (row : Row) (k : Nat) : Nat → Row × Nat
  | 0 => (row, k)
  | fuel + 1 =>
    if k < 3 ∧ row.get (k + 1) = 0 then slideRight (swapCells row (k + 1) k) (k + 1) fuel
    else (row, k)

/-- Body of the `j` loop of `moveRight` on the local state `(row, merged, g.Score)`. -/
def stepRight (st : Row × Marks × Int) (j : Nat) : Row × Marks × Int :=
  if st.1.get j = 0 then st
  else
    let r := slideRight st.1 j 3
    let row := r.1
    let k := r.2
    if k < 3 ∧ row.get (k + 1) = row.get k ∧ st.2.1.get (k + 1) = false then
      let row1 := row.set (k + 1) (wrap64 (row.get (k + 1) * 2))
      let row2 := row1.set k 0
      (row2, st.2.1.set (k + 1) true, wrap64 (st.2.2 + row2.get (k + 1)))
    else (row, st.2.1, st.2.2)

/-- The `j` loop of `moveRight`, `for j := 2; j >= 0; j--`, on a row with fresh markers. -/
def lineRight (row : Row) (score : Int) : Row × Marks × Int :=
  [2, 1, 0].foldl stepRight (row, noMarks, score)

/-- Body of the `i` loop of `moveRight`: compaction of row `i`. -/
def moveRightRow (g : Game) (i : Nat) : Game :=
  let r := lineRight (g.Board.get i) g.Score
  { g with Board := g.Board.set i r.1, Score := r.2.2 }

/-- Method `moveRight`. -/
def moveRight (g : Game) : Game := [0, 1, 2, 3].foldl moveRightRow g

/-- The tuple assignment `Board[i1][j], Board[i2][j] = Board[i2][j], Board[i1][j]`. -/
def swapInCol (b : Board) (j i1 i2 : Nat) : Board :=
  setCell (setCell b i1 j (cell b i2 j)) i2 j (cell b i1 j)

/-- Inner loop of `moveUp`, `for k > 0 && g.Board[k-1][j] == 0`, started at `k`. -/
def slideUp (b : Board) (j : Nat) : Nat → Board × Nat
  | 0 => (b, 0)
  | k + 1 => if cell b k j = 0 then slideUp (swapInCol b j k (k + 1)) j k else (b, k + 1)

/-- Body of the `i` loop of `moveUp` on the state `(g.Board, merged, g.Score)`. -/
def stepUp (j : Nat) (st : Board × Marks × Int) (i : Nat) : Board × Marks × Int :=
  if cell st.1 i j = 0 then st
  else
    let r := slideUp st.1 j i
    let b := r.1
    let k := r.2
    if k > 0 ∧ cell b (k - 1) j = cell b k j ∧ st.2.1.get (k - 1) = false then
      let b1 := setCell b (k - 1) j (wrap64 (cell b (k - 1) j * 2))
      let b2 := setCell b1 k j 0
      (b2, st.2.1.set (k - 1) true, wrap64 (st.2.2 + cell b2 (k - 1) j))
    else (b, st.2.1, st.2.2)

/-- Body of the `j` loop of `moveUp`: compaction of column `j`. -/
def moveUpCol (g : Game) (j : Nat) : Game :=
  let r := [1, 2, 3].foldl (stepUp j) (g.Board, noMarks, g.Score)
  { g with Board := r.1, Score := r.2.2 }

/-- Method `moveUp`. -/
def moveUp (g : Game) : Game := [0, 1, 2, 3].foldl moveUpCol g

/-- Inner loop of `moveDown`, `for k < 3 && g.Board[k+1][j] == 0`, started at `k`;
the last argument bounds the number of iterations. -/
def slideDown (b : Board) (j : Nat) (k : Nat) : Nat → Board × Nat
  | 0 => (b, k)
  | fuel + 1 =>
    if k < 3 ∧ cell b (k + 1) j = 0 then slideDown (swapInCol b j (k + 1) k) j (k + 1) fuel
    else (b, k)

/-- Body of the `i` loop of `moveDown` on the state `(g.Board, merged, g.Score)`. -/
def stepDown (j : Nat) (st : Board × Marks × Int) (i : Nat) : Board × Marks × Int :=
  if cell st.1 i j = 0 then st
  else
    let r := slideDown st.1 j i 3
    let b := r.1
    let k := r.2
    if k < 3 ∧ cell b (k + 1) j = cell b k j ∧ st.2.1.get (k + 1) = false then
      let b1 := setCell b (k + 1) j (wrap64 (cell b (k + 1) j * 2))
      let b2 := setCell b1 k j 0
      (b2, st.2.1.set (k + 1) true, wrap64 (st.2.2 + cell b2 (k + 1) j))
    else (b, st.2.1, st.2.2)

/-- Body of the `j` loop of `moveDown`: compaction of column `j`. -/
def moveDownCol (g : Game) (j : Nat) : Game :=
  let r := [2, 1, 0].foldl (stepDown j) (g.Board, noMarks, g.Score)
  { g with Board := r.1, Score := r.2.2 }

/-- Method `moveDown`. -/
def moveDown (g : Game) : Game := [0, 1, 2, 3].foldl moveDownCol g

/-! ## Status evaluation and `Move` (`logic.go`) -/

/-- The win scan of `checkGameStatus`: some cell equals 2048. -/
def has2048 (b : Board) : Bool :=
  (List.range 4).any fun i => (List.range 4).any fun j => decide (cell b i j = 2048)

/-- Method `hasEmptyCells`. -/
def hasEmptyCells (g : Game) : Bool :=
  (List.range 4).any fun i => (List.range 4).any fun j => decide (cell g.Board i j = 0)

/-- Method `hasPossibleMoves`. -/
def hasPossibleMoves (g : Game) : Bool :=
  ((List.range 4).any fun i =>
      (List.range 3).any fun j => decide (cell g.Board i j = cell g.Board i (j + 1)))
    || ((List.range 4).any fun j =>
      (List.range 3).any fun i => decide (cell g.Board i j = cell g.Board (i + 1) j))

/-- Method `checkGameStatus`. -/
def checkGameStatus (g : Game) : Game :=
  if has2048 g.Board then { g with Won := true }
  else if !hasEmptyCells g && !hasPossibleMoves g then { g with GameOver := true }
  else g

/-- The `switch dir` of `Move`: the compaction routine selected by `dir`; a value that is
none of the four constants selects no case and the state is left as it is. -/
def compact (g : Game) (dir : Direction) : Game :=
  if dir = Left then moveLeft g
  else if dir = Right then moveRight g
  else if dir = Up then moveUp g
  else if dir = Down then moveDown g
  else g

/-- Method `Move`: the state after the call and the returned boolean. -/
def Move (g : Game) (dir : Direction) (d : Draw) : Game × Bool :=
  let g1 := compact g dir
  if g1.Board = g.Board then (g1, false)
  else (checkGameStatus (addRandomTile g1 d), true)

/-! ## Mirrors and transposition of the grid -/

/-- Horizontal mirror: every row reversed. -/
def hmirror (b : Board) : Board := ⟨b.x0.reverse, b.x1.reverse, b.x2.reverse, b.x3.reverse⟩

/-- Vertical mirror: the order of the rows reversed. -/
def vmirror (b : Board) : Board := b.reverse

/-- Transposition: rows become columns. -/
def transpose (b : Board) : Board :=
  ⟨⟨b.x0.x0, b.x1.x0, b.x2.x0, b.x3.x0⟩, ⟨b.x0.x1, b.x1.x1, b.x2.x1, b.x3.x1⟩,
   ⟨b.x0.x2, b.x1.x2, b.x2.x2, b.x3.x2⟩, ⟨b.x0.x3, b.x1.x3, b.x2.x3, b.x3.x3⟩⟩

/-- Mirror image of the local state of a line loop. -/
def revState (st : Row × Marks × Int) : Row × Marks × Int :=
  (st.1.reverse, st.2.1.reverse, st.2.2)

/-- The state with a transformation applied to its board, all else kept. -/
def mapBoard (f : Board → Board) (g : Game) : Game := { g with Board := f g.Board }

/-- Number of non-zero cells of a row. -/
def rowTiles (r : Row) : Nat :=
  (if r.x0 = 0 then 0 else 1) + (if r.x1 = 0 then 0 else 1)
    + (if r.x2 = 0 then 0 else 1) + (if r.x3 = 0 then 0 else 1)

/-- Number of non-zero cells of the grid. -/
def countTiles (b : Board) : Nat := rowTiles b.x0 + rowTiles b.x1 + rowTiles b.x2 + rowTiles b.x3

/-- Local state of a column loop whose column `j` holds the row of `st`. -/
def colState (c : Board) (j : Nat) (st : Row × Marks × Int) : Board × Marks × Int :=
  (transpose (c.set j st.1), st.2.1, st.2.2)

/-- Markers left by the `j` loop of `moveLeft`. -/
def marksLeft (r : Row) : Marks := (lineLeft r 0).2.1

/-- Row produced by the `j` loop of `moveLeft`. -/
def rowLeft (r : Row) : Row := (lineLeft r 0).1

/-- Score left by the `j` loop of `moveLeft` on a row, started with score `s`. -/
def scoreLeft (r : Row) (s : Int) : Int := (lineLeft r s).2.2

/-- The non-zero cells of a row, in index order. -/
def tiles (r : Row) : List Int := r.toList.filter fun x => decide (x ≠ 0)

/-- The tiles packed against the low-index edge, the rest of the row empty. -/
def packed (r : Row) : List Int := tiles r ++ List.replicate (4 - (tiles r).length) 0

/-- No cell of the grid is empty. -/
def isFull (b : Board) : Prop := ∀ i, i < 4 → ∀ j, j < 4 → cell b i j ≠ 0

/-- No two cells that are neighbours in a row or in a column hold the same value. -/
def noEqualNeighbours (b : Board) : Prop :=
  (∀ i, i < 4 → ∀ j, j < 3 → cell b i j ≠ cell b i (j + 1))
    ∧ (∀ i, i < 3 → ∀ j, j < 4 → cell b i j ≠ cell b (i + 1) j)

/-- Some cell of the grid holds `v`. -/
def holds (b : Board) (v : Int) : Prop := ∃ i, i < 4 ∧ ∃ j, j < 4 ∧ cell b i j = v

instance (b : Board) : Decidable (isFull b) :=
  inferInstanceAs (Decidable (∀ i, i < 4 → ∀ j, j < 4 → cell b i j ≠ 0))

instance (b : Board) : Decidable (noEqualNeighbours b) :=
  inferInstanceAs (Decidable ((∀ i, i < 4 → ∀ j, j < 3 → cell b i j ≠ cell b i (j + 1))
    ∧ (∀ i, i < 3 → ∀ j, j < 4 → cell b i j ≠ cell b (i + 1) j)))

instance (b : Board) (v : Int) : Decidable (holds b v) :=
  inferInstanceAs (Decidable (∃ i, i < 4 ∧ ∃ j, j < 4 ∧ cell b i j = v))

/-- A full grid without equal neighbours that holds the tile 2048. -/
def wonFullGame : Game :=
  { Board := ⟨⟨2048, 4, 2, 4⟩, ⟨4, 2, 4, 2⟩, ⟨2, 4, 2, 4⟩, ⟨4, 2, 4, 2⟩⟩,
    Score := 20000, GameOver := false, Won := false }

/-- A full grid without equal neighbours and without the tile 2048. -/
def stuckGame : Game :=
  { Board := ⟨⟨2, 4, 2, 4⟩, ⟨4, 2, 4, 2⟩, ⟨2, 4, 2, 4⟩, ⟨4, 2, 4, 2⟩⟩,
    Score := 60, GameOver := false, Won := false }

/-- A full grid with an equal pair in its first row and without the tile 2048. -/
def pairGame : Game :=
  { Board := ⟨⟨2, 2, 8, 4⟩, ⟨4, 16, 4, 2⟩, ⟨2, 4, 2, 4⟩, ⟨4, 2, 4, 2⟩⟩,
    Score := 60, GameOver := false, Won := false }

/-- A state whose only empty cell is `Board[2][1]`. -/
def oneGapGame : Game :=
  { Board := ⟨⟨2, 4, 2, 4⟩, ⟨4, 2, 4, 2⟩, ⟨2, 0, 2, 4⟩, ⟨4, 2, 4, 2⟩⟩,
    Score := 60, GameOver := false, Won := false }

/-- A state with a single tile in the top-left corner. -/
def cornerGame : Game :=
  { Board := ⟨⟨2, 0, 0, 0⟩, ⟨0, 0, 0, 0⟩, ⟨0, 0, 0, 0⟩, ⟨0, 0, 0, 0⟩⟩,
    Score := 12, GameOver := false, Won := true }

/-- A state whose third row is `[0,2,0,0]`, with no merge available in any row. -/
def slideGame : Game :=
  { Board := ⟨⟨2, 4, 2, 4⟩, ⟨0, 0, 0, 0⟩, ⟨0, 2, 0, 0⟩, ⟨8, 0, 4, 8⟩⟩,
    Score := 36, GameOver := false, Won := false }

/-- A state whose second row is `[2,2,2,2]`, all other rows empty. -/
def fourTwosGame : Game :=
  { Board := ⟨⟨0, 0, 0, 0⟩, ⟨2, 2, 2, 2⟩, ⟨0, 0, 0, 0⟩, ⟨0, 0, 0, 0⟩⟩,
    Score := 20, GameOver := false, Won := false }

/-- A state whose first row is `[2^62, 2^62, 2^62, 2^62]`, all other rows empty. -/
def bigFourGame : Game :=
  { Board := ⟨⟨4611686018427387904, 4611686018427387904, 4611686018427387904,
      4611686018427387904⟩, ⟨0, 0, 0, 0⟩, ⟨0, 0, 0, 0⟩, ⟨0, 0, 0, 0⟩⟩,
    Score := 0, GameOver := false, Won := false }

/-- A state whose first row is `[2^62, 2^62, 2^62, 0]`, all other rows empty. -/
def bigThreeGame : Game :=
  { Board := ⟨⟨4611686018427387904, 4611686018427387904, 4611686018427387904, 0⟩,
      ⟨0, 0, 0, 0⟩, ⟨0, 0, 0, 0⟩, ⟨0, 0, 0, 0⟩⟩,
    Score := 0, GameOver := false, Won := false }

/-- A state whose first row is `[2^62, 2^62, 0, 0]`, all other rows empty. -/
def bigPairGame : Game :=
  { Board := ⟨⟨4611686018427387904, 4611686018427387904, 0, 0⟩, ⟨0, 0, 0, 0⟩, ⟨0, 0, 0, 0⟩,
      ⟨0, 0, 0, 0⟩⟩,
    Score := 0, GameOver := false, Won := false }

/-- A state whose first row is `[-2^63, -2^63, 0, 0]`, all other rows empty. -/
def minPairGame : Game :=
  { Board := ⟨⟨-9223372036854775808, -9223372036854775808, 0, 0⟩, ⟨0, 0, 0, 0⟩, ⟨0, 0, 0, 0⟩,
      ⟨0, 0, 0, 0⟩⟩,
    Score := 0, GameOver := false, Won := false }

/-- A state whose first row is `[2, 2, 0, 0]` and whose Score is `2^63 - 1`, the largest
value of the 64-bit `int`. -/
def topScoreGame : Game :=
  { Board := ⟨⟨2, 2, 0, 0⟩, ⟨0, 0, 0, 0⟩, ⟨0, 0, 0, 0⟩, ⟨0, 0, 0, 0⟩⟩,
    Score := 9223372036854775807, GameOver := false, Won := false }

/-- Every cell of the row satisfies `P`. -/
def rowAll (P : Int → Prop) (r : Row) : Prop := P r.x0 ∧ P r.x1 ∧ P r.x2 ∧ P r.x3

/-- Every cell of the grid satisfies `P`. -/
def boardAll (P : Int → Prop) (b : Board) : Prop := ∀ i, i < 4 → ∀ j, j < 4 → P (cell b i j)

/-- The value is a power of two, at least 2. -/
def tileValue (v : Int) : Prop := ∃ n : Nat, 1 ≤ n ∧ v = 2 ^ n

/-- The cell is empty or holds a power of two, at least 2. -/
def emptyOrTile (v : Int) : Prop := v ≠ 0 → tileValue v
/-- The states reachable from `NewGame()` by a sequence of `Move` calls, for any directions
and any outcomes of the random draws. -/
inductive Reachable : Game → Prop
  | start (d1 d2 : Draw) : Reachable (NewGame d1 d2)
  | move (g : Game) (dir : Direction) (d : Draw) : Reachable g → Reachable (Move g dir d).1

/-! ## The compaction routines with a ghost log of their merges

Each routine below is the routine of the same name above with one addition: whenever the
merge branch is taken, the doubled value written by the merge is appended to a log. -/

/-- Body of the `j` loop of `moveLeft`, logging merges. -/
def stepLeftLog (p : (Row × Marks × Int) × List Int) (j : Nat) :
    (Row × Marks × Int) × List Int :=
  if p.1.1.get j = 0 then p
  else
    let r := slideLeft p.1.1 j
    let row := r.1
    let k := r.2
    if k > 0 ∧ row.get (k - 1) = row.get k ∧ p.1.2.1.get (k - 1) = false then
      let row1 := row.set (k - 1) (wrap64 (row.get (k - 1) * 2))
      let row2 := row1.set k 0
      ((row2, p.1.2.1.set (k - 1) true, wrap64 (p.1.2.2 + row2.get (k - 1))),
        p.2 ++ [row2.get (k - 1)])
    else ((row, p.1.2.1, p.1.2.2), p.2)

/-- Body of the `i` loop of `moveLeft`, logging merges. -/
def moveLeftRowLog (p : Game × List Int) (i : Nat) : Game × List Int :=
  let r := [1, 2, 3].foldl stepLeftLog ((p.1.Board.get i, noMarks, p.1.Score), p.2)
  ({ p.1 with Board := p.1.Board.set i r.1.1, Score := r.1.2.2 }, r.2)

/-- Method `moveLeft`, logging merges. -/
def moveLeftLog (g : Game) : Game × List Int := [0, 1, 2, 3].foldl moveLeftRowLog (g, [])

/-- The doubled values logged by the `j` loop of `moveLeft` on a row. -/
def mergesLeft (r : Row) : List Int := ([1, 2, 3].foldl stepLeftLog ((r, noMarks, 0), [])).2

/-- Body of the `j` loop of `moveRight`, logging merges. -/
def stepRightLog (p : (Row × Marks × Int) × List Int) (j : Nat) :
    (Row × Marks × Int) × List Int :=
  if p.1.1.get j = 0 then p
  else
    let r := slideRight p.1.1 j 3
    let row := r.1
    let k := r.2
    if k < 3 ∧ row.get (k + 1) = row.get k ∧ p.1.2.1.get (k + 1) = false then
      let row1 := row.set (k + 1) (wrap64 (row.get (k + 1) * 2))
      let row2 := row1.set k 0
      ((row2, p.1.2.1.set (k + 1) true, wrap64 (p.1.2.2 + row2.get (k + 1))),
        p.2 ++ [row2.get (k + 1)])
    else ((row, p.1.2.1, p.1.2.2), p.2)

/-- Body of the `i` loop of `moveRight`, logging merges. -/
def moveRightRowLog (p : Game × List Int) (i : Nat) : Game × List Int :=
  let r := [2, 1, 0].foldl stepRightLog ((p.1.Board.get i, noMarks, p.1.Score), p.2)
  ({ p.1 with Board := p.1.Board.set i r.1.1, Score := r.1.2.2 }, r.2)

/-- Method `moveRight`, logging merges. -/
def moveRightLog (g : Game) : Game × List Int := [0, 1, 2, 3].foldl moveRightRowLog (g, [])

/-- Body of the `i` loop of `moveUp`, logging merges. -/
def stepUpLog (j : Nat) (p : (Board × Marks × Int) × List Int) (i : Nat) :
    (Board × Marks × Int) × List Int :=
  if cell p.1.1 i j = 0 then p
  else
    let r := slideUp p.1.1 j i
    let b := r.1
    let k := r.2
    if k > 0 ∧ cell b (k - 1) j = cell b k j ∧ p.1.2.1.get (k - 1) = false then
      let b1 := setCell b (k - 1) j (wrap64 (cell b (k - 1) j * 2))
      let b2 := setCell b1 k j 0
      ((b2, p.1.2.1.set (k - 1) true, wrap64 (p.1.2.2 + cell b2 (k - 1) j)),
        p.2 ++ [cell b2 (k - 1) j])
    else ((b, p.1.2.1, p.1.2.2), p.2)

/-- Body of the `j` loop of `moveUp`, logging merges. -/
def moveUpColLog (p : Game × List Int) (j : Nat) : Game × List Int :=
  let r := [1, 2, 3].foldl (stepUpLog j) ((p.1.Board, noMarks, p.1.Score), p.2)
  ({ p.1 with Board := r.1.1, Score := r.1.2.2 }, r.2)

/-- Method `moveUp`, logging merges. -/
def moveUpLog (g : Game) : Game × List Int := [0, 1, 2, 3].foldl moveUpColLog (g, [])

/-- Body of the `i` loop of `moveDown`, logging merges. -/
def stepDownLog (j : Nat) (p : (Board × Marks × Int) × List Int) (i : Nat) :
    (Board × Marks × Int) × List Int :=
  if cell p.1.1 i j = 0 then p
  else
    let r := slideDown p.1.1 j i 3
    let b := r.1
    let k := r.2
    if k < 3 ∧ cell b (k + 1) j = cell b k j ∧ p.1.2.1.get (k + 1) = false then
      let b1 := setCell b (k + 1) j (wrap64 (cell b (k + 1) j * 2))
      let b2 := setCell b1 k j 0
      ((b2, p.1.2.1.set (k + 1) true, wrap64 (p.1.2.2 + cell b2 (k + 1) j)),
        p.2 ++ [cell b2 (k + 1) j])
    else ((b, p.1.2.1, p.1.2.2), p.2)

/-- Body of the `j` loop of `moveDown`, logging merges. -/
def moveDownColLog (p : Game × List Int) (j : Nat) : Game × List Int :=
  let r := [2, 1, 0].foldl (stepDownLog j) ((p.1.Board, noMarks, p.1.Score), p.2)
  ({ p.1 with Board := r.1.1, Score := r.1.2.2 }, r.2)

/-- Method `moveDown`, logging merges. -/
def moveDownLog (g : Game) : Game × List Int := [0, 1, 2, 3].foldl moveDownColLog (g, [])

/-- The `switch dir` of `Move`, logging merges. -/
def compactLog (g : Game) (dir : Direction) : Game × List Int :=
  if dir = Left then moveLeftLog g
  else if dir = Right then moveRightLog g
  else if dir = Up then moveUpLog g
  else if dir = Down then moveDownLog g
  else (g, [])

/-- The doubled values written by the merges of the compaction that `Move` runs, in the
order in which the merges are performed. -/
def mergesOf (g : Game) (dir : Direction) : List Int := (compactLog g dir).2

/-- What one loop step adds to the log, read off the markers and the score before and after
the step: a merge sets a marker and adds the doubled value to the score, so that value is
the difference of the two scores, taken as a 64-bit integer. -/
def entry (m m1 : Marks) (s s1 : Int) : List Int := if m1 = m then [] else [wrap64 (s1 - s)]

/-- A loop step together with the log entry read off its effect. -/
def logStep {σ : Type} (step : σ × Marks × Int → Nat → σ × Marks × Int)
    (p : (σ × Marks × Int) × List Int) (j : Nat) : (σ × Marks × Int) × List Int :=
  (step p.1 j, p.2 ++ entry p.1.2.1 (step p.1 j).2.1 p.1.2.2 (step p.1 j).2.2)

/-- The game with a log attached, its board transformed. -/
def mapBoardLog (f : Board → Board) (p : Game × List Int) : Game × List Int :=
  (mapBoard f p.1, p.2)

/-- The statement `g.Score += v` on the 64-bit `int`. -/
def addScore (s v : Int) : Int := wrap64 (s + v)

/-- The value lies in `-2^62 .. 2^62 - 1`, the range in which doubling does not wrap around
(`4611686018427387904` is `2^62`). -/
def doubles (v : Int) : Prop := -4611686018427387904 ≤ v ∧ v < 4611686018427387904

/-- Sum of `f` over the cells of a row. -/
def rowStat (f : Int → Int) (r : Row) : Int := f r.x0 + f r.x1 + f r.x2 + f r.x3

/-- Sum of `f` over the 16 cells of the grid. -/
def boardStat (f : Int → Int) (b : Board) : Int :=
  rowStat f b.x0 + rowStat f b.x1 + rowStat f b.x2 + rowStat f b.x3

/-- Indicator of a cell that holds at least `2^j`. -/
def atLeast (j : Nat) (v : Int) : Int := if 2 ^ j ≤ v then 1 else 0

/-- The square of a cell value. -/
def square (v : Int) : Int := v * v

/-- The cell is empty or holds at least 2. -/
def tileSized (v : Int) : Prop := v = 0 ∨ 2 ≤ v

/-- Invariant of the states of a game: cells are empty or at least 2, for `j = 1 .. 18` at
most `18 - j` cells hold `2^j` or more (so no cell reaches `2^18`), and the score lies
between 0 and the sum of the squares of the cells. -/
def steady (g : Game) : Prop :=
  boardAll tileSized g.Board
    ∧ (∀ j : Nat, 1 ≤ j → j ≤ 18 → boardStat (atLeast j) g.Board + j ≤ 18)
    ∧ 0 ≤ g.Score ∧ g.Score ≤ boardStat square g.Board

/-- Sum of the cells of a row. -/
def rowSum (r : Row) : Int := r.x0 + r.x1 + r.x2 + r.x3

/-- Sum of all 16 cells of the grid. -/
def boardSum (b : Board) : Int := rowSum b.x0 + rowSum b.x1 + rowSum b.x2 + rowSum b.x3

/-! ## Move submission (`web/handlers.go`, repeated in `main.go`)

The HTTP library is outside the repository: a request is reduced to the two parts the
handler reads, the JSON decoder is a parameter (`none` stands for a decoding error), and a
response is what the handler writes. -/

/-- Request payload, `type MoveRequest struct`. -/
structure MoveRequest where
  Direction : String
deriving DecidableEq, Repr

/-- The parts of `*http.Request` that `handleMove` reads: `r.Method` and `r.Body`. -/
structure Request where
  Method : String
  Body : String
deriving DecidableEq, Repr

/-- What a handler writes: `http.Error(w, msg, code)` or the snapshot of
`sendGameResponse`. -/
inductive Response where
  | failure (msg : String) (code : Nat)
  | snapshot (board : Board) (score : Int) (gameOver : Bool) (won : Bool)
deriving DecidableEq, Repr

/-- The package variable `currentGame *Game`; `none` is `nil`. -/
abbrev Session := Option Game

/-- Constant `http.MethodPost`. -/
def MethodPost : String := "POST"

/-- Constant `http.StatusMethodNotAllowed`. -/
def StatusMethodNotAllowed : Nat := 405

/-- Constant `http.StatusBadRequest`. -/
def StatusBadRequest : Nat := 400

/-- The random draws one `handleMove` call may consume: two by `NewGame`, one by `Move`. -/
structure Draws where
  first : Draw
  second : Draw
  spawn : Draw
deriving DecidableEq, Repr

/-- Function `sendGameResponse`. -/
def sendGameResponse (g : Game) : Response :=
  Response.snapshot g.Board g.Score g.GameOver g.Won

/-- The lazy creation at the top of `handleMove`: `if currentGame == nil`. -/
def ensureGame (currentGame : Session) (dr : Draws) : Game :=
  match currentGame with
  | none => NewGame dr.first dr.second
  | some g => g

/-- The tail of `handleMove` once the direction is known. -/
def finishMove (g : Game) (dir : Direction) (dr : Draws) : Session × Response :=
  (some (Move g dir dr.spawn).1, sendGameResponse (Move g dir dr.spawn).1)

/-- Function `handleMove`: the session after the call and the response written. -/
def handleMove (decode : String → Option MoveRequest) (currentGame : Session) (r : Request)
    (dr : Draws) : Session × Response :=
  let g := ensureGame currentGame dr
  if r.Method ≠ MethodPost then
    (some g, Response.failure "Method not allowed" StatusMethodNotAllowed)
  else
    match decode r.Body with
    | none => (some g, Response.failure "Invalid request" StatusBadRequest)
    | some moveReq =>
      if moveReq.Direction = "up" then finishMove g Up dr
      else if moveReq.Direction = "down" then finishMove g Down dr
      else if moveReq.Direction = "left" then finishMove g Left dr
      else if moveReq.Direction = "right" then finishMove g Right dr
      else (some g, Response.failure "Invalid direction" StatusBadRequest)

/-- The response is an error with a 4xx status code. -/
def isClientError (resp : Response) : Bool :=
  match resp with
  | Response.failure _ code => decide (400 ≤ code ∧ code < 500)
  | Response.snapshot _ _ _ _ => false

/-- The request has a method other than POST, a body that does not decode, or a decoded
direction that is none of the four recognised strings. -/
def rejected (decode : String → Option MoveRequest) (r : Request) : Prop :=
  r.Method ≠ MethodPost ∨ decode r.Body = none
    ∨ ∃ m, decode r.Body = some m ∧ m.Direction ≠ "up" ∧ m.Direction ≠ "down"
        ∧ m.Direction ≠ "left" ∧ m.Direction ≠ "right"

/-- A decoder that accepts nothing. -/
def neverDecodes : String → Option MoveRequest := fun _ => none

/-- A GET request with an empty body. -/
def getRequest : Request := { Method := "GET", Body := "" }

/-- Some fixed outcome of the random draws. -/
def someDraws : Draws := { first := ⟨0, false⟩, second := ⟨1, true⟩, spawn := ⟨3, false⟩ }

/-- Reference merge scan over the tiles of a line, from the target edge outwards: a pair of
equal neighbours is replaced by its sum and the scan goes on behind the pair, so that no tile
takes part in two merges.  Yields the merged line and the list of merged (doubled) values. -/
def mergePairs : List Int → List Int × List Int
  | x :: y :: t =>
    if x = y then ((x + y) :: (mergePairs t).1, (x + y) :: (mergePairs t).2)
    else (x :: (mergePairs (y :: t)).1, (mergePairs (y :: t)).2)
  | [x] => ([x], [])
  | [] => ([], [])

/-- Reference compaction of a line of four cells: drop the zeros, run the merge scan, pad
with zeros to length 4; the second component is the sum of the merged (doubled) values. -/
def referenceLine (l : List Int) : List Int × Int :=
  let m := mergePairs (l.filter fun x => decide (x ≠ 0))
  (m.1 ++ List.replicate (4 - m.1.length) 0, m.2.sum)

/-- A state whose first row is `[2,2,2,0]`. -/
def threeTwosGame : Game :=
  { Board := ⟨⟨2, 2, 2, 0⟩, ⟨0, 0, 0, 0⟩, ⟨0, 4, 0, 0⟩, ⟨0, 0, 0, 0⟩⟩,
    Score := 4, GameOver := false, Won := false }

/-- A state whose last row is `[2,2,4,0]`. -/
def pairThenDoubleGame : Game :=
  { Board := ⟨⟨0, 0, 0, 0⟩, ⟨0, 0, 0, 0⟩, ⟨0, 4, 0, 0⟩, ⟨2, 2, 4, 0⟩⟩,
    Score := 4, GameOver := false, Won := false }

/-- Nothing in the row can slide or merge towards index 0: a tile has no empty cell and no
equal tile right before it. -/
def settled (r : Row) : Prop :=
  (r.x1 ≠ 0 → r.x0 ≠ 0 ∧ r.x0 ≠ r.x1) ∧ (r.x2 ≠ 0 → r.x1 ≠ 0 ∧ r.x1 ≠ r.x2)
    ∧ (r.x3 ≠ 0 → r.x2 ≠ 0 ∧ r.x2 ≠ r.x3)

/-- Every row of the grid is settled. -/
def settledRows (b : Board) : Prop := settled b.x0 ∧ settled b.x1 ∧ settled b.x2 ∧ settled b.x3

/-- Every cell of the row is empty. -/
def rowZero (r : Row) : Prop := r.x0 = 0 ∧ r.x1 = 0 ∧ r.x2 = 0 ∧ r.x3 = 0

/-- No cell of the row is empty and no two neighbours in it are equal. -/
def rowFullDistinct (r : Row) : Prop :=
  (r.x0 ≠ 0 ∧ r.x1 ≠ 0 ∧ r.x2 ≠ 0 ∧ r.x3 ≠ 0) ∧ r.x0 ≠ r.x1 ∧ r.x1 ≠ r.x2 ∧ r.x2 ≠ r.x3

/-- The state after a sequence of `Move` calls, given as directions with the outcomes of the
random draws. -/
def play (g : Game) (moves : List (Direction × Draw)) : Game :=
  moves.foldl (fun s m => (Move s m.1 m.2).1) g

/-- A game of fourteen moves, none of which merges anything, that fills the board. -/
def overScript : List (Direction × Draw) :=
  [(Right, ⟨13, false⟩), (Down, ⟨9, false⟩), (Left, ⟨10, true⟩), (Left, ⟨3, false⟩),
   (Right, ⟨4, true⟩), (Left, ⟨3, true⟩), (Right, ⟨3, false⟩), (Left, ⟨1, true⟩),
   (Right, ⟨0, true⟩), (Right, ⟨3, true⟩), (Right, ⟨3, false⟩), (Left, ⟨2, false⟩),
   (Right, ⟨1, true⟩), (Left, ⟨0, false⟩)]

/-- The state at the end of that game. -/
def overGame : Game := play (NewGame ⟨2, false⟩ ⟨3, true⟩) overScript

/-! ## Basic facts about `Arr4` -/

section Arr4Facts

variable {α : Type}

theorem Arr4.set_of_ge (a : Arr4 α) (i : Nat) (v : α) (hi : 4 ≤ i) : a.set i v = a := by
  obtain ⟨n, rfl⟩ : ∃ n, i = n + 4 := ⟨i - 4, by omega⟩
  rfl

theorem Arr4.get_of_ge [Inhabited α] (a : Arr4 α) (i : Nat) (hi : 4 ≤ i) :
    a.get i = default := by
  obtain ⟨n, rfl⟩ : ∃ n, i = n + 4 := ⟨i - 4, by omega⟩
  rfl

theorem Arr4.get_set_same [Inhabited α] (a : Arr4 α) (i : Nat) (v : α) (hi : i < 4) :
    (a.set i v).get i = v := by
  interval_cases i <;> rfl

theorem Arr4.get_set_other [Inhabited α] (a : Arr4 α) (i j : Nat) (v : α) (h : i ≠ j) :
    (a.set i v).get j = a.get j := by
  by_cases hi : i < 4
  · by_cases hj : j < 4
    · interval_cases i <;> interval_cases j <;> first | rfl | exact absurd rfl h
    · rw [Arr4.get_of_ge _ j (by omega), Arr4.get_of_ge _ j (by omega)]
  · rw [Arr4.set_of_ge a i v (by omega)]

theorem Arr4.set_set_same (a : Arr4 α) (i : Nat) (v w : α) :
    (a.set i v).set i w = a.set i w := by
  by_cases hi : i < 4
  · interval_cases i <;> rfl
  · rw [Arr4.set_of_ge a i v (by omega)]

theorem Arr4.set_get_same [Inhabited α] (a : Arr4 α) (i : Nat) : a.set i (a.get i) = a := by
  by_cases hi : i < 4
  · interval_cases i <;> rfl
  · rw [Arr4.set_of_ge a i _ (by omega)]

theorem Arr4.reverse_reverse (a : Arr4 α) : a.reverse.reverse = a := rfl

theorem Arr4.get_reverse [Inhabited α] (a : Arr4 α) (k : Nat) (hk : k < 4) :
    a.reverse.get k = a.get (3 - k) := by
  interval_cases k <;> rfl

theorem Arr4.set_reverse (a : Arr4 α) (k : Nat) (v : α) (hk : k < 4) :
    a.reverse.set k v = (a.set (3 - k) v).reverse := by
  interval_cases k <;> rfl

end Arr4Facts

theorem transpose_transpose (b : Board) : transpose (transpose b) = b := rfl

theorem hmirror_hmirror (b : Board) : hmirror (hmirror b) = b := rfl

theorem vmirror_vmirror (b : Board) : vmirror (vmirror b) = b := rfl

theorem get_hmirror (b : Board) (i : Nat) (hi : i < 4) :
    (hmirror b).get i = (b.get i).reverse := by
  interval_cases i <;> rfl

theorem set_hmirror (b : Board) (i : Nat) (r : Row) (hi : i < 4) :
    (hmirror b).set i r.reverse = hmirror (b.set i r) := by
  interval_cases i <;> rfl

theorem cell_transpose (b : Board) (i j : Nat) (hi : i < 4) (hj : j < 4) :
    cell (transpose b) i j = cell b j i := by
  interval_cases i <;> interval_cases j <;> rfl

theorem setCell_transpose (b : Board) (i j : Nat) (v : Int) (hi : i < 4) (hj : j < 4) :
    setCell (transpose b) i j v = transpose (setCell b j i v) := by
  interval_cases i <;> interval_cases j <;> rfl

theorem cell_vmirror (b : Board) (i j : Nat) (hi : i < 4) :
    cell (vmirror b) i j = cell b (3 - i) j := by
  interval_cases i <;> rfl

theorem setCell_vmirror (b : Board) (i j : Nat) (v : Int) (hi : i < 4) :
    setCell (vmirror b) i j v = vmirror (setCell b (3 - i) j v) := by
  interval_cases i <;> rfl

/-! ## Left and right compaction are mirror images -/

theorem swapCells_reverse (r : Row) (i j : Nat) (hi : i < 4) (hj : j < 4) :
    swapCells r.reverse i j = (swapCells r (3 - i) (3 - j)).reverse := by
  unfold swapCells
  rw [Arr4.get_reverse r i hi, Arr4.get_reverse r j hj, Arr4.set_reverse r i _ hi,
    Arr4.set_reverse _ j _ hj]

theorem slideRight_reverse (k : Nat) :
    ∀ (r : Row) (fuel : Nat), k < 4 → k ≤ fuel →
      slideRight r.reverse (3 - k) fuel = ((slideLeft r k).1.reverse, 3 - (slideLeft r k).2) := by
  induction k with
  | zero =>
    intro r fuel _ _
    cases fuel <;> simp [slideRight, slideLeft]
  | succ k ih =>
    intro r fuel hk hf
    obtain ⟨f, rfl⟩ : ∃ f, fuel = f + 1 := ⟨fuel - 1, by omega⟩
    have h1 : 3 - (k + 1) + 1 = 3 - k := by omega
    have h2 : 3 - (k + 1) < 3 := by omega
    have h3 : r.reverse.get (3 - k) = r.get k := by
      rw [Arr4.get_reverse r (3 - k) (by omega)]
      congr 1
      omega
    have h4 : swapCells r.reverse (3 - k) (3 - (k + 1)) = (swapCells r k (k + 1)).reverse := by
      rw [swapCells_reverse r _ _ (by omega) (by omega)]
      congr 2 <;> omega
    simp only [slideRight, slideLeft, h1, h2, h3, h4, true_and]
    by_cases hz : r.get k = 0
    · simp only [hz, if_true]
      exact ih _ f (by omega) (by omega)
    · simp only [hz, if_false]

theorem slideLeft_le (k : Nat) : ∀ r : Row, (slideLeft r k).2 ≤ k := by
  induction k with
  | zero => intro r; simp [slideLeft]
  | succ k ih =>
    intro r
    simp only [slideLeft]
    split
    · exact Nat.le_succ_of_le (ih _)
    · exact Nat.le_refl _

theorem stepRight_reverse (st : Row × Marks × Int) (j : Nat) (hj : j < 4) :
    stepRight (revState st) (3 - j) = revState (stepLeft st j) := by
  obtain ⟨r, m, s⟩ := st
  have h0 : r.reverse.get (3 - j) = r.get j := by
    rw [Arr4.get_reverse r (3 - j) (by omega)]
    congr 1
    omega
  unfold stepRight stepLeft revState
  simp only [h0]
  by_cases hz : r.get j = 0
  · simp only [hz, if_true]
  · simp only [hz, if_false]
    rw [slideRight_reverse j r 3 hj (by omega)]
    have hk := slideLeft_le j r
    generalize slideLeft r j = p at hk ⊢
    obtain ⟨⟨a, b, c, d⟩, k⟩ := p
    obtain ⟨m0, m1, m2, m3⟩ := m
    simp only at hk ⊢
    have hk4 : k < 4 := by omega
    interval_cases k <;> simp [Arr4.get, Arr4.set, Arr4.reverse] <;> split_ifs <;> simp_all

theorem lineRight_reverse (r : Row) (s : Int) :
    lineRight r.reverse s = revState (lineLeft r s) := by
  unfold lineRight lineLeft
  simp only [List.foldl]
  rw [← stepRight_reverse _ 3 (by omega), ← stepRight_reverse _ 2 (by omega),
    ← stepRight_reverse _ 1 (by omega)]
  rfl

theorem moveRightRow_hmirror (g : Game) (i : Nat) (hi : i < 4) :
    moveRightRow (mapBoard hmirror g) i = mapBoard hmirror (moveLeftRow g i) := by
  unfold moveRightRow moveLeftRow mapBoard
  simp only [get_hmirror g.Board i hi, lineRight_reverse, revState, set_hmirror _ i _ hi]

theorem moveRight_hmirror (g : Game) :
    moveRight (mapBoard hmirror g) = mapBoard hmirror (moveLeft g) := by
  unfold moveRight moveLeft
  simp only [List.foldl]
  rw [moveRightRow_hmirror g 0 (by omega), moveRightRow_hmirror _ 1 (by omega),
    moveRightRow_hmirror _ 2 (by omega), moveRightRow_hmirror _ 3 (by omega)]

/-! ## The vertical routines act on columns as the horizontal ones act on rows -/

theorem cell_col (c : Board) (r : Row) (j k : Nat) (hj : j < 4) (hk : k < 4) :
    cell (transpose (c.set j r)) k j = r.get k := by
  rw [cell_transpose _ k j hk hj]
  unfold cell
  rw [Arr4.get_set_same c j r hj]

theorem setCell_col (c : Board) (r : Row) (j k : Nat) (v : Int) (hj : j < 4) (hk : k < 4) :
    setCell (transpose (c.set j r)) k j v = transpose (c.set j (r.set k v)) := by
  have h := setCell_transpose (transpose (c.set j r)) j k v hj hk
  rw [transpose_transpose] at h
  have h2 : setCell (c.set j r) j k v = c.set j (r.set k v) := by
    unfold setCell
    rw [Arr4.get_set_same c j r hj, Arr4.set_set_same]
  rw [← transpose_transpose (setCell (transpose (c.set j r)) k j v), ← h, h2]

theorem swapInCol_col (c : Board) (r : Row) (j i1 i2 : Nat) (hj : j < 4) (h1 : i1 < 4)
    (h2 : i2 < 4) :
    swapInCol (transpose (c.set j r)) j i1 i2 = transpose (c.set j (swapCells r i1 i2)) := by
  unfold swapInCol swapCells
  rw [cell_col c r j i1 hj h1, cell_col c r j i2 hj h2, setCell_col c r j i1 _ hj h1,
    setCell_col c _ j i2 _ hj h2]

theorem slideUp_col (c : Board) (j : Nat) (hj : j < 4) (k : Nat) :
    ∀ r : Row, k < 4 →
      slideUp (transpose (c.set j r)) j k
        = (transpose (c.set j (slideLeft r k).1), (slideLeft r k).2) := by
  induction k with
  | zero => intro r _; rfl
  | succ k ih =>
    intro r hk
    simp only [slideUp, slideLeft, cell_col c r j k hj (by omega)]
    by_cases hz : r.get k = 0
    · simp only [hz, if_true]
      rw [swapInCol_col c r j k (k + 1) hj (by omega) hk]
      exact ih _ (by omega)
    · simp only [hz, if_false]

theorem stepUp_col (c : Board) (j : Nat) (hj : j < 4) (st : Row × Marks × Int) (i : Nat)
    (hi : i < 4) :
    stepUp j (colState c j st) i = colState c j (stepLeft st i) := by
  obtain ⟨r, m, s⟩ := st
  unfold stepUp stepLeft colState
  simp only [cell_col c r j i hj hi]
  by_cases hz : r.get i = 0
  · simp only [hz, if_true]
  · simp only [hz, if_false]
    rw [slideUp_col c j hj i r hi]
    have hk := slideLeft_le i r
    generalize slideLeft r i = p at hk ⊢
    obtain ⟨r1, k⟩ := p
    simp only at hk ⊢
    have hk4 : k < 4 := by omega
    by_cases hpos : k > 0
    · have hk1 : k - 1 < 4 := by omega
      simp only [cell_col c r1 j k hj hk4, cell_col c r1 j (k - 1) hj hk1,
        setCell_col c r1 j (k - 1) _ hj hk1, setCell_col c _ j k _ hj hk4,
        cell_col c _ j (k - 1) hj hk1]
      split_ifs <;> rfl
    · simp [hpos]

theorem moveUpCol_transpose (g : Game) (j : Nat) (hj : j < 4) :
    moveUpCol g j = mapBoard transpose (moveLeftRow (mapBoard transpose g) j) := by
  have hb : g.Board = transpose ((transpose g.Board).set j ((transpose g.Board).get j)) := by
    rw [Arr4.set_get_same, transpose_transpose]
  have hs : (g.Board, noMarks, g.Score)
      = colState (transpose g.Board) j ((transpose g.Board).get j, noMarks, g.Score) := by
    unfold colState
    rw [← hb]
  unfold moveUpCol moveLeftRow mapBoard lineLeft
  simp only [List.foldl]
  rw [hs, stepUp_col _ j hj _ 1 (by omega), stepUp_col _ j hj _ 2 (by omega),
    stepUp_col _ j hj _ 3 (by omega)]
  rfl

theorem moveUp_transpose (g : Game) :
    moveUp g = mapBoard transpose (moveLeft (mapBoard transpose g)) := by
  have inv : ∀ h : Game, mapBoard transpose (mapBoard transpose h) = h := fun _ => rfl
  unfold moveUp moveLeft
  simp only [List.foldl]
  rw [moveUpCol_transpose _ 3 (by omega), moveUpCol_transpose _ 2 (by omega),
    moveUpCol_transpose _ 1 (by omega), moveUpCol_transpose _ 0 (by omega)]
  simp only [inv]

theorem slideRight_le (fuel : Nat) : ∀ (r : Row) (k : Nat), k < 4 → (slideRight r k fuel).2 < 4 := by
  induction fuel with
  | zero => intro r k hk; exact hk
  | succ f ih =>
    intro r k hk
    simp only [slideRight]
    split
    · exact ih _ _ (by omega)
    · exact hk

theorem slideDown_col (c : Board) (j : Nat) (hj : j < 4) (fuel : Nat) :
    ∀ (r : Row) (k : Nat), k < 4 →
      slideDown (transpose (c.set j r)) j k fuel
        = (transpose (c.set j (slideRight r k fuel).1), (slideRight r k fuel).2) := by
  induction fuel with
  | zero => intro r k _; rfl
  | succ f ih =>
    intro r k hk
    simp only [slideDown, slideRight]
    by_cases hlt : k < 3
    · simp only [hlt, true_and, cell_col c r j (k + 1) hj (by omega)]
      by_cases hz : r.get (k + 1) = 0
      · simp only [hz, if_true]
        rw [swapInCol_col c r j (k + 1) k hj (by omega) hk]
        exact ih _ _ (by omega)
      · simp only [hz, if_false]
    · simp only [hlt, false_and, if_false]

theorem stepDown_col (c : Board) (j : Nat) (hj : j < 4) (st : Row × Marks × Int) (i : Nat)
    (hi : i < 4) :
    stepDown j (colState c j st) i = colState c j (stepRight st i) := by
  obtain ⟨r, m, s⟩ := st
  unfold stepDown stepRight colState
  simp only [cell_col c r j i hj hi]
  by_cases hz : r.get i = 0
  · simp only [hz, if_true]
  · simp only [hz, if_false]
    rw [slideDown_col c j hj 3 r i hi]
    have hk4 := slideRight_le 3 r i hi
    generalize slideRight r i 3 = p at hk4 ⊢
    obtain ⟨r1, k⟩ := p
    simp only at hk4 ⊢
    by_cases hlt : k < 3
    · have hk1 : k + 1 < 4 := by omega
      simp only [cell_col c r1 j k hj hk4, cell_col c r1 j (k + 1) hj hk1,
        setCell_col c r1 j (k + 1) _ hj hk1, setCell_col c _ j k _ hj hk4,
        cell_col c _ j (k + 1) hj hk1]
      split_ifs <;> rfl
    · simp [hlt]

theorem moveDownCol_transpose (g : Game) (j : Nat) (hj : j < 4) :
    moveDownCol g j = mapBoard transpose (moveRightRow (mapBoard transpose g) j) := by
  have hb : g.Board = transpose ((transpose g.Board).set j ((transpose g.Board).get j)) := by
    rw [Arr4.set_get_same, transpose_transpose]
  have hs : (g.Board, noMarks, g.Score)
      = colState (transpose g.Board) j ((transpose g.Board).get j, noMarks, g.Score) := by
    unfold colState
    rw [← hb]
  unfold moveDownCol moveRightRow mapBoard lineRight
  simp only [List.foldl]
  rw [hs, stepDown_col _ j hj _ 2 (by omega), stepDown_col _ j hj _ 1 (by omega),
    stepDown_col _ j hj _ 0 (by omega)]
  rfl

theorem moveDown_transpose (g : Game) :
    moveDown g = mapBoard transpose (moveRight (mapBoard transpose g)) := by
  have inv : ∀ h : Game, mapBoard transpose (mapBoard transpose h) = h := fun _ => rfl
  unfold moveDown moveRight
  simp only [List.foldl]
  rw [moveDownCol_transpose _ 3 (by omega), moveDownCol_transpose _ 2 (by omega),
    moveDownCol_transpose _ 1 (by omega), moveDownCol_transpose _ 0 (by omega)]
  simp only [inv]

theorem moveDown_vmirror (g : Game) :
    moveDown (mapBoard vmirror g) = mapBoard vmirror (moveUp g) := by
  have e : mapBoard transpose (mapBoard vmirror g) = mapBoard hmirror (mapBoard transpose g) :=
    rfl
  rw [moveDown_transpose, moveUp_transpose, e, moveRight_hmirror]
  rfl

/-! ## Loop exits: the iteration bound of the right/down slides is never the reason to stop -/

theorem slideRight_exit (fuel : Nat) :
    ∀ (r : Row) (k : Nat), 3 ≤ k + fuel →
      ¬ ((slideRight r k fuel).2 < 3
          ∧ (slideRight r k fuel).1.get ((slideRight r k fuel).2 + 1) = 0) := by
  induction fuel with
  | zero =>
    intro r k hk
    simp only [slideRight]
    omega
  | succ f ih =>
    intro r k hk
    simp only [slideRight]
    split
    · exact ih _ _ (by omega)
    · assumption

theorem slideDown_exit (j : Nat) (fuel : Nat) :
    ∀ (b : Board) (k : Nat), 3 ≤ k + fuel →
      ¬ ((slideDown b j k fuel).2 < 3
          ∧ cell (slideDown b j k fuel).1 ((slideDown b j k fuel).2 + 1) j = 0) := by
  induction fuel with
  | zero =>
    intro b k hk
    simp only [slideDown]
    omega
  | succ f ih =>
    intro b k hk
    simp only [slideDown]
    split
    · exact ih _ _ (by omega)
    · assumption

/-! ## Arithmetic of the 64-bit `int` -/

theorem wrap64_of_range (x : Int) (h1 : -9223372036854775808 ≤ x)
    (h2 : x < 9223372036854775808) : wrap64 x = x := by
  unfold wrap64
  omega

theorem wrap64_range (x : Int) :
    -9223372036854775808 ≤ wrap64 x ∧ wrap64 x < 9223372036854775808 := by
  unfold wrap64
  omega

theorem wrap64_diff (s x : Int) : wrap64 (wrap64 (s + wrap64 x) - s) = wrap64 x := by
  unfold wrap64
  omega

theorem wrap64_zero : wrap64 0 = 0 := by decide

theorem wrap64_double (a : Int) (h1 : -4611686018427387904 ≤ a) (h2 : a < 4611686018427387904) :
    wrap64 (a * 2) = a * 2 := by
  unfold wrap64
  omega

/-! ## Tiles are never created by a compaction, and a merge removes at least one -/

theorem rowTiles_swapCells (r : Row) (i j : Nat) (hi : i < 4) (hj : j < 4) :
    rowTiles (swapCells r i j) = rowTiles r := by
  obtain ⟨a, b, c, d⟩ := r
  interval_cases i <;> interval_cases j <;>
    simp only [swapCells, Arr4.get, Arr4.set, rowTiles] <;> omega

theorem slideLeft_tiles (k : Nat) :
    ∀ r : Row, k < 4 → rowTiles (slideLeft r k).1 = rowTiles r := by
  induction k with
  | zero => intro r _; rfl
  | succ k ih =>
    intro r hk
    simp only [slideLeft]
    split
    · rw [ih _ (by omega), rowTiles_swapCells r k (k + 1) (by omega) hk]
    · rfl

theorem slideLeft_get (k : Nat) :
    ∀ r : Row, k < 4 → (slideLeft r k).1.get (slideLeft r k).2 = r.get k := by
  induction k with
  | zero => intro r _; rfl
  | succ k ih =>
    intro r hk
    simp only [slideLeft]
    split
    · rw [ih _ (by omega)]
      unfold swapCells
      rw [Arr4.get_set_other _ (k + 1) k _ (by omega), Arr4.get_set_same _ k _ (by omega)]
    · rfl

theorem merge_tiles (r : Row) (k : Nat) (hk : k < 4) (hpos : k > 0) (hnz : r.get k ≠ 0)
    (heq : r.get (k - 1) = r.get k) :
    rowTiles ((r.set (k - 1) (wrap64 (r.get (k - 1) * 2))).set k 0) < rowTiles r := by
  obtain ⟨a, b, c, d⟩ := r
  interval_cases k <;> simp only [Arr4.get, Arr4.set, rowTiles] at * <;> subst heq <;>
    simp only [hnz, if_true, if_false] <;> split_ifs <;> omega

theorem stepLeft_tiles (st : Row × Marks × Int) (j : Nat) (hj : j < 4) :
    ((stepLeft st j).2.2 = st.2.2 ∧ rowTiles (stepLeft st j).1 = rowTiles st.1)
      ∨ rowTiles (stepLeft st j).1 < rowTiles st.1 := by
  obtain ⟨r, m, s⟩ := st
  unfold stepLeft
  by_cases hz : r.get j = 0
  · simp [hz]
  · simp only [hz, if_false]
    have hk := slideLeft_le j r
    have ht := slideLeft_tiles j r hj
    have hg := slideLeft_get j r hj
    generalize slideLeft r j = p at hk ht hg ⊢
    obtain ⟨r1, k⟩ := p
    simp only at hk ht hg ⊢
    split_ifs with hc
    · right
      have := merge_tiles r1 k (by omega) hc.1 (by rw [hg]; exact hz) hc.2.1
      simp only
      omega
    · left
      exact ⟨rfl, ht⟩

theorem lineLeft_tiles (r : Row) (s : Int) :
    ((lineLeft r s).2.2 = s ∧ rowTiles (lineLeft r s).1 = rowTiles r)
      ∨ rowTiles (lineLeft r s).1 < rowTiles r := by
  unfold lineLeft
  simp only [List.foldl]
  have h1 := stepLeft_tiles (r, noMarks, s) 1 (by omega)
  have h2 := stepLeft_tiles (stepLeft (r, noMarks, s) 1) 2 (by omega)
  have h3 := stepLeft_tiles (stepLeft (stepLeft (r, noMarks, s) 1) 2) 3 (by omega)
  simp only at h1
  omega

theorem lineLeft_fixed (r : Row) (s : Int) (h : (lineLeft r s).1 = r) : (lineLeft r s).2.2 = s := by
  rcases lineLeft_tiles r s with h1 | h1
  · exact h1.1
  · rw [h] at h1
    omega

/-! ## A compaction that leaves the board alone leaves the whole state alone -/

theorem moveLeft_fixed (g : Game) (h : (moveLeft g).Board = g.Board) : moveLeft g = g := by
  obtain ⟨⟨r0, r1, r2, r3⟩, s, over, won⟩ := g
  simp only [moveLeft, moveLeftRow, List.foldl, Arr4.get, Arr4.set, Arr4.mk.injEq] at h ⊢
  obtain ⟨h0, h1, h2, h3⟩ := h
  have e0 := lineLeft_fixed r0 s h0
  rw [e0] at h1 h2 h3 ⊢
  have e1 := lineLeft_fixed r1 s h1
  rw [e1] at h2 h3 ⊢
  have e2 := lineLeft_fixed r2 s h2
  rw [e2] at h3 ⊢
  have e3 := lineLeft_fixed r3 s h3
  rw [e3, h0, h1, h2, h3]

theorem fixed_of_conj (f : Board → Board) (hf : ∀ b, f (f b) = b) (m1 m2 : Game → Game)
    (hm : ∀ g, m2 g = mapBoard f (m1 (mapBoard f g)))
    (h1 : ∀ g, (m1 g).Board = g.Board → m1 g = g) (g : Game) (h : (m2 g).Board = g.Board) :
    m2 g = g := by
  have inv : ∀ x : Game, mapBoard f (mapBoard f x) = x := by
    intro x
    unfold mapBoard
    simp only [hf]
  rw [hm] at h ⊢
  have hb : (m1 (mapBoard f g)).Board = (mapBoard f g).Board := by
    have := congrArg f h
    simp only [mapBoard, hf] at this ⊢
    exact this
  rw [h1 _ hb, inv]

theorem moveRight_eq (g : Game) :
    moveRight g = mapBoard hmirror (moveLeft (mapBoard hmirror g)) := by
  have := moveRight_hmirror (mapBoard hmirror g)
  have e : mapBoard hmirror (mapBoard hmirror g) = g := rfl
  rw [e] at this
  exact this

theorem moveRight_fixed (g : Game) (h : (moveRight g).Board = g.Board) : moveRight g = g :=
  fixed_of_conj hmirror hmirror_hmirror moveLeft moveRight moveRight_eq moveLeft_fixed g h

theorem moveUp_fixed (g : Game) (h : (moveUp g).Board = g.Board) : moveUp g = g :=
  fixed_of_conj transpose transpose_transpose moveLeft moveUp moveUp_transpose moveLeft_fixed g h

theorem moveDown_fixed (g : Game) (h : (moveDown g).Board = g.Board) : moveDown g = g :=
  fixed_of_conj transpose transpose_transpose moveRight moveDown moveDown_transpose
    moveRight_fixed g h

theorem compact_fixed (g : Game) (dir : Direction) (h : (compact g dir).Board = g.Board) :
    compact g dir = g := by
  unfold compact at h ⊢
  split_ifs at h ⊢
  · exact moveLeft_fixed g h
  · exact moveRight_fixed g h
  · exact moveUp_fixed g h
  · exact moveDown_fixed g h
  · rfl

/-! ## Closed forms of the `moveLeft` loop body -/

theorem Arr4.get_0 {α : Type} [Inhabited α] (a : Arr4 α) : a.get 0 = a.x0 := rfl
theorem Arr4.get_1 {α : Type} [Inhabited α] (a : Arr4 α) : a.get 1 = a.x1 := rfl
theorem Arr4.get_2 {α : Type} [Inhabited α] (a : Arr4 α) : a.get 2 = a.x2 := rfl
theorem Arr4.get_3 {α : Type} [Inhabited α] (a : Arr4 α) : a.get 3 = a.x3 := rfl
theorem Arr4.set_0 {α : Type} (a : Arr4 α) (v : α) : a.set 0 v = ⟨v, a.x1, a.x2, a.x3⟩ := rfl
theorem Arr4.set_1 {α : Type} (a : Arr4 α) (v : α) : a.set 1 v = ⟨a.x0, v, a.x2, a.x3⟩ := rfl
theorem Arr4.set_2 {α : Type} (a : Arr4 α) (v : α) : a.set 2 v = ⟨a.x0, a.x1, v, a.x3⟩ := rfl
theorem Arr4.set_3 {α : Type} (a : Arr4 α) (v : α) : a.set 3 v = ⟨a.x0, a.x1, a.x2, v⟩ := rfl

theorem stepLeft_one (a b c d s : Int) (m0 m1 m2 m3 : Bool) :
    stepLeft (⟨a, b, c, d⟩, ⟨m0, m1, m2, m3⟩, s) 1 =
      if b = 0 then (⟨a, b, c, d⟩, ⟨m0, m1, m2, m3⟩, s)
      else if a = 0 then (⟨b, 0, c, d⟩, ⟨m0, m1, m2, m3⟩, s)
      else if a = b ∧ m0 = false then
        (⟨wrap64 (a * 2), 0, c, d⟩, ⟨true, m1, m2, m3⟩, wrap64 (s + wrap64 (a * 2)))
      else (⟨a, b, c, d⟩, ⟨m0, m1, m2, m3⟩, s) := by
  by_cases hd : d = 0 <;> by_cases hc : c = 0 <;> by_cases hb : b = 0 <;> by_cases ha : a = 0 <;>
    simp [stepLeft, slideLeft, swapCells, Arr4.get_0, Arr4.get_1, Arr4.get_2, Arr4.get_3,
      Arr4.set_0, Arr4.set_1, Arr4.set_2, Arr4.set_3, ha, hb, hc, hd]

theorem stepLeft_two (a b c d s : Int) (m0 m1 m2 m3 : Bool) :
    stepLeft (⟨a, b, c, d⟩, ⟨m0, m1, m2, m3⟩, s) 2 =
      if c = 0 then (⟨a, b, c, d⟩, ⟨m0, m1, m2, m3⟩, s)
      else if b = 0 then
        if a = 0 then (⟨c, 0, 0, d⟩, ⟨m0, m1, m2, m3⟩, s)
        else if a = c ∧ m0 = false then
          (⟨wrap64 (a * 2), 0, 0, d⟩, ⟨true, m1, m2, m3⟩, wrap64 (s + wrap64 (a * 2)))
        else (⟨a, c, 0, d⟩, ⟨m0, m1, m2, m3⟩, s)
      else if b = c ∧ m1 = false then
        (⟨a, wrap64 (b * 2), 0, d⟩, ⟨m0, true, m2, m3⟩, wrap64 (s + wrap64 (b * 2)))
      else (⟨a, b, c, d⟩, ⟨m0, m1, m2, m3⟩, s) := by
  by_cases hd : d = 0 <;> by_cases hc : c = 0 <;> by_cases hb : b = 0 <;> by_cases ha : a = 0 <;>
    simp [stepLeft, slideLeft, swapCells, Arr4.get_0, Arr4.get_1, Arr4.get_2, Arr4.get_3,
      Arr4.set_0, Arr4.set_1, Arr4.set_2, Arr4.set_3, ha, hb, hc, hd]

theorem stepLeft_three (a b c d s : Int) (m0 m1 m2 m3 : Bool) :
    stepLeft (⟨a, b, c, d⟩, ⟨m0, m1, m2, m3⟩, s) 3 =
      if d = 0 then (⟨a, b, c, d⟩, ⟨m0, m1, m2, m3⟩, s)
      else if c = 0 then
        if b = 0 then
          if a = 0 then (⟨d, 0, 0, 0⟩, ⟨m0, m1, m2, m3⟩, s)
          else if a = d ∧ m0 = false then
            (⟨wrap64 (a * 2), 0, 0, 0⟩, ⟨true, m1, m2, m3⟩, wrap64 (s + wrap64 (a * 2)))
          else (⟨a, d, 0, 0⟩, ⟨m0, m1, m2, m3⟩, s)
        else if b = d ∧ m1 = false then
          (⟨a, wrap64 (b * 2), 0, 0⟩, ⟨m0, true, m2, m3⟩, wrap64 (s + wrap64 (b * 2)))
        else (⟨a, b, d, 0⟩, ⟨m0, m1, m2, m3⟩, s)
      else if c = d ∧ m2 = false then
        (⟨a, b, wrap64 (c * 2), 0⟩, ⟨m0, m1, true, m3⟩, wrap64 (s + wrap64 (c * 2)))
      else (⟨a, b, c, d⟩, ⟨m0, m1, m2, m3⟩, s) := by
  by_cases hd : d = 0 <;> by_cases hc : c = 0 <;> by_cases hb : b = 0 <;> by_cases ha : a = 0 <;>
    simp [stepLeft, slideLeft, swapCells, Arr4.get_0, Arr4.get_1, Arr4.get_2, Arr4.get_3,
      Arr4.set_0, Arr4.set_1, Arr4.set_2, Arr4.set_3, ha, hb, hc, hd]

/-! ## Rows are compacted independently of each other; the score does not steer the tiles -/

theorem stepLeft_congr (st st1 : Row × Marks × Int) (j : Nat) (h1 : st.1 = st1.1)
    (h2 : st.2.1 = st1.2.1) :
    (stepLeft st j).1 = (stepLeft st1 j).1 ∧ (stepLeft st j).2.1 = (stepLeft st1 j).2.1 := by
  obtain ⟨r, m, s⟩ := st
  obtain ⟨r1, m1, s1⟩ := st1
  simp only at h1 h2
  subst h1 h2
  unfold stepLeft
  simp only
  split_ifs <;> exact ⟨rfl, rfl⟩

theorem lineLeft_eq (r : Row) (s : Int) :
    lineLeft r s = (rowLeft r, marksLeft r, scoreLeft r s) := by
  have h1 := stepLeft_congr (r, noMarks, s) (r, noMarks, 0) 1 rfl rfl
  have h2 := stepLeft_congr _ _ 2 h1.1 h1.2
  have h3 := stepLeft_congr _ _ 3 h2.1 h2.2
  unfold rowLeft marksLeft scoreLeft lineLeft
  simp only [List.foldl]
  exact Prod.ext h3.1 (Prod.ext h3.2 rfl)

theorem moveLeft_eq (g : Game) :
    moveLeft g =
      { g with
        Board := ⟨rowLeft g.Board.x0, rowLeft g.Board.x1, rowLeft g.Board.x2, rowLeft g.Board.x3⟩
        Score := scoreLeft g.Board.x3
          (scoreLeft g.Board.x2 (scoreLeft g.Board.x1 (scoreLeft g.Board.x0 g.Score))) } := by
  simp only [moveLeft, moveLeftRow, List.foldl, Arr4.get, Arr4.set]
  simp only [lineLeft_eq]

theorem moveLeft_get (g : Game) (i : Nat) (hi : i < 4) :
    (moveLeft g).Board.get i = rowLeft (g.Board.get i) := by
  rw [moveLeft_eq]
  interval_cases i <;> rfl

theorem moveLeftRow_score (g : Game) (i : Nat) :
    (moveLeftRow g i).Score = scoreLeft (g.Board.get i) g.Score := by
  unfold moveLeftRow
  simp only [lineLeft_eq]

theorem moveLeftRow_get (g : Game) (i : Nat) (hi : i < 4) :
    (moveLeftRow g i).Board.get i = rowLeft (g.Board.get i) := by
  unfold moveLeftRow
  simp only [lineLeft_eq]
  exact Arr4.get_set_same _ i _ hi

theorem lineLeft_four (a s : Int) (ha : a ≠ 0) (h1 : -4611686018427387904 ≤ a)
    (h2 : a < 4611686018427387904) :
    lineLeft ⟨a, a, a, a⟩ s
      = (⟨a * 2, a * 2, 0, 0⟩, ⟨true, true, false, false⟩,
          wrap64 (wrap64 (s + a * 2) + a * 2)) := by
  have hw := wrap64_double a h1 h2
  have h3 : a * 2 ≠ 0 := by omega
  simp [lineLeft, noMarks, stepLeft_one, stepLeft_two, stepLeft_three, ha, hw, h3]

theorem lineLeft_three (a s : Int) (ha : a ≠ 0) (h1 : -4611686018427387904 ≤ a)
    (h2 : a < 4611686018427387904) :
    lineLeft ⟨a, a, a, 0⟩ s
      = (⟨a * 2, a, 0, 0⟩, ⟨true, false, false, false⟩, wrap64 (s + a * 2)) := by
  have hw := wrap64_double a h1 h2
  have h3 : a * 2 ≠ 0 := by omega
  simp [lineLeft, noMarks, stepLeft_one, stepLeft_two, stepLeft_three, ha, hw, h3]

theorem lineLeft_gap_three (a s : Int) (ha : a ≠ 0) (h1 : -4611686018427387904 ≤ a)
    (h2 : a < 4611686018427387904) :
    lineLeft ⟨0, a, a, a⟩ s
      = (⟨a * 2, a, 0, 0⟩, ⟨true, false, false, false⟩, wrap64 (s + a * 2)) := by
  have hw := wrap64_double a h1 h2
  have h3 : a * 2 ≠ 0 := by omega
  simp [lineLeft, noMarks, stepLeft_one, stepLeft_two, stepLeft_three, ha, hw, h3]

theorem lineLeft_pair_double (a s : Int) (ha : a ≠ 0) (h1 : -4611686018427387904 ≤ a)
    (h2 : a < 4611686018427387904) :
    lineLeft ⟨a, a, a * 2, 0⟩ s
      = (⟨a * 2, a * 2, 0, 0⟩, ⟨true, false, false, false⟩, wrap64 (s + a * 2)) := by
  have hw := wrap64_double a h1 h2
  have h3 : a * 2 ≠ 0 := by omega
  simp [lineLeft, noMarks, stepLeft_one, stepLeft_two, stepLeft_three, ha, hw, h3]

theorem lineLeft_slide (r : Row) (s : Int) (h : List.Chain' (fun x y => x ≠ y) (tiles r)) :
    (lineLeft r s).1.toList = packed r ∧ (lineLeft r s).2.2 = s := by
  obtain ⟨a, b, c, d⟩ := r
  by_cases ha : a = 0 <;> by_cases hb : b = 0 <;> by_cases hc : c = 0 <;> by_cases hd : d = 0 <;>
    simp [tiles, packed, Arr4.toList, ha, hb, hc, hd] at h ⊢ <;>
    simp [lineLeft, noMarks, stepLeft_one, stepLeft_two, stepLeft_three, Arr4.toList, ha, hb, hc,
      hd, h]

theorem scoreLeft_zero (s : Int) : scoreLeft ⟨0, 0, 0, 0⟩ s = s := by
  unfold scoreLeft
  simp [lineLeft, noMarks, stepLeft_one, stepLeft_two, stepLeft_three]

/-! ## The scans of `checkGameStatus` -/

theorem any_range_iff (n : Nat) (p : Nat → Bool) :
    (List.range n).any p = true ↔ ∃ i, i < n ∧ p i = true := by
  simp [List.any_eq_true]

theorem has2048_iff (b : Board) : has2048 b = true ↔ holds b 2048 := by
  unfold has2048 holds
  simp only [any_range_iff, decide_eq_true_eq]

theorem hasEmptyCells_iff (g : Game) : hasEmptyCells g = true ↔ ¬ isFull g.Board := by
  unfold hasEmptyCells isFull
  simp only [any_range_iff, decide_eq_true_eq]
  push_neg
  rfl

theorem hasPossibleMoves_iff (g : Game) :
    hasPossibleMoves g = true ↔ ¬ noEqualNeighbours g.Board := by
  unfold hasPossibleMoves noEqualNeighbours
  simp only [Bool.or_eq_true, any_range_iff, decide_eq_true_eq]
  constructor
  · rintro (⟨i, hi, j, hj, h⟩ | ⟨j, hj, i, hi, h⟩) ⟨h1, h2⟩
    · exact h1 i hi j hj h
    · exact h2 i hi j hj h
  · intro h
    by_contra hc
    refine h ⟨fun i hi j hj he => hc (Or.inl ⟨i, hi, j, hj, he⟩),
      fun i hi j hj he => hc (Or.inr ⟨j, hj, i, hi, he⟩)⟩

theorem checkGameStatus_no2048 (g : Game) (h : ¬ holds g.Board 2048) :
    checkGameStatus g
      = if isFull g.Board ∧ noEqualNeighbours g.Board then { g with GameOver := true } else g := by
  have h1 : has2048 g.Board = false := by
    rw [← Bool.not_eq_true, has2048_iff]
    exact h
  unfold checkGameStatus
  rw [h1]
  by_cases hf : isFull g.Board <;> by_cases hn : noEqualNeighbours g.Board
  · have e1 : hasEmptyCells g = false := by
      rw [← Bool.not_eq_true, hasEmptyCells_iff]
      exact not_not.mpr hf
    have e2 : hasPossibleMoves g = false := by
      rw [← Bool.not_eq_true, hasPossibleMoves_iff]
      exact not_not.mpr hn
    simp [e1, e2, hf, hn]
  · have e2 : hasPossibleMoves g = true := (hasPossibleMoves_iff g).mpr hn
    simp [e2, hn]
  · have e1 : hasEmptyCells g = true := (hasEmptyCells_iff g).mpr hf
    simp [e1, hf]
  · have e1 : hasEmptyCells g = true := (hasEmptyCells_iff g).mpr hf
    simp [e1, hf]

/-! ## The empty cells found by `addRandomTile` -/

theorem mem_foldl_inner (p : Nat × Nat) (P : Nat → Prop) [DecidablePred P]
    (f : Nat → Nat × Nat) (l : List Nat) :
    ∀ acc : List (Nat × Nat),
      p ∈ l.foldl (fun acc j => if P j then acc ++ [f j] else acc) acc
        ↔ p ∈ acc ∨ ∃ j, j ∈ l ∧ P j ∧ p = f j := by
  induction l with
  | nil => intro acc; simp
  | cons x t ih =>
    intro acc
    rw [List.foldl_cons, ih]
    by_cases hx : P x
    · simp only [hx, if_true, List.mem_append, List.mem_cons, List.not_mem_nil, or_false]
      constructor
      · rintro ((h | h) | ⟨j, hj, hP, he⟩)
        · exact Or.inl h
        · exact Or.inr ⟨x, Or.inl rfl, hx, h⟩
        · exact Or.inr ⟨j, Or.inr hj, hP, he⟩
      · rintro (h | ⟨j, hj | hj, hP, he⟩)
        · exact Or.inl (Or.inl h)
        · subst hj
          exact Or.inl (Or.inr he)
        · exact Or.inr ⟨j, hj, hP, he⟩
    · simp only [hx, if_false, List.mem_cons]
      constructor
      · rintro (h | ⟨j, hj, hP, he⟩)
        · exact Or.inl h
        · exact Or.inr ⟨j, Or.inr hj, hP, he⟩
      · rintro (h | ⟨j, hj | hj, hP, he⟩)
        · exact Or.inl h
        · subst hj
          exact absurd hP hx
        · exact Or.inr ⟨j, hj, hP, he⟩

theorem mem_foldl_outer (p : Nat × Nat) (G : List (Nat × Nat) → Nat → List (Nat × Nat))
    (Q : Nat → Prop) (hG : ∀ acc i, p ∈ G acc i ↔ p ∈ acc ∨ Q i) (l : List Nat) :
    ∀ acc : List (Nat × Nat), p ∈ l.foldl G acc ↔ p ∈ acc ∨ ∃ i, i ∈ l ∧ Q i := by
  induction l with
  | nil => intro acc; simp
  | cons x t ih =>
    intro acc
    rw [List.foldl_cons, ih, hG]
    simp only [List.mem_cons]
    constructor
    · rintro ((h | h) | ⟨i, hi, hQ⟩)
      · exact Or.inl h
      · exact Or.inr ⟨x, Or.inl rfl, h⟩
      · exact Or.inr ⟨i, Or.inr hi, hQ⟩
    · rintro (h | ⟨i, hi | hi, hQ⟩)
      · exact Or.inl (Or.inl h)
      · subst hi
        exact Or.inl (Or.inr hQ)
      · exact Or.inr ⟨i, hi, hQ⟩

theorem mem_emptyCells (b : Board) (p : Nat × Nat) :
    p ∈ emptyCells b ↔ p.1 < 4 ∧ p.2 < 4 ∧ cell b p.1 p.2 = 0 := by
  unfold emptyCells
  rw [mem_foldl_outer p _ (fun i => ∃ j, j ∈ List.range 4 ∧ cell b i j = 0 ∧ p = (i, j))
    (fun acc i => mem_foldl_inner p (fun j => cell b i j = 0) (fun j => (i, j)) _ acc)]
  simp only [List.not_mem_nil, false_or, List.mem_range]
  constructor
  · rintro ⟨i, hi, j, hj, hz, rfl⟩
    exact ⟨hi, hj, hz⟩
  · rintro ⟨hi, hj, hz⟩
    exact ⟨p.1, hi, p.2, hj, hz, rfl⟩

theorem emptyCells_nil_iff (b : Board) : (emptyCells b).length = 0 ↔ isFull b := by
  rw [List.length_eq_zero, List.eq_nil_iff_forall_not_mem]
  simp only [mem_emptyCells]
  unfold isFull
  constructor
  · intro h i hi j hj hz
    exact h (i, j) ⟨hi, hj, hz⟩
  · rintro h ⟨i, j⟩ ⟨hi, hj, hz⟩
    exact h i hi j hj hz

theorem cell_setCell (b : Board) (i j : Nat) (v : Int) (hi : i < 4) (hj : j < 4) (i1 j1 : Nat) :
    cell (setCell b i j v) i1 j1 = if i1 = i ∧ j1 = j then v else cell b i1 j1 := by
  unfold cell setCell
  by_cases h1 : i1 = i
  · subst h1
    rw [Arr4.get_set_same _ _ _ hi]
    by_cases h2 : j1 = j
    · subst h2
      simp [Arr4.get_set_same _ _ _ hj]
    · simp [h2, Arr4.get_set_other _ j j1 _ (Ne.symm h2)]
  · simp [h1, Arr4.get_set_other _ i i1 _ (Ne.symm h1)]

theorem countTiles_setCell (b : Board) (i j : Nat) (v : Int) (hi : i < 4) (hj : j < 4)
    (hz : cell b i j = 0) (hv : v ≠ 0) : countTiles (setCell b i j v) = countTiles b + 1 := by
  obtain ⟨⟨a0, a1, a2, a3⟩, ⟨b0, b1, b2, b3⟩, ⟨c0, c1, c2, c3⟩, ⟨d0, d1, d2, d3⟩⟩ := b
  interval_cases i <;> interval_cases j <;>
    simp only [cell, setCell, Arr4.get, Arr4.set, countTiles, rowTiles] at hz ⊢ <;>
    simp only [hz, hv, if_true, if_false] <;> omega

/-- The two outcomes of `addRandomTile`: nothing at all on a full board, otherwise one
empty cell receives 2 or 4. -/
theorem addRandomTile_cases (g : Game) (d : Draw) :
    (isFull g.Board ∧ addRandomTile g d = g)
      ∨ (¬ isFull g.Board ∧ ∃ i j v, i < 4 ∧ j < 4 ∧ cell g.Board i j = 0 ∧ (v = 2 ∨ v = 4)
          ∧ addRandomTile g d = { g with Board := setCell g.Board i j v }) := by
  unfold addRandomTile
  by_cases hf : isFull g.Board
  · left
    exact ⟨hf, by simp [(emptyCells_nil_iff g.Board).mpr hf]⟩
  · right
    have hlen : (emptyCells g.Board).length ≠ 0 := fun h => hf ((emptyCells_nil_iff _).mp h)
    have hlt : d.pick % (emptyCells g.Board).length < (emptyCells g.Board).length :=
      Nat.mod_lt _ (Nat.pos_of_ne_zero hlen)
    have hmem : (emptyCells g.Board).getD (d.pick % (emptyCells g.Board).length) (0, 0)
        ∈ emptyCells g.Board := by
      rw [List.getD_eq_getElem _ _ hlt]
      exact List.getElem_mem _
    obtain ⟨h1, h2, h3⟩ := (mem_emptyCells _ _).mp hmem
    refine ⟨hf, _, _, if d.small then 4 else 2, h1, h2, h3, ?_, ?_⟩
    · cases d.small <;> simp
    · simp [hlen]

theorem isFull_iff (b : Board) :
    isFull b ↔ ((b.x0.x0 ≠ 0 ∧ b.x0.x1 ≠ 0 ∧ b.x0.x2 ≠ 0 ∧ b.x0.x3 ≠ 0)
      ∧ (b.x1.x0 ≠ 0 ∧ b.x1.x1 ≠ 0 ∧ b.x1.x2 ≠ 0 ∧ b.x1.x3 ≠ 0)
      ∧ (b.x2.x0 ≠ 0 ∧ b.x2.x1 ≠ 0 ∧ b.x2.x2 ≠ 0 ∧ b.x2.x3 ≠ 0)
      ∧ (b.x3.x0 ≠ 0 ∧ b.x3.x1 ≠ 0 ∧ b.x3.x2 ≠ 0 ∧ b.x3.x3 ≠ 0)) := by
  unfold isFull
  constructor
  · intro h
    have h0 := h 0 (by omega)
    have h1 := h 1 (by omega)
    have h2 := h 2 (by omega)
    have h3 := h 3 (by omega)
    exact ⟨⟨h0 0 (by omega), h0 1 (by omega), h0 2 (by omega), h0 3 (by omega)⟩,
      ⟨h1 0 (by omega), h1 1 (by omega), h1 2 (by omega), h1 3 (by omega)⟩,
      ⟨h2 0 (by omega), h2 1 (by omega), h2 2 (by omega), h2 3 (by omega)⟩,
      ⟨h3 0 (by omega), h3 1 (by omega), h3 2 (by omega), h3 3 (by omega)⟩⟩
  · rintro ⟨⟨a0, a1, a2, a3⟩, ⟨b0, b1, b2, b3⟩, ⟨c0, c1, c2, c3⟩, ⟨d0, d1, d2, d3⟩⟩ i hi j hj
    interval_cases i <;> interval_cases j <;> assumption

theorem countTiles_full (b : Board) (h : isFull b) : countTiles b = 16 := by
  obtain ⟨⟨a0, a1, a2, a3⟩, ⟨b0, b1, b2, b3⟩, ⟨c0, c1, c2, c3⟩, ⟨d0, d1, d2, d3⟩⟩ :=
    (isFull_iff b).mp h
  simp only [countTiles, rowTiles, a0, a1, a2, a3, b0, b1, b2, b3, c0, c1, c2, c3, d0, d1, d2,
    d3, if_false]

theorem cell_emptyBoard (i j : Nat) : cell emptyBoard i j = 0 := by
  by_cases hi : i < 4
  · by_cases hj : j < 4
    · interval_cases i <;> interval_cases j <;> rfl
    · unfold cell
      rw [Arr4.get_of_ge _ j (by omega)]
      rfl
  · unfold cell
    rw [Arr4.get_of_ge emptyBoard i (by omega)]
    by_cases hj : j < 4
    · interval_cases j <;> rfl
    · rw [Arr4.get_of_ge _ j (by omega)]
      rfl

/-! ## Properties carried from `moveLeft` to the other directions -/

theorem compact_rel (R : Game → Game → Prop) (hrefl : ∀ g, R g g) (hL : ∀ g, R g (moveLeft g))
    (hm : ∀ g g1, R (mapBoard hmirror g) g1 → R g (mapBoard hmirror g1))
    (ht : ∀ g g1, R (mapBoard transpose g) g1 → R g (mapBoard transpose g1))
    (g : Game) (dir : Direction) : R g (compact g dir) := by
  have hR : ∀ g, R g (moveRight g) := by
    intro g
    rw [moveRight_eq]
    exact hm _ _ (hL _)
  unfold compact
  split_ifs
  · exact hL g
  · exact hR g
  · rw [moveUp_transpose]
    exact ht _ _ (hL _)
  · rw [moveDown_transpose]
    exact ht _ _ (hR _)
  · exact hrefl g

theorem cell_hmirror (b : Board) (i j : Nat) (hi : i < 4) (hj : j < 4) :
    cell (hmirror b) i j = cell b i (3 - j) := by
  interval_cases i <;> interval_cases j <;> rfl

theorem boardAll_transpose (P : Int → Prop) (b : Board) (h : boardAll P (transpose b)) :
    boardAll P b := by
  intro i hi j hj
  rw [← cell_transpose b j i hj hi]
  exact h j hj i hi

theorem boardAll_hmirror (P : Int → Prop) (b : Board) (h : boardAll P (hmirror b)) :
    boardAll P b := by
  intro i hi j hj
  have := h i hi (3 - j) (by omega)
  rw [cell_hmirror b i (3 - j) hi (by omega)] at this
  have e : 3 - (3 - j) = j := by omega
  rwa [e] at this

theorem boardAll_rows (P : Int → Prop) (b : Board) :
    boardAll P b ↔ rowAll P b.x0 ∧ rowAll P b.x1 ∧ rowAll P b.x2 ∧ rowAll P b.x3 := by
  constructor
  · intro h
    have h0 := h 0 (by omega)
    have h1 := h 1 (by omega)
    have h2 := h 2 (by omega)
    have h3 := h 3 (by omega)
    exact ⟨⟨h0 0 (by omega), h0 1 (by omega), h0 2 (by omega), h0 3 (by omega)⟩,
      ⟨h1 0 (by omega), h1 1 (by omega), h1 2 (by omega), h1 3 (by omega)⟩,
      ⟨h2 0 (by omega), h2 1 (by omega), h2 2 (by omega), h2 3 (by omega)⟩,
      ⟨h3 0 (by omega), h3 1 (by omega), h3 2 (by omega), h3 3 (by omega)⟩⟩
  · rintro ⟨⟨a0, a1, a2, a3⟩, ⟨b0, b1, b2, b3⟩, ⟨c0, c1, c2, c3⟩, ⟨d0, d1, d2, d3⟩⟩ i hi j hj
    interval_cases i <;> interval_cases j <;> assumption

theorem addRandomTile_all (P : Int → Prop) (h2 : P 2) (h4 : P 4) (g : Game) (d : Draw)
    (h : boardAll P g.Board) : boardAll P (addRandomTile g d).Board := by
  rcases addRandomTile_cases g d with ⟨_, e⟩ | ⟨_, i, j, v, hi, hj, _, hv, e⟩
  · rw [e]
    exact h
  · rw [e]
    intro i1 hi1 j1 hj1
    simp only [cell_setCell _ i j v hi hj]
    split_ifs
    · rcases hv with rfl | rfl
      · exact h2
      · exact h4
    · exact h i1 hi1 j1 hj1

theorem checkGameStatus_board (g : Game) : (checkGameStatus g).Board = g.Board := by
  unfold checkGameStatus
  split_ifs <;> rfl

theorem checkGameStatus_score (g : Game) : (checkGameStatus g).Score = g.Score := by
  unfold checkGameStatus
  split_ifs <;> rfl

/-! ## The logged routines: what they compute and what they log -/

theorem marks_set_ne (m : Marks) (k : Nat) (hk : k < 4) (h : m.get k = false) :
    ¬ (m.set k true = m) := by
  intro e
  have := Arr4.get_set_same m k true hk
  rw [e, h] at this
  exact Bool.noConfusion this

theorem stepLeftLog_eq (p : (Row × Marks × Int) × List Int) (j : Nat) (hj : j < 4) :
    stepLeftLog p j = logStep stepLeft p j := by
  obtain ⟨⟨r, m, s⟩, log⟩ := p
  unfold stepLeftLog logStep stepLeft entry
  by_cases hz : r.get j = 0
  · simp [hz]
  · simp only [hz, if_false]
    have hk := slideLeft_le j r
    generalize slideLeft r j = q at hk ⊢
    obtain ⟨r1, k⟩ := q
    simp only at hk ⊢
    by_cases hc : k > 0 ∧ r1.get (k - 1) = r1.get k ∧ m.get (k - 1) = false
    · have hne := marks_set_ne m (k - 1) (by omega) hc.2.2
      have hv : ((r1.set (k - 1) (wrap64 (r1.get (k - 1) * 2))).set k 0).get (k - 1)
          = wrap64 (r1.get (k - 1) * 2) := by
        rw [Arr4.get_set_other _ k (k - 1) _ (by omega), Arr4.get_set_same _ (k - 1) _ (by omega)]
      simp only [if_pos hc, hne, if_false, hv, wrap64_diff]
    · simp only [hc, if_false, if_true, List.append_nil]

theorem stepRightLog_eq (p : (Row × Marks × Int) × List Int) (j : Nat) (hj : j < 4) :
    stepRightLog p j = logStep stepRight p j := by
  obtain ⟨⟨r, m, s⟩, log⟩ := p
  unfold stepRightLog logStep stepRight entry
  by_cases hz : r.get j = 0
  · simp [hz]
  · simp only [hz, if_false]
    have hk := slideRight_le 3 r j hj
    generalize slideRight r j 3 = q at hk ⊢
    obtain ⟨r1, k⟩ := q
    simp only at hk ⊢
    by_cases hc : k < 3 ∧ r1.get (k + 1) = r1.get k ∧ m.get (k + 1) = false
    · have hne := marks_set_ne m (k + 1) (by omega) hc.2.2
      have hv : ((r1.set (k + 1) (wrap64 (r1.get (k + 1) * 2))).set k 0).get (k + 1)
          = wrap64 (r1.get (k + 1) * 2) := by
        rw [Arr4.get_set_other _ k (k + 1) _ (by omega), Arr4.get_set_same _ (k + 1) _ (by omega)]
      simp only [if_pos hc, hne, if_false, hv, wrap64_diff]
    · simp only [hc, if_false, if_true, List.append_nil]

theorem slideUp_le (j k : Nat) : ∀ b : Board, (slideUp b j k).2 ≤ k := by
  induction k with
  | zero => intro b; simp [slideUp]
  | succ k ih =>
    intro b
    simp only [slideUp]
    split
    · exact Nat.le_succ_of_le (ih _)
    · exact Nat.le_refl _

theorem slideDown_le (j : Nat) (fuel : Nat) :
    ∀ (b : Board) (k : Nat), k < 4 → (slideDown b j k fuel).2 < 4 := by
  induction fuel with
  | zero => intro b k hk; exact hk
  | succ f ih =>
    intro b k hk
    simp only [slideDown]
    split
    · exact ih _ _ (by omega)
    · exact hk

theorem stepUpLog_eq (c : Nat) (hc4 : c < 4) (p : (Board × Marks × Int) × List Int) (i : Nat)
    (hi : i < 4) : stepUpLog c p i = logStep (stepUp c) p i := by
  obtain ⟨⟨b, m, s⟩, log⟩ := p
  unfold stepUpLog logStep stepUp entry
  by_cases hz : cell b i c = 0
  · simp [hz]
  · simp only [hz, if_false]
    have hk := slideUp_le c i b
    generalize slideUp b c i = q at hk ⊢
    obtain ⟨b1, k⟩ := q
    simp only at hk ⊢
    by_cases hc : k > 0 ∧ cell b1 (k - 1) c = cell b1 k c ∧ m.get (k - 1) = false
    · have hne := marks_set_ne m (k - 1) (by omega) hc.2.2
      have hv : cell (setCell (setCell b1 (k - 1) c (wrap64 (cell b1 (k - 1) c * 2))) k c 0)
          (k - 1) c = wrap64 (cell b1 (k - 1) c * 2) := by
        rw [cell_setCell _ k c _ (by omega) hc4, cell_setCell _ (k - 1) c _ (by omega) hc4,
          if_neg (by omega), if_pos ⟨rfl, rfl⟩]
      simp only [if_pos hc, hne, if_false, hv, wrap64_diff]
    · simp only [hc, if_false, if_true, List.append_nil]

theorem stepDownLog_eq (c : Nat) (hc4 : c < 4) (p : (Board × Marks × Int) × List Int) (i : Nat)
    (hi : i < 4) : stepDownLog c p i = logStep (stepDown c) p i := by
  obtain ⟨⟨b, m, s⟩, log⟩ := p
  unfold stepDownLog logStep stepDown entry
  by_cases hz : cell b i c = 0
  · simp [hz]
  · simp only [hz, if_false]
    have hk := slideDown_le c 3 b i hi
    generalize slideDown b c i 3 = q at hk ⊢
    obtain ⟨b1, k⟩ := q
    simp only at hk ⊢
    by_cases hc : k < 3 ∧ cell b1 (k + 1) c = cell b1 k c ∧ m.get (k + 1) = false
    · have hne := marks_set_ne m (k + 1) (by omega) hc.2.2
      have hv : cell (setCell (setCell b1 (k + 1) c (wrap64 (cell b1 (k + 1) c * 2))) k c 0)
          (k + 1) c = wrap64 (cell b1 (k + 1) c * 2) := by
        rw [cell_setCell _ k c _ (by omega) hc4, cell_setCell _ (k + 1) c _ (by omega) hc4,
          if_neg (by omega), if_pos ⟨rfl, rfl⟩]
      simp only [if_pos hc, hne, if_false, hv, wrap64_diff]
    · simp only [hc, if_false, if_true, List.append_nil]

theorem foldl_steps_congr {α : Type} (f g : α → Nat → α) (js : List Nat)
    (h : ∀ j, j ∈ js → ∀ a, f a j = g a j) : ∀ a, js.foldl f a = js.foldl g a := by
  induction js with
  | nil => intro a; rfl
  | cons x t ih =>
    intro a
    rw [List.foldl_cons, List.foldl_cons, h x (List.mem_cons_self x t),
      ih (fun j hj => h j (List.mem_cons_of_mem x hj))]

theorem foldl_logStep_fst {σ : Type} (step : σ × Marks × Int → Nat → σ × Marks × Int)
    (js : List Nat) : ∀ p, (js.foldl (logStep step) p).1 = js.foldl step p.1 := by
  induction js with
  | nil => intro p; rfl
  | cons x t ih =>
    intro p
    rw [List.foldl_cons, List.foldl_cons, ih]
    rfl

theorem foldl_logStep_sim {σ τ : Type} (step1 : σ × Marks × Int → Nat → σ × Marks × Int)
    (step2 : τ × Marks × Int → Nat → τ × Marks × Int)
    (φ : σ × Marks × Int → τ × Marks × Int) (f : Nat → Nat) (js : List Nat)
    (h : ∀ j, j ∈ js → ∀ st, step2 (φ st) (f j) = φ (step1 st j))
    (he : ∀ a b, entry (φ a).2.1 (φ b).2.1 (φ a).2.2 (φ b).2.2 = entry a.2.1 b.2.1 a.2.2 b.2.2) :
    ∀ p, (js.map f).foldl (logStep step2) (φ p.1, p.2)
      = (φ (js.foldl (logStep step1) p).1, (js.foldl (logStep step1) p).2) := by
  induction js with
  | nil => intro p; rfl
  | cons x t ih =>
    intro p
    rw [List.map_cons, List.foldl_cons, List.foldl_cons]
    have e : logStep step2 (φ p.1, p.2) (f x)
        = (φ (logStep step1 p x).1, (logStep step1 p x).2) := by
      unfold logStep
      simp only [h x (List.mem_cons_self x t), he]
    rw [e]
    exact ih (fun j hj => h j (List.mem_cons_of_mem x hj)) _

theorem entry_reverse (a b : Row × Marks × Int) :
    entry (revState a).2.1 (revState b).2.1 (revState a).2.2 (revState b).2.2
      = entry a.2.1 b.2.1 a.2.2 b.2.2 := by
  obtain ⟨_, ⟨a0, a1, a2, a3⟩, _⟩ := a
  obtain ⟨_, ⟨b0, b1, b2, b3⟩, _⟩ := b
  simp only [entry, revState, Arr4.reverse, Arr4.mk.injEq]
  congr 1
  exact propext ⟨fun ⟨h3, h2, h1, h0⟩ => ⟨h0, h1, h2, h3⟩, fun ⟨h0, h1, h2, h3⟩ => ⟨h3, h2, h1, h0⟩⟩

theorem lineRightLog_reverse (r : Row) (s : Int) (log : List Int) :
    [2, 1, 0].foldl stepRightLog ((r.reverse, noMarks, s), log)
      = (revState ([1, 2, 3].foldl stepLeftLog ((r, noMarks, s), log)).1,
          ([1, 2, 3].foldl stepLeftLog ((r, noMarks, s), log)).2) := by
  rw [foldl_steps_congr stepRightLog (logStep stepRight) [2, 1, 0]
      (fun j hj p => stepRightLog_eq p j (by simp at hj; omega)),
    foldl_steps_congr stepLeftLog (logStep stepLeft) [1, 2, 3]
      (fun j hj p => stepLeftLog_eq p j (by simp at hj; omega))]
  exact foldl_logStep_sim stepLeft stepRight revState (fun j => 3 - j) [1, 2, 3]
    (fun j hj st => stepRight_reverse st j (by simp at hj; omega)) entry_reverse
    ((r, noMarks, s), log)

theorem lineUpLog_col (c : Board) (j : Nat) (hj : j < 4) (r : Row) (s : Int) (log : List Int) :
    [1, 2, 3].foldl (stepUpLog j) (colState c j (r, noMarks, s), log)
      = (colState c j ([1, 2, 3].foldl stepLeftLog ((r, noMarks, s), log)).1,
          ([1, 2, 3].foldl stepLeftLog ((r, noMarks, s), log)).2) := by
  rw [foldl_steps_congr (stepUpLog j) (logStep (stepUp j)) [1, 2, 3]
      (fun i hi p => stepUpLog_eq j hj p i (by simp at hi; omega)),
    foldl_steps_congr stepLeftLog (logStep stepLeft) [1, 2, 3]
      (fun j hj p => stepLeftLog_eq p j (by simp at hj; omega))]
  exact foldl_logStep_sim stepLeft (stepUp j) (colState c j) (fun i => i) [1, 2, 3]
    (fun i hi st => stepUp_col c j hj st i (by simp at hi; omega)) (fun _ _ => rfl)
    ((r, noMarks, s), log)

theorem lineDownLog_col (c : Board) (j : Nat) (hj : j < 4) (r : Row) (s : Int)
    (log : List Int) :
    [2, 1, 0].foldl (stepDownLog j) (colState c j (r, noMarks, s), log)
      = (colState c j ([2, 1, 0].foldl stepRightLog ((r, noMarks, s), log)).1,
          ([2, 1, 0].foldl stepRightLog ((r, noMarks, s), log)).2) := by
  rw [foldl_steps_congr (stepDownLog j) (logStep (stepDown j)) [2, 1, 0]
      (fun i hi p => stepDownLog_eq j hj p i (by simp at hi; omega)),
    foldl_steps_congr stepRightLog (logStep stepRight) [2, 1, 0]
      (fun j hj p => stepRightLog_eq p j (by simp at hj; omega))]
  exact foldl_logStep_sim stepRight (stepDown j) (colState c j) (fun i => i) [2, 1, 0]
    (fun i hi st => stepDown_col c j hj st i (by simp at hi; omega)) (fun _ _ => rfl)
    ((r, noMarks, s), log)

theorem moveRightRowLog_hmirror (p : Game × List Int) (i : Nat) (hi : i < 4) :
    moveRightRowLog (mapBoardLog hmirror p) i = mapBoardLog hmirror (moveLeftRowLog p i) := by
  unfold moveRightRowLog moveLeftRowLog mapBoardLog mapBoard
  simp only [get_hmirror p.1.Board i hi, lineRightLog_reverse, revState, set_hmirror _ i _ hi]

theorem moveRightLog_eq (g : Game) :
    moveRightLog g = mapBoardLog hmirror (moveLeftLog (mapBoard hmirror g)) := by
  have e : (g, ([] : List Int)) = mapBoardLog hmirror (mapBoard hmirror g, []) := rfl
  unfold moveRightLog moveLeftLog
  simp only [List.foldl]
  rw [e, moveRightRowLog_hmirror _ 0 (by omega), moveRightRowLog_hmirror _ 1 (by omega),
    moveRightRowLog_hmirror _ 2 (by omega), moveRightRowLog_hmirror _ 3 (by omega)]

theorem moveUpColLog_transpose (p : Game × List Int) (j : Nat) (hj : j < 4) :
    moveUpColLog p j = mapBoardLog transpose (moveLeftRowLog (mapBoardLog transpose p) j) := by
  have hb : p.1.Board
      = transpose ((transpose p.1.Board).set j ((transpose p.1.Board).get j)) := by
    rw [Arr4.set_get_same, transpose_transpose]
  have hs : (p.1.Board, noMarks, p.1.Score)
      = colState (transpose p.1.Board) j ((transpose p.1.Board).get j, noMarks, p.1.Score) := by
    unfold colState
    rw [← hb]
  unfold moveUpColLog moveLeftRowLog mapBoardLog mapBoard
  simp only
  rw [hs, lineUpLog_col _ j hj]
  rfl

theorem moveUpLog_eq (g : Game) :
    moveUpLog g = mapBoardLog transpose (moveLeftLog (mapBoard transpose g)) := by
  have inv : ∀ q : Game × List Int, mapBoardLog transpose (mapBoardLog transpose q) = q :=
    fun _ => rfl
  have e : (g, ([] : List Int)) = mapBoardLog transpose (mapBoard transpose g, []) := rfl
  unfold moveUpLog moveLeftLog
  simp only [List.foldl]
  rw [moveUpColLog_transpose _ 3 (by omega), moveUpColLog_transpose _ 2 (by omega),
    moveUpColLog_transpose _ 1 (by omega), moveUpColLog_transpose _ 0 (by omega)]
  simp only [inv]
  rw [e, inv]

theorem moveDownColLog_transpose (p : Game × List Int) (j : Nat) (hj : j < 4) :
    moveDownColLog p j
      = mapBoardLog transpose (moveRightRowLog (mapBoardLog transpose p) j) := by
  have hb : p.1.Board
      = transpose ((transpose p.1.Board).set j ((transpose p.1.Board).get j)) := by
    rw [Arr4.set_get_same, transpose_transpose]
  have hs : (p.1.Board, noMarks, p.1.Score)
      = colState (transpose p.1.Board) j ((transpose p.1.Board).get j, noMarks, p.1.Score) := by
    unfold colState
    rw [← hb]
  unfold moveDownColLog moveRightRowLog mapBoardLog mapBoard
  simp only
  rw [hs, lineDownLog_col _ j hj]
  rfl

theorem moveDownLog_eq (g : Game) :
    moveDownLog g = mapBoardLog transpose (moveRightLog (mapBoard transpose g)) := by
  have inv : ∀ q : Game × List Int, mapBoardLog transpose (mapBoardLog transpose q) = q :=
    fun _ => rfl
  have e : (g, ([] : List Int)) = mapBoardLog transpose (mapBoard transpose g, []) := rfl
  unfold moveDownLog moveRightLog
  simp only [List.foldl]
  rw [moveDownColLog_transpose _ 3 (by omega), moveDownColLog_transpose _ 2 (by omega),
    moveDownColLog_transpose _ 1 (by omega), moveDownColLog_transpose _ 0 (by omega)]
  simp only [inv]
  rw [e, inv]

theorem lineLeftLog_fst (r : Row) (s : Int) (log : List Int) :
    ([1, 2, 3].foldl stepLeftLog ((r, noMarks, s), log)).1 = lineLeft r s := by
  rw [foldl_steps_congr stepLeftLog (logStep stepLeft) [1, 2, 3]
      (fun j hj p => stepLeftLog_eq p j (by simp at hj; omega)), foldl_logStep_fst]
  rfl

theorem moveLeftRowLog_fst (p : Game × List Int) (i : Nat) :
    (moveLeftRowLog p i).1 = moveLeftRow p.1 i := by
  unfold moveLeftRowLog moveLeftRow
  simp only [lineLeftLog_fst]

theorem moveLeftLog_fst (g : Game) : (moveLeftLog g).1 = moveLeft g := by
  unfold moveLeftLog moveLeft
  simp only [List.foldl, moveLeftRowLog_fst]

theorem compactLog_rel (R : Game → Game × List Int → Prop) (hrefl : ∀ g, R g (g, []))
    (hL : ∀ g, R g (moveLeftLog g))
    (hm : ∀ g q, R (mapBoard hmirror g) q → R g (mapBoardLog hmirror q))
    (ht : ∀ g q, R (mapBoard transpose g) q → R g (mapBoardLog transpose q))
    (g : Game) (dir : Direction) : R g (compactLog g dir) := by
  have hR : ∀ g, R g (moveRightLog g) := by
    intro g
    rw [moveRightLog_eq]
    exact hm _ _ (hL _)
  unfold compactLog
  split_ifs
  · exact hL g
  · exact hR g
  · rw [moveUpLog_eq]
    exact ht _ _ (hL _)
  · rw [moveDownLog_eq]
    exact ht _ _ (hR _)
  · exact hrefl g

theorem compactLog_fst (g : Game) (dir : Direction) : (compactLog g dir).1 = compact g dir := by
  have hR : ∀ g, (moveRightLog g).1 = moveRight g := by
    intro g
    rw [moveRightLog_eq, moveRight_eq]
    unfold mapBoardLog
    rw [moveLeftLog_fst]
  unfold compactLog compact
  split_ifs
  · exact moveLeftLog_fst g
  · exact hR g
  · rw [moveUpLog_eq, moveUp_transpose]
    unfold mapBoardLog
    rw [moveLeftLog_fst]
  · rw [moveDownLog_eq, moveDown_transpose]
    unfold mapBoardLog
    rw [hR]
  · rfl

/-! ## The score along a compaction is the wrapped sum of the merge log -/

theorem stepLeftLog_addScore (s0 : Int) (p : (Row × Marks × Int) × List Int) (j : Nat)
    (h : p.1.2.2 = p.2.foldl addScore s0) :
    (stepLeftLog p j).1.2.2 = (stepLeftLog p j).2.foldl addScore s0 := by
  unfold stepLeftLog
  simp only
  split_ifs
  · exact h
  · simp only [List.foldl_append, List.foldl_cons, List.foldl_nil, addScore, h]
  · exact h

theorem moveLeftRowLog_addScore (s0 : Int) (p : Game × List Int) (i : Nat)
    (h : p.1.Score = p.2.foldl addScore s0) :
    (moveLeftRowLog p i).1.Score = (moveLeftRowLog p i).2.foldl addScore s0 := by
  unfold moveLeftRowLog
  simp only [List.foldl]
  exact stepLeftLog_addScore s0 _ 3 (stepLeftLog_addScore s0 _ 2 (stepLeftLog_addScore s0 _ 1 h))

theorem moveLeftLog_addScore (g : Game) :
    (moveLeftLog g).1.Score = (moveLeftLog g).2.foldl addScore g.Score := by
  unfold moveLeftLog
  simp only [List.foldl]
  exact moveLeftRowLog_addScore _ _ 3 (moveLeftRowLog_addScore _ _ 2
    (moveLeftRowLog_addScore _ _ 1 (moveLeftRowLog_addScore _ (g, []) 0 rfl)))

theorem compactLog_addScore (g : Game) (dir : Direction) :
    (compact g dir).Score = (mergesOf g dir).foldl addScore g.Score := by
  rw [← compactLog_fst]
  unfold mergesOf
  exact compactLog_rel (fun g q => q.1.Score = q.2.foldl addScore g.Score)
    (fun g => rfl) moveLeftLog_addScore (fun _ _ h => h) (fun _ _ h => h) g dir

theorem foldl_addScore_exact (log : List Int) :
    ∀ s : Int, (∀ v, v ∈ log → 0 ≤ v) → -9223372036854775808 ≤ s →
      s + log.sum < 9223372036854775808 → log.foldl addScore s = s + log.sum := by
  induction log with
  | nil => intro s _ _ _; simp
  | cons x t ih =>
    intro s h0 hs hsum
    have hx : 0 ≤ x := h0 x (List.mem_cons_self x t)
    have ht : 0 ≤ t.sum := List.sum_nonneg fun v hv => h0 v (List.mem_cons_of_mem x hv)
    rw [List.sum_cons] at hsum
    have e : addScore s x = s + x := wrap64_of_range _ (by omega) (by omega)
    rw [List.foldl_cons, e, ih (s + x) (fun v hv => h0 v (List.mem_cons_of_mem x hv)) (by omega)
      (by omega), List.sum_cons]
    omega

/-! ## Closed forms of the logged loop body -/

theorem stepLeftLog_one (a b c d s : Int) (m0 m1 m2 m3 : Bool) (log : List Int) :
    stepLeftLog ((⟨a, b, c, d⟩, ⟨m0, m1, m2, m3⟩, s), log) 1 =
      if b = 0 then ((⟨a, b, c, d⟩, ⟨m0, m1, m2, m3⟩, s), log)
      else if a = 0 then ((⟨b, 0, c, d⟩, ⟨m0, m1, m2, m3⟩, s), log)
      else if a = b ∧ m0 = false then
        ((⟨wrap64 (a * 2), 0, c, d⟩, ⟨true, m1, m2, m3⟩, wrap64 (s + wrap64 (a * 2))),
          log ++ [wrap64 (a * 2)])
      else ((⟨a, b, c, d⟩, ⟨m0, m1, m2, m3⟩, s), log) := by
  by_cases hd : d = 0 <;> by_cases hc : c = 0 <;> by_cases hb : b = 0 <;> by_cases ha : a = 0 <;>
    simp [stepLeftLog, slideLeft, swapCells, Arr4.get_0, Arr4.get_1, Arr4.get_2, Arr4.get_3,
      Arr4.set_0, Arr4.set_1, Arr4.set_2, Arr4.set_3, ha, hb, hc, hd]

theorem stepLeftLog_two (a b c d s : Int) (m0 m1 m2 m3 : Bool) (log : List Int) :
    stepLeftLog ((⟨a, b, c, d⟩, ⟨m0, m1, m2, m3⟩, s), log) 2 =
      if c = 0 then ((⟨a, b, c, d⟩, ⟨m0, m1, m2, m3⟩, s), log)
      else if b = 0 then
        if a = 0 then ((⟨c, 0, 0, d⟩, ⟨m0, m1, m2, m3⟩, s), log)
        else if a = c ∧ m0 = false then
          ((⟨wrap64 (a * 2), 0, 0, d⟩, ⟨true, m1, m2, m3⟩, wrap64 (s + wrap64 (a * 2))),
            log ++ [wrap64 (a * 2)])
        else ((⟨a, c, 0, d⟩, ⟨m0, m1, m2, m3⟩, s), log)
      else if b = c ∧ m1 = false then
        ((⟨a, wrap64 (b * 2), 0, d⟩, ⟨m0, true, m2, m3⟩, wrap64 (s + wrap64 (b * 2))),
          log ++ [wrap64 (b * 2)])
      else ((⟨a, b, c, d⟩, ⟨m0, m1, m2, m3⟩, s), log) := by
  by_cases hd : d = 0 <;> by_cases hc : c = 0 <;> by_cases hb : b = 0 <;> by_cases ha : a = 0 <;>
    simp [stepLeftLog, slideLeft, swapCells, Arr4.get_0, Arr4.get_1, Arr4.get_2, Arr4.get_3,
      Arr4.set_0, Arr4.set_1, Arr4.set_2, Arr4.set_3, ha, hb, hc, hd]

theorem stepLeftLog_three (a b c d s : Int) (m0 m1 m2 m3 : Bool) (log : List Int) :
    stepLeftLog ((⟨a, b, c, d⟩, ⟨m0, m1, m2, m3⟩, s), log) 3 =
      if d = 0 then ((⟨a, b, c, d⟩, ⟨m0, m1, m2, m3⟩, s), log)
      else if c = 0 then
        if b = 0 then
          if a = 0 then ((⟨d, 0, 0, 0⟩, ⟨m0, m1, m2, m3⟩, s), log)
          else if a = d ∧ m0 = false then
            ((⟨wrap64 (a * 2), 0, 0, 0⟩, ⟨true, m1, m2, m3⟩, wrap64 (s + wrap64 (a * 2))),
              log ++ [wrap64 (a * 2)])
          else ((⟨a, d, 0, 0⟩, ⟨m0, m1, m2, m3⟩, s), log)
        else if b = d ∧ m1 = false then
          ((⟨a, wrap64 (b * 2), 0, 0⟩, ⟨m0, true, m2, m3⟩, wrap64 (s + wrap64 (b * 2))),
            log ++ [wrap64 (b * 2)])
        else ((⟨a, b, d, 0⟩, ⟨m0, m1, m2, m3⟩, s), log)
      else if c = d ∧ m2 = false then
        ((⟨a, b, wrap64 (c * 2), 0⟩, ⟨m0, m1, true, m3⟩, wrap64 (s + wrap64 (c * 2))),
          log ++ [wrap64 (c * 2)])
      else ((⟨a, b, c, d⟩, ⟨m0, m1, m2, m3⟩, s), log) := by
  by_cases hd : d = 0 <;> by_cases hc : c = 0 <;> by_cases hb : b = 0 <;> by_cases ha : a = 0 <;>
    simp [stepLeftLog, slideLeft, swapCells, Arr4.get_0, Arr4.get_1, Arr4.get_2, Arr4.get_3,
      Arr4.set_0, Arr4.set_1, Arr4.set_2, Arr4.set_3, ha, hb, hc, hd]

/-! ## The reference merge scan -/

theorem mergePairs_sum (l : List Int) : (mergePairs l).1.sum = l.sum := by
  induction l using mergePairs.induct with
  | case1 y t ih =>
    simp only [mergePairs, if_true, List.sum_cons, ih]
    omega
  | case2 x y t h ih =>
    simp only [mergePairs, h, if_false, List.sum_cons] at ih ⊢
    omega
  | case3 x => rfl
  | case4 => rfl

theorem mergePairs_length (l : List Int) :
    (mergePairs l).1.length + (mergePairs l).2.length = l.length := by
  induction l using mergePairs.induct with
  | case1 y t ih =>
    simp only [mergePairs, if_true, List.length_cons]
    omega
  | case2 x y t h ih =>
    simp only [mergePairs, h, if_false, List.length_cons] at ih ⊢
    omega
  | case3 x => rfl
  | case4 => rfl

theorem mergePairs_all (P Q : Int → Prop) (hPQ : ∀ v, P v → Q v) (hd : ∀ v, P v → Q (v + v))
    (l : List Int) (h : ∀ x, x ∈ l → P x) : ∀ y, y ∈ (mergePairs l).1 → Q y := by
  induction l using mergePairs.induct with
  | case1 y t ih =>
    intro z hz
    simp only [mergePairs, if_true, List.mem_cons] at hz
    rcases hz with rfl | hz
    · exact hd y (h y (List.mem_cons_self _ _))
    · exact ih (fun x hx => h x (List.mem_cons_of_mem _ (List.mem_cons_of_mem _ hx))) z hz
  | case2 x y t hne ih =>
    intro z hz
    simp only [mergePairs, hne, if_false, List.mem_cons] at hz
    rcases hz with rfl | hz
    · exact hPQ _ (h _ (List.mem_cons_self _ _))
    · exact ih (fun x hx => h x (List.mem_cons_of_mem _ hx)) z hz
  | case3 x =>
    intro z hz
    simp only [mergePairs, List.mem_singleton] at hz
    subst hz
    exact hPQ _ (h _ (List.mem_cons_self _ _))
  | case4 =>
    intro z hz
    simp [mergePairs] at hz

theorem mergePairs_log_all (P Q : Int → Prop) (hd : ∀ v, P v → Q (v + v))
    (l : List Int) (h : ∀ x, x ∈ l → P x) : ∀ v, v ∈ (mergePairs l).2 → Q v := by
  induction l using mergePairs.induct with
  | case1 y t ih =>
    intro z hz
    simp only [mergePairs, if_true, List.mem_cons] at hz
    rcases hz with rfl | hz
    · exact hd y (h y (List.mem_cons_self _ _))
    · exact ih (fun x hx => h x (List.mem_cons_of_mem _ (List.mem_cons_of_mem _ hx))) z hz
  | case2 x y t hne ih =>
    intro z hz
    simp only [mergePairs, hne, if_false] at hz
    exact ih (fun x hx => h x (List.mem_cons_of_mem _ hx)) z hz
  | case3 x =>
    intro z hz
    simp [mergePairs] at hz
  | case4 =>
    intro z hz
    simp [mergePairs] at hz

theorem atLeast_nonneg (j : Nat) (v : Int) : 0 ≤ atLeast j v := by
  unfold atLeast
  split_ifs <;> omega

theorem atLeast_le_one (j : Nat) (v : Int) : atLeast j v ≤ 1 := by
  unfold atLeast
  split_ifs <;> omega

theorem atLeast_zero (j : Nat) : atLeast j 0 = 0 := by
  unfold atLeast
  have : (0 : Int) < 2 ^ j := by positivity
  rw [if_neg (by omega)]

theorem atLeast_succ_le (j : Nat) (v : Int) : atLeast (j + 1) v ≤ atLeast j v := by
  unfold atLeast
  have h : (2 : Int) ^ (j + 1) = 2 ^ j * 2 := pow_succ 2 j
  have : (0 : Int) < 2 ^ j := by positivity
  rw [h]
  generalize (2 : Int) ^ j = p at *
  split_ifs <;> omega

theorem atLeast_double (j : Nat) (x : Int) : atLeast (j + 1) (x + x) = atLeast j x := by
  unfold atLeast
  have h : (2 : Int) ^ (j + 1) = 2 ^ j * 2 := pow_succ 2 j
  rw [h]
  generalize (2 : Int) ^ j = p at *
  split_ifs <;> omega

theorem atLeast_one (x : Int) (h : 2 ≤ x) : atLeast 1 x = 1 := by
  unfold atLeast
  rw [if_pos (by simpa using h)]

theorem sum_atLeast_nonneg (j : Nat) (l : List Int) : 0 ≤ (l.map (atLeast j)).sum :=
  List.sum_nonneg fun v hv => by
    obtain ⟨x, _, rfl⟩ := List.mem_map.mp hv
    exact atLeast_nonneg j x

theorem sum_atLeast_succ_le (j : Nat) (l : List Int) :
    (l.map (atLeast (j + 1))).sum ≤ (l.map (atLeast j)).sum := by
  induction l with
  | nil => simp
  | cons x t ih =>
    simp only [List.map_cons, List.sum_cons]
    have := atLeast_succ_le j x
    omega

theorem mergePairs_atLeast (l : List Int) :
    ∀ C : Nat → Int, (∀ j, C (j + 1) ≤ C j) → (∀ x, x ∈ l → 2 ≤ x) →
      (∀ j, 1 ≤ j → j ≤ 18 → C j + (l.map (atLeast j)).sum + j ≤ 18) →
      ∀ j, 1 ≤ j → j ≤ 18 → C j + ((mergePairs l).1.map (atLeast j)).sum + j ≤ 18 := by
  induction l using mergePairs.induct with
  | case1 y t ih =>
    intro C hC h2 h j hj1 hj2
    have hy : 2 ≤ y := h2 y (List.mem_cons_self _ _)
    have key := ih (fun j => C j + atLeast j (y + y))
      (fun j => by
        have := hC j
        have := atLeast_succ_le j (y + y)
        simp only
        omega)
      (fun x hx => h2 x (List.mem_cons_of_mem _ (List.mem_cons_of_mem _ hx)))
      (fun j hj1 hj2 => by
        have hj := h j hj1 hj2
        simp only [List.map_cons, List.sum_cons] at hj
        simp only
        obtain ⟨i, rfl⟩ : ∃ i, j = i + 1 := ⟨j - 1, by omega⟩
        rw [atLeast_double]
        by_cases hi : i = 0
        · subst hi
          have e := atLeast_one y hy
          have := atLeast_le_one 0 y
          simp only [zero_add] at hj ⊢
          rw [e] at hj
          omega
        · have hi2 := h i (by omega) (by omega)
          simp only [List.map_cons, List.sum_cons] at hi2
          have := hC i
          have := sum_atLeast_succ_le i t
          have := atLeast_le_one i y
          have := atLeast_nonneg (i + 1) y
          push_cast at hj hi2 ⊢
          omega)
      j hj1 hj2
    simp only [mergePairs, if_true, List.map_cons, List.sum_cons] at key ⊢
    omega
  | case2 x y t hne ih =>
    intro C hC h2 h j hj1 hj2
    have key := ih (fun j => C j + atLeast j x)
      (fun j => by
        have := hC j
        have := atLeast_succ_le j x
        simp only
        omega)
      (fun z hz => h2 z (List.mem_cons_of_mem _ hz))
      (fun j hj1 hj2 => by
        have hj := h j hj1 hj2
        simp only [List.map_cons, List.sum_cons] at hj ⊢
        omega)
      j hj1 hj2
    simp only [mergePairs, hne, if_false, List.map_cons, List.sum_cons] at key ⊢
    omega
  | case3 x =>
    intro C _ _ h j hj1 hj2
    exact h j hj1 hj2
  | case4 =>
    intro C _ _ h j hj1 hj2
    exact h j hj1 hj2

theorem mergePairs_sq (l : List Int) (h1 : ∀ x, x ∈ l → 1 ≤ x) :
    (l.map fun v => v * v).sum + (mergePairs l).2.sum
      ≤ ((mergePairs l).1.map fun v => v * v).sum := by
  induction l using mergePairs.induct with
  | case1 y t ih =>
    have hy : 1 ≤ y := h1 y (List.mem_cons_self _ _)
    have := ih (fun x hx => h1 x (List.mem_cons_of_mem _ (List.mem_cons_of_mem _ hx)))
    simp only [mergePairs, if_true, List.map_cons, List.sum_cons]
    nlinarith
  | case2 x y t hne ih =>
    have := ih (fun z hz => h1 z (List.mem_cons_of_mem _ hz))
    simp only [mergePairs, hne, if_false, List.map_cons, List.sum_cons] at this ⊢
    omega
  | case3 x => simp [mergePairs]
  | case4 => simp [mergePairs]

/-! ## `moveLeft` against the reference compaction -/

theorem lineLeftLog_reference (r : Row) (s : Int) (log : List Int) (h : rowAll doubles r) :
    ([1, 2, 3].foldl stepLeftLog ((r, noMarks, s), log)).1.1.toList = (referenceLine r.toList).1
      ∧ ([1, 2, 3].foldl stepLeftLog ((r, noMarks, s), log)).2
          = log ++ (mergePairs (tiles r)).2 := by
  obtain ⟨a, b, c, d⟩ := r
  obtain ⟨⟨a1, a2⟩, ⟨b1, b2⟩, ⟨c1, c2⟩, ⟨d1, d2⟩⟩ := h
  simp only at a1 a2 b1 b2 c1 c2 d1 d2
  have wa := wrap64_double a a1 a2
  have wb := wrap64_double b b1 b2
  have wc := wrap64_double c c1 c2
  have wd := wrap64_double d d1 d2
  clear a1 a2 b1 b2 c1 c2 d1 d2
  simp only [noMarks, List.foldl]
  rw [stepLeftLog_one]
  by_cases ha : a = 0 <;> split_ifs <;> rw [stepLeftLog_two] <;> split_ifs <;>
    rw [stepLeftLog_three] <;> split_ifs <;>
    simp_all [referenceLine, mergePairs, tiles, Arr4.toList] <;> omega

/-! ## The merge log of a row, and the whole of `moveLeft` row by row -/

theorem stepLeftLog_split (st : Row × Marks × Int) (log : List Int) (j : Nat) :
    stepLeftLog (st, log) j
      = (stepLeft st j, log ++ (stepLeftLog ((st.1, st.2.1, 0), []) j).2) := by
  obtain ⟨r, m, s⟩ := st
  unfold stepLeftLog stepLeft
  simp only
  split_ifs <;> simp

theorem foldl_stepLeftLog (js : List Nat) :
    ∀ (st : Row × Marks × Int) (log : List Int),
      js.foldl stepLeftLog (st, log)
        = (js.foldl stepLeft st, log ++ (js.foldl stepLeftLog ((st.1, st.2.1, 0), [])).2) := by
  induction js with
  | nil => intro st log; simp
  | cons j t ih =>
    intro st log
    have hc := stepLeft_congr (st.1, st.2.1, 0) st j rfl rfl
    rw [List.foldl_cons, List.foldl_cons, List.foldl_cons, stepLeftLog_split st log j, ih,
      stepLeftLog_split (st.1, st.2.1, 0) [] j, ih (stepLeft (st.1, st.2.1, 0) j)]
    simp only [hc.1, hc.2, List.nil_append, List.append_assoc]

theorem lineLeftLog_eq (r : Row) (s : Int) (log : List Int) :
    [1, 2, 3].foldl stepLeftLog ((r, noMarks, s), log) = (lineLeft r s, log ++ mergesLeft r) :=
  foldl_stepLeftLog [1, 2, 3] (r, noMarks, s) log

theorem moveLeftRowLog_eq (p : Game × List Int) (i : Nat) :
    moveLeftRowLog p i = (moveLeftRow p.1 i, p.2 ++ mergesLeft (p.1.Board.get i)) := by
  unfold moveLeftRowLog moveLeftRow
  simp only [lineLeftLog_eq]

theorem moveLeftLog_eq (g : Game) :
    moveLeftLog g
      = (moveLeft g, mergesLeft g.Board.x0 ++ mergesLeft g.Board.x1 ++ mergesLeft g.Board.x2
          ++ mergesLeft g.Board.x3) := by
  unfold moveLeftLog moveLeft
  simp only [List.foldl, moveLeftRowLog_eq, List.nil_append]
  simp only [moveLeftRow, Arr4.get, Arr4.set]

theorem scoreLeft_eq (r : Row) (s : Int) : scoreLeft r s = (mergesLeft r).foldl addScore s := by
  have h := stepLeftLog_addScore s _ 3
    (stepLeftLog_addScore s _ 2 (stepLeftLog_addScore s ((r, noMarks, s), []) 1 rfl))
  have e := lineLeftLog_eq r s []
  simp only [List.foldl] at e
  rw [e] at h
  simpa [scoreLeft] using h

theorem rowLeft_reference (r : Row) (h : rowAll doubles r) :
    (rowLeft r).toList = (referenceLine r.toList).1 := by
  have e := (lineLeftLog_reference r 0 [] h).1
  rw [lineLeftLog_eq] at e
  exact e

theorem mergesLeft_reference (r : Row) (h : rowAll doubles r) :
    mergesLeft r = (mergePairs (tiles r)).2 := by
  have e := (lineLeftLog_reference r 0 [] h).2
  rw [List.nil_append] at e
  exact e

theorem tiles_ne_zero (r : Row) (x : Int) (hx : x ∈ tiles r) : x ≠ 0 := by
  unfold tiles at hx
  simpa using (List.mem_filter.mp hx).2

theorem mergePairs_ne_zero (l : List Int) (h : ∀ x, x ∈ l → x ≠ 0) :
    ∀ y, y ∈ (mergePairs l).1 → y ≠ 0 :=
  mergePairs_all (fun v => v ≠ 0) (fun v => v ≠ 0) (fun _ hv => hv)
    (fun v hv => by simp only at hv ⊢; omega) l h

theorem tiles_rowLeft (r : Row) (h : rowAll doubles r) :
    tiles (rowLeft r) = (mergePairs (tiles r)).1 := by
  have e := rowLeft_reference r h
  have hnz := mergePairs_ne_zero (tiles r) (tiles_ne_zero r)
  have e1 : tiles (rowLeft r) = (rowLeft r).toList.filter fun x => decide (x ≠ 0) := rfl
  have e2 : (referenceLine r.toList).1
      = (mergePairs (tiles r)).1
        ++ List.replicate (4 - (mergePairs (tiles r)).1.length) 0 := rfl
  rw [e1, e, e2, List.filter_append]
  have f1 : ((mergePairs (tiles r)).1.filter fun x => decide (x ≠ 0)) = (mergePairs (tiles r)).1 :=
    List.filter_eq_self.mpr fun y hy => by simpa using hnz y hy
  have f2 : ((List.replicate (4 - (mergePairs (tiles r)).1.length) (0 : Int)).filter
      fun x => decide (x ≠ 0)) = [] :=
    List.filter_eq_nil_iff.mpr fun y hy => by
      rw [List.eq_of_mem_replicate hy]
      simp
  rw [f1, f2, List.append_nil]

theorem rowStat_tiles (f : Int → Int) (hf : f 0 = 0) (r : Row) :
    rowStat f r = ((tiles r).map f).sum := by
  obtain ⟨a, b, c, d⟩ := r
  by_cases ha : a = 0 <;> by_cases hb : b = 0 <;> by_cases hc : c = 0 <;> by_cases hd : d = 0 <;>
    simp [rowStat, tiles, Arr4.toList, ha, hb, hc, hd, hf] <;> ring

theorem rowTiles_tiles (r : Row) : rowTiles r = (tiles r).length := by
  obtain ⟨a, b, c, d⟩ := r
  by_cases ha : a = 0 <;> by_cases hb : b = 0 <;> by_cases hc : c = 0 <;> by_cases hd : d = 0 <;>
    simp [rowTiles, tiles, Arr4.toList, ha, hb, hc, hd]

theorem rowSum_tiles (r : Row) : rowSum r = (tiles r).sum := by
  obtain ⟨a, b, c, d⟩ := r
  by_cases ha : a = 0 <;> by_cases hb : b = 0 <;> by_cases hc : c = 0 <;> by_cases hd : d = 0 <;>
    simp [rowSum, tiles, Arr4.toList, ha, hb, hc, hd] <;> ring

theorem tiles_of_rowAll (P : Int → Prop) (r : Row) (h : rowAll P r) :
    ∀ x, x ∈ tiles r → P x := by
  obtain ⟨a, b, c, d⟩ := r
  obtain ⟨ha, hb, hc, hd⟩ := h
  intro x hx
  have hm : x ∈ [a, b, c, d] := (List.mem_filter.mp hx).1
  simp only [List.mem_cons, List.mem_singleton, List.not_mem_nil, or_false] at hm
  rcases hm with rfl | rfl | rfl | rfl <;> assumption

theorem rowAll_of_tiles (P : Int → Prop) (h0 : P 0) (r : Row) (h : ∀ x, x ∈ tiles r → P x) :
    rowAll P r := by
  obtain ⟨a, b, c, d⟩ := r
  have key : ∀ v, v ∈ [a, b, c, d] → P v := by
    intro v hv
    by_cases hz : v = 0
    · rw [hz]
      exact h0
    · exact h v (List.mem_filter.mpr ⟨hv, by simpa using hz⟩)
  exact ⟨key a (by simp), key b (by simp), key c (by simp), key d (by simp)⟩

theorem rowLeft_all (P Q : Int → Prop) (hPQ : ∀ v, P v → Q v) (hd : ∀ v, P v → Q (v + v))
    (h0 : Q 0) (r : Row) (hr : rowAll doubles r) (h : rowAll P r) : rowAll Q (rowLeft r) := by
  apply rowAll_of_tiles Q h0
  rw [tiles_rowLeft r hr]
  exact mergePairs_all P Q hPQ hd _ (tiles_of_rowAll P r h)

theorem mergesLeft_all (P Q : Int → Prop) (hd : ∀ v, P v → Q (v + v)) (r : Row)
    (hr : rowAll doubles r) (h : rowAll P r) : ∀ v, v ∈ mergesLeft r → Q v := by
  rw [mergesLeft_reference r hr]
  exact mergePairs_log_all P Q hd _ (tiles_of_rowAll P r h)

theorem rowLeft_count (r : Row) (hr : rowAll doubles r) :
    rowTiles (rowLeft r) + (mergesLeft r).length = rowTiles r := by
  rw [rowTiles_tiles, rowTiles_tiles, tiles_rowLeft r hr, mergesLeft_reference r hr]
  exact mergePairs_length _

theorem rowLeft_sum (r : Row) (hr : rowAll doubles r) : rowSum (rowLeft r) = rowSum r := by
  rw [rowSum_tiles, rowSum_tiles, tiles_rowLeft r hr]
  exact mergePairs_sum _

theorem rowLeft_stat (f : Int → Int) (hf : f 0 = 0) (r : Row) (hr : rowAll doubles r) :
    rowStat f (rowLeft r) = ((mergePairs (tiles r)).1.map f).sum := by
  rw [rowStat_tiles f hf, tiles_rowLeft r hr]

/-! ## What a compaction does to the cells, in every direction -/

theorem countTiles_hmirror (b : Board) : countTiles (hmirror b) = countTiles b := by
  simp only [countTiles, rowTiles, hmirror, Arr4.reverse]
  omega

theorem countTiles_transpose (b : Board) : countTiles (transpose b) = countTiles b := by
  simp only [countTiles, rowTiles, transpose]
  omega

theorem boardSum_hmirror (b : Board) : boardSum (hmirror b) = boardSum b := by
  simp only [boardSum, rowSum, hmirror, Arr4.reverse]
  omega

theorem boardSum_transpose (b : Board) : boardSum (transpose b) = boardSum b := by
  simp only [boardSum, rowSum, transpose]
  omega

theorem boardStat_hmirror (f : Int → Int) (b : Board) :
    boardStat f (hmirror b) = boardStat f b := by
  simp only [boardStat, rowStat, hmirror, Arr4.reverse]
  ring

theorem boardStat_transpose (f : Int → Int) (b : Board) :
    boardStat f (transpose b) = boardStat f b := by
  simp only [boardStat, rowStat, transpose]
  ring

theorem boardAll_mono (P Q : Int → Prop) (h : ∀ v, P v → Q v) (b : Board) (hb : boardAll P b) :
    boardAll Q b :=
  fun i hi j hj => h _ (hb i hi j hj)

theorem rowLeft_tiles_le (r : Row) : rowTiles (rowLeft r) ≤ rowTiles r := by
  unfold rowLeft
  rcases lineLeft_tiles r 0 with h | h <;> omega

theorem compact_count_le (g : Game) (dir : Direction) :
    countTiles (compact g dir).Board ≤ countTiles g.Board := by
  refine compact_rel (fun g g1 => countTiles g1.Board ≤ countTiles g.Board) (fun _ => le_refl _)
    ?_ ?_ ?_ g dir
  · intro g
    rw [moveLeft_eq]
    simp only [countTiles]
    have h0 := rowLeft_tiles_le g.Board.x0
    have h1 := rowLeft_tiles_le g.Board.x1
    have h2 := rowLeft_tiles_le g.Board.x2
    have h3 := rowLeft_tiles_le g.Board.x3
    omega
  · intro g g1 h
    simp only [mapBoard, countTiles_hmirror] at h ⊢
    exact h
  · intro g g1 h
    simp only [mapBoard, countTiles_transpose] at h ⊢
    exact h

theorem compact_sum (g : Game) (dir : Direction) (h : boardAll doubles g.Board) :
    boardSum (compact g dir).Board = boardSum g.Board := by
  refine compact_rel
    (fun g g1 => boardAll doubles g.Board → boardSum g1.Board = boardSum g.Board)
    (fun _ _ => rfl) ?_ ?_ ?_ g dir h
  · intro g hg
    obtain ⟨h0, h1, h2, h3⟩ := (boardAll_rows doubles g.Board).mp hg
    rw [moveLeft_eq]
    simp only [boardSum, rowLeft_sum _ h0, rowLeft_sum _ h1, rowLeft_sum _ h2, rowLeft_sum _ h3]
  · intro g g1 hr hg
    have := hr (boardAll_hmirror doubles (hmirror g.Board) hg)
    simp only [mapBoard, boardSum_hmirror] at this ⊢
    exact this
  · intro g g1 hr hg
    have := hr (boardAll_transpose doubles (transpose g.Board) hg)
    simp only [mapBoard, boardSum_transpose] at this ⊢
    exact this

theorem compactLog_count (g : Game) (dir : Direction) (h : boardAll doubles g.Board) :
    countTiles (compact g dir).Board + (mergesOf g dir).length = countTiles g.Board := by
  rw [← compactLog_fst]
  unfold mergesOf
  refine compactLog_rel
    (fun g q => boardAll doubles g.Board →
      countTiles q.1.Board + q.2.length = countTiles g.Board)
    (fun g _ => by simp) ?_ ?_ ?_ g dir h
  · intro g hg
    obtain ⟨h0, h1, h2, h3⟩ := (boardAll_rows doubles g.Board).mp hg
    rw [moveLeftLog_eq, moveLeft_eq]
    simp only [countTiles, List.length_append]
    have c0 := rowLeft_count _ h0
    have c1 := rowLeft_count _ h1
    have c2 := rowLeft_count _ h2
    have c3 := rowLeft_count _ h3
    omega
  · intro g q hr hg
    have := hr (boardAll_hmirror doubles (hmirror g.Board) hg)
    simp only [mapBoardLog, mapBoard, countTiles_hmirror] at this ⊢
    exact this
  · intro g q hr hg
    have := hr (boardAll_transpose doubles (transpose g.Board) hg)
    simp only [mapBoardLog, mapBoard, countTiles_transpose] at this ⊢
    exact this

theorem compact_all (P Q : Int → Prop) (hPQ : ∀ v, P v → Q v) (hd : ∀ v, P v → Q (v + v))
    (h0 : Q 0) (hr : ∀ v, P v → doubles v) (g : Game) (dir : Direction)
    (h : boardAll P g.Board) : boardAll Q (compact g dir).Board := by
  refine compact_rel (fun g g1 => boardAll P g.Board → boardAll Q g1.Board)
    (fun _ hg => boardAll_mono P Q hPQ _ hg) ?_ ?_ ?_ g dir h
  · intro g hg
    obtain ⟨d0, d1, d2, d3⟩ := (boardAll_rows doubles g.Board).mp (boardAll_mono P doubles hr _ hg)
    obtain ⟨h0', h1, h2, h3⟩ := (boardAll_rows P g.Board).mp hg
    rw [moveLeft_eq]
    exact (boardAll_rows Q _).mpr ⟨rowLeft_all P Q hPQ hd h0 _ d0 h0',
      rowLeft_all P Q hPQ hd h0 _ d1 h1, rowLeft_all P Q hPQ hd h0 _ d2 h2,
      rowLeft_all P Q hPQ hd h0 _ d3 h3⟩
  · intro g g1 hr hg
    apply boardAll_hmirror
    exact hr (boardAll_hmirror P (hmirror g.Board) hg)
  · intro g g1 hr hg
    apply boardAll_transpose
    exact hr (boardAll_transpose P (transpose g.Board) hg)

theorem mergesOf_all (P Q : Int → Prop) (hd : ∀ v, P v → Q (v + v))
    (hr : ∀ v, P v → doubles v) (g : Game) (dir : Direction) (h : boardAll P g.Board) :
    ∀ v, v ∈ mergesOf g dir → Q v := by
  unfold mergesOf
  refine compactLog_rel (fun g q => boardAll P g.Board → ∀ v, v ∈ q.2 → Q v)
    (fun _ _ v hv => absurd hv (List.not_mem_nil v)) ?_ ?_ ?_ g dir h
  · intro g hg v hv
    obtain ⟨d0, d1, d2, d3⟩ := (boardAll_rows doubles g.Board).mp (boardAll_mono P doubles hr _ hg)
    obtain ⟨h0, h1, h2, h3⟩ := (boardAll_rows P g.Board).mp hg
    rw [moveLeftLog_eq] at hv
    simp only [List.mem_append] at hv
    rcases hv with ((hv | hv) | hv) | hv
    · exact mergesLeft_all P Q hd _ d0 h0 v hv
    · exact mergesLeft_all P Q hd _ d1 h1 v hv
    · exact mergesLeft_all P Q hd _ d2 h2 v hv
    · exact mergesLeft_all P Q hd _ d3 h3 v hv
  · intro g q hr hg
    exact hr (boardAll_hmirror P (hmirror g.Board) hg)
  · intro g q hr hg
    exact hr (boardAll_transpose P (transpose g.Board) hg)

/-! ## What `Move` does to the score and to the cells -/

theorem addRandomTile_frame (g : Game) (d : Draw) :
    (addRandomTile g d).Score = g.Score ∧ (addRandomTile g d).GameOver = g.GameOver
      ∧ (addRandomTile g d).Won = g.Won := by
  rcases addRandomTile_cases g d with ⟨_, e⟩ | ⟨_, i, j, v, _, _, _, _, e⟩
  · rw [e]
    exact ⟨rfl, rfl, rfl⟩
  · rw [e]
    exact ⟨rfl, rfl, rfl⟩

theorem Move_score (g : Game) (dir : Direction) (d : Draw) :
    (Move g dir d).1.Score = (compact g dir).Score := by
  unfold Move
  simp only
  split_ifs
  · rfl
  · rw [checkGameStatus_score, (addRandomTile_frame _ d).1]

theorem Move_all (P Q : Int → Prop) (hPQ : ∀ v, P v → Q v) (hd : ∀ v, P v → Q (v + v))
    (h0 : Q 0) (hr : ∀ v, P v → doubles v) (q2 : Q 2) (q4 : Q 4) (g : Game) (dir : Direction)
    (d : Draw) (h : boardAll P g.Board) : boardAll Q (Move g dir d).1.Board := by
  unfold Move
  simp only
  split_ifs
  · exact compact_all P Q hPQ hd h0 hr g dir h
  · rw [checkGameStatus_board]
    exact addRandomTile_all Q q2 q4 _ d (compact_all P Q hPQ hd h0 hr g dir h)

theorem NewGame_all (P : Int → Prop) (h0 : P 0) (p2 : P 2) (p4 : P 4) (d1 d2 : Draw) :
    boardAll P (NewGame d1 d2).Board := by
  have e : boardAll P emptyBoard := by
    intro i _ j _
    rw [cell_emptyBoard]
    exact h0
  exact addRandomTile_all P p2 p4 _ d2 (addRandomTile_all P p2 p4 _ d1 e)

theorem NewGame_score (d1 d2 : Draw) : (NewGame d1 d2).Score = 0 := by
  unfold NewGame initializeBoard
  simp only [(addRandomTile_frame _ _).1]

theorem moveRight_get (g : Game) (i : Nat) (hi : i < 4) :
    (moveRight g).Board.get i = (rowLeft (g.Board.get i).reverse).reverse := by
  rw [moveRight_eq]
  unfold mapBoard
  simp only
  rw [get_hmirror _ i hi, moveLeft_get _ i hi, get_hmirror _ i hi]

/-! ## The invariant of the reachable states -/

theorem rowStat_nonneg (f : Int → Int) (hf : ∀ v, 0 ≤ f v) (r : Row) : 0 ≤ rowStat f r := by
  have h0 := hf r.x0
  have h1 := hf r.x1
  have h2 := hf r.x2
  have h3 := hf r.x3
  unfold rowStat
  omega

theorem boardStat_atLeast_le (j : Nat) (b : Board) : boardStat (atLeast j) b ≤ 16 := by
  have key : ∀ r : Row, rowStat (atLeast j) r ≤ 4 := by
    intro r
    have h0 := atLeast_le_one j r.x0
    have h1 := atLeast_le_one j r.x1
    have h2 := atLeast_le_one j r.x2
    have h3 := atLeast_le_one j r.x3
    unfold rowStat
    omega
  have k0 := key b.x0
  have k1 := key b.x1
  have k2 := key b.x2
  have k3 := key b.x3
  unfold boardStat
  omega

theorem lt_of_atLeast (j : Nat) (v : Int) (h : atLeast j v ≤ 0) : v < 2 ^ j := by
  unfold atLeast at h
  split_ifs at h with hc
  · omega
  · exact lt_of_not_le hc

theorem boardAll_lt_of_atLeast (j : Nat) (b : Board) (h : boardStat (atLeast j) b ≤ 0) :
    boardAll (fun v => v < 2 ^ j) b := by
  have key : ∀ r : Row, rowStat (atLeast j) r ≤ 0 → rowAll (fun v => v < 2 ^ j) r := by
    intro r hr
    have h0 := atLeast_nonneg j r.x0
    have h1 := atLeast_nonneg j r.x1
    have h2 := atLeast_nonneg j r.x2
    have h3 := atLeast_nonneg j r.x3
    unfold rowStat at hr
    exact ⟨lt_of_atLeast j _ (by omega), lt_of_atLeast j _ (by omega),
      lt_of_atLeast j _ (by omega), lt_of_atLeast j _ (by omega)⟩
  have n0 := rowStat_nonneg (atLeast j) (atLeast_nonneg j) b.x0
  have n1 := rowStat_nonneg (atLeast j) (atLeast_nonneg j) b.x1
  have n2 := rowStat_nonneg (atLeast j) (atLeast_nonneg j) b.x2
  have n3 := rowStat_nonneg (atLeast j) (atLeast_nonneg j) b.x3
  unfold boardStat at h
  exact (boardAll_rows _ b).mpr ⟨key _ (by omega), key _ (by omega), key _ (by omega),
    key _ (by omega)⟩

theorem steady_cells (b : Board) (h1 : boardAll tileSized b)
    (h2 : ∀ j : Nat, 1 ≤ j → j ≤ 18 → boardStat (atLeast j) b + j ≤ 18) :
    boardAll (fun v => 0 ≤ v ∧ v < 262144) b := by
  have h18 := h2 18 (by omega) (by omega)
  have hlt := boardAll_lt_of_atLeast 18 b (by push_cast at h18; omega)
  intro i hi j hj
  have a := h1 i hi j hj
  have c := hlt i hi j hj
  simp only at c
  have e : (2 : Int) ^ 18 = 262144 := by norm_num
  rw [e] at c
  unfold tileSized at a
  exact ⟨by omega, c⟩

theorem steady_doubles (g : Game) (h : steady g) : boardAll doubles g.Board :=
  boardAll_mono _ doubles (fun v hv => ⟨by omega, by omega⟩) _ (steady_cells g.Board h.1 h.2.1)

theorem square_zero : square 0 = 0 := rfl

theorem square_lt (v : Int) (h0 : 0 ≤ v) (h1 : v < 262144) : square v < 68719476736 := by
  unfold square
  nlinarith

theorem boardStat_square_lt (b : Board) (h : boardAll (fun v => 0 ≤ v ∧ v < 262144) b) :
    boardStat square b < 1099511627776 := by
  obtain ⟨⟨a0, a1, a2, a3⟩, ⟨b0, b1, b2, b3⟩, ⟨c0, c1, c2, c3⟩, ⟨d0, d1, d2, d3⟩⟩ :=
    (boardAll_rows _ b).mp h
  have := square_lt _ a0.1 a0.2
  have := square_lt _ a1.1 a1.2
  have := square_lt _ a2.1 a2.2
  have := square_lt _ a3.1 a3.2
  have := square_lt _ b0.1 b0.2
  have := square_lt _ b1.1 b1.2
  have := square_lt _ b2.1 b2.2
  have := square_lt _ b3.1 b3.2
  have := square_lt _ c0.1 c0.2
  have := square_lt _ c1.1 c1.2
  have := square_lt _ c2.1 c2.2
  have := square_lt _ c3.1 c3.2
  have := square_lt _ d0.1 d0.2
  have := square_lt _ d1.1 d1.2
  have := square_lt _ d2.1 d2.2
  have := square_lt _ d3.1 d3.2
  unfold boardStat rowStat
  omega

theorem tiles_big (r : Row) (h : rowAll tileSized r) : ∀ x, x ∈ tiles r → 2 ≤ x := by
  intro x hx
  have a := tiles_of_rowAll tileSized r h x hx
  have b := tiles_ne_zero r x hx
  unfold tileSized at a
  omega

theorem moveLeftLog_steady (g : Game) (hs : boardAll tileSized g.Board)
    (hd : boardAll doubles g.Board)
    (ht : ∀ j : Nat, 1 ≤ j → j ≤ 18 → boardStat (atLeast j) g.Board + j ≤ 18) :
    boardAll tileSized (moveLeftLog g).1.Board
      ∧ (∀ j : Nat, 1 ≤ j → j ≤ 18 → boardStat (atLeast j) (moveLeftLog g).1.Board + j ≤ 18)
      ∧ (∀ v, v ∈ (moveLeftLog g).2 → 0 ≤ v)
      ∧ boardStat square g.Board + (moveLeftLog g).2.sum
          ≤ boardStat square (moveLeftLog g).1.Board := by
  obtain ⟨d0, d1, d2, d3⟩ := (boardAll_rows doubles g.Board).mp hd
  obtain ⟨s0, s1, s2, s3⟩ := (boardAll_rows tileSized g.Board).mp hs
  have b0 := tiles_big _ s0
  have b1 := tiles_big _ s1
  have b2 := tiles_big _ s2
  have b3 := tiles_big _ s3
  have hdd : ∀ v, tileSized v → tileSized (v + v) := by
    intro v hv
    unfold tileSized at hv ⊢
    omega
  have hdn : ∀ v, tileSized v → 0 ≤ v + v := by
    intro v hv
    unfold tileSized at hv
    omega
  rw [moveLeftLog_eq, moveLeft_eq]
  simp only
  refine ⟨?_, ?_, ?_, ?_⟩
  · exact (boardAll_rows tileSized _).mpr
      ⟨rowLeft_all tileSized tileSized (fun _ h => h) hdd (Or.inl rfl) _ d0 s0,
        rowLeft_all tileSized tileSized (fun _ h => h) hdd (Or.inl rfl) _ d1 s1,
        rowLeft_all tileSized tileSized (fun _ h => h) hdd (Or.inl rfl) _ d2 s2,
        rowLeft_all tileSized tileSized (fun _ h => h) hdd (Or.inl rfl) _ d3 s3⟩
  · have ein : ∀ j : Nat, boardStat (atLeast j) g.Board
        = ((tiles g.Board.x0).map (atLeast j)).sum + ((tiles g.Board.x1).map (atLeast j)).sum
          + ((tiles g.Board.x2).map (atLeast j)).sum
          + ((tiles g.Board.x3).map (atLeast j)).sum := by
      intro j
      simp only [boardStat, rowStat_tiles _ (atLeast_zero j)]
    have q0 := mergePairs_atLeast (tiles g.Board.x0)
      (fun j => ((tiles g.Board.x1).map (atLeast j)).sum
        + ((tiles g.Board.x2).map (atLeast j)).sum + ((tiles g.Board.x3).map (atLeast j)).sum)
      (fun j => by
        have := sum_atLeast_succ_le j (tiles g.Board.x1)
        have := sum_atLeast_succ_le j (tiles g.Board.x2)
        have := sum_atLeast_succ_le j (tiles g.Board.x3)
        simp only
        omega)
      b0
      (fun j h1 h2 => by
        have := ht j h1 h2
        rw [ein] at this
        simp only
        omega)
    have q1 := mergePairs_atLeast (tiles g.Board.x1)
      (fun j => ((mergePairs (tiles g.Board.x0)).1.map (atLeast j)).sum
        + ((tiles g.Board.x2).map (atLeast j)).sum + ((tiles g.Board.x3).map (atLeast j)).sum)
      (fun j => by
        have := sum_atLeast_succ_le j (mergePairs (tiles g.Board.x0)).1
        have := sum_atLeast_succ_le j (tiles g.Board.x2)
        have := sum_atLeast_succ_le j (tiles g.Board.x3)
        simp only
        omega)
      b1
      (fun j h1 h2 => by
        have := q0 j h1 h2
        simp only at this ⊢
        omega)
    have q2 := mergePairs_atLeast (tiles g.Board.x2)
      (fun j => ((mergePairs (tiles g.Board.x0)).1.map (atLeast j)).sum
        + ((mergePairs (tiles g.Board.x1)).1.map (atLeast j)).sum
        + ((tiles g.Board.x3).map (atLeast j)).sum)
      (fun j => by
        have := sum_atLeast_succ_le j (mergePairs (tiles g.Board.x0)).1
        have := sum_atLeast_succ_le j (mergePairs (tiles g.Board.x1)).1
        have := sum_atLeast_succ_le j (tiles g.Board.x3)
        simp only
        omega)
      b2
      (fun j h1 h2 => by
        have := q1 j h1 h2
        simp only at this ⊢
        omega)
    have q3 := mergePairs_atLeast (tiles g.Board.x3)
      (fun j => ((mergePairs (tiles g.Board.x0)).1.map (atLeast j)).sum
        + ((mergePairs (tiles g.Board.x1)).1.map (atLeast j)).sum
        + ((mergePairs (tiles g.Board.x2)).1.map (atLeast j)).sum)
      (fun j => by
        have := sum_atLeast_succ_le j (mergePairs (tiles g.Board.x0)).1
        have := sum_atLeast_succ_le j (mergePairs (tiles g.Board.x1)).1
        have := sum_atLeast_succ_le j (mergePairs (tiles g.Board.x2)).1
        simp only
        omega)
      b3
      (fun j h1 h2 => by
        have := q2 j h1 h2
        simp only at this ⊢
        omega)
    intro j h1 h2
    have := q3 j h1 h2
    simp only [boardStat, rowLeft_stat _ (atLeast_zero j) _ d0,
      rowLeft_stat _ (atLeast_zero j) _ d1, rowLeft_stat _ (atLeast_zero j) _ d2,
      rowLeft_stat _ (atLeast_zero j) _ d3] at this ⊢
    omega
  · intro v hv
    simp only [List.mem_append] at hv
    rcases hv with ((hv | hv) | hv) | hv
    · exact mergesLeft_all tileSized (fun v => 0 ≤ v) hdn _ d0 s0 v hv
    · exact mergesLeft_all tileSized (fun v => 0 ≤ v) hdn _ d1 s1 v hv
    · exact mergesLeft_all tileSized (fun v => 0 ≤ v) hdn _ d2 s2 v hv
    · exact mergesLeft_all tileSized (fun v => 0 ≤ v) hdn _ d3 s3 v hv
  · have e0 := mergePairs_sq (tiles g.Board.x0) fun x hx => by have := b0 x hx; omega
    have e1 := mergePairs_sq (tiles g.Board.x1) fun x hx => by have := b1 x hx; omega
    have e2 := mergePairs_sq (tiles g.Board.x2) fun x hx => by have := b2 x hx; omega
    have e3 := mergePairs_sq (tiles g.Board.x3) fun x hx => by have := b3 x hx; omega
    simp only [boardStat, rowLeft_stat _ square_zero _ d0, rowLeft_stat _ square_zero _ d1,
      rowLeft_stat _ square_zero _ d2, rowLeft_stat _ square_zero _ d3,
      rowStat_tiles _ square_zero, List.sum_append, mergesLeft_reference _ d0,
      mergesLeft_reference _ d1, mergesLeft_reference _ d2, mergesLeft_reference _ d3]
    have f : (fun v : Int => v * v) = square := rfl
    rw [f] at e0 e1 e2 e3
    omega

theorem compactLog_steady (g : Game) (dir : Direction) (hs : boardAll tileSized g.Board)
    (hd : boardAll doubles g.Board)
    (ht : ∀ j : Nat, 1 ≤ j → j ≤ 18 → boardStat (atLeast j) g.Board + j ≤ 18) :
    boardAll tileSized (compact g dir).Board
      ∧ (∀ j : Nat, 1 ≤ j → j ≤ 18 → boardStat (atLeast j) (compact g dir).Board + j ≤ 18)
      ∧ (∀ v, v ∈ mergesOf g dir → 0 ≤ v)
      ∧ boardStat square g.Board + (mergesOf g dir).sum
          ≤ boardStat square (compact g dir).Board := by
  rw [← compactLog_fst]
  unfold mergesOf
  refine compactLog_rel
    (fun g q => boardAll tileSized g.Board → boardAll doubles g.Board →
      (∀ j : Nat, 1 ≤ j → j ≤ 18 → boardStat (atLeast j) g.Board + j ≤ 18) →
      boardAll tileSized q.1.Board
        ∧ (∀ j : Nat, 1 ≤ j → j ≤ 18 → boardStat (atLeast j) q.1.Board + j ≤ 18)
        ∧ (∀ v, v ∈ q.2 → 0 ≤ v)
        ∧ boardStat square g.Board + q.2.sum ≤ boardStat square q.1.Board)
    ?_ moveLeftLog_steady ?_ ?_ g dir hs hd ht
  · intro g h1 _ h3
    exact ⟨h1, h3, fun v hv => absurd hv (List.not_mem_nil v), by simp⟩
  · intro g q hr h1 h2 h3
    obtain ⟨r1, r2, r3, r4⟩ := hr (boardAll_hmirror tileSized (hmirror g.Board) h1)
      (boardAll_hmirror doubles (hmirror g.Board) h2)
      (fun j hj1 hj2 => by
        have := h3 j hj1 hj2
        simp only [mapBoard, boardStat_hmirror]
        exact this)
    simp only [mapBoard, boardStat_hmirror] at r4
    refine ⟨?_, ?_, r3, ?_⟩
    · apply boardAll_hmirror
      exact r1
    · intro j hj1 hj2
      simp only [mapBoardLog, mapBoard, boardStat_hmirror]
      exact r2 j hj1 hj2
    · simp only [mapBoardLog, mapBoard, boardStat_hmirror]
      exact r4
  · intro g q hr h1 h2 h3
    obtain ⟨r1, r2, r3, r4⟩ := hr (boardAll_transpose tileSized (transpose g.Board) h1)
      (boardAll_transpose doubles (transpose g.Board) h2)
      (fun j hj1 hj2 => by
        have := h3 j hj1 hj2
        simp only [mapBoard, boardStat_transpose]
        exact this)
    simp only [mapBoard, boardStat_transpose] at r4
    refine ⟨?_, ?_, r3, ?_⟩
    · apply boardAll_transpose
      exact r1
    · intro j hj1 hj2
      simp only [mapBoardLog, mapBoard, boardStat_transpose]
      exact r2 j hj1 hj2
    · simp only [mapBoardLog, mapBoard, boardStat_transpose]
      exact r4

theorem compact_steady (g : Game) (dir : Direction) (h : steady g) :
    steady (compact g dir) ∧ (compact g dir).Score = g.Score + (mergesOf g dir).sum
      ∧ 0 ≤ (mergesOf g dir).sum := by
  obtain ⟨r1, r2, r3, r4⟩ := compactLog_steady g dir h.1 (steady_doubles g h) h.2.1
  have hb := boardStat_square_lt (compact g dir).Board (steady_cells _ r1 r2)
  have hn : 0 ≤ (mergesOf g dir).sum := List.sum_nonneg r3
  have hg0 := h.2.2.1
  have hg1 := h.2.2.2
  have e : (compact g dir).Score = g.Score + (mergesOf g dir).sum := by
    rw [compactLog_addScore]
    exact foldl_addScore_exact _ _ r3 (by omega) (by omega)
  exact ⟨⟨r1, r2, by omega, by omega⟩, e, hn⟩

theorem boardStat_setCell (f : Int → Int) (b : Board) (i j : Nat) (v : Int) (hi : i < 4)
    (hj : j < 4) : boardStat f (setCell b i j v) + f (cell b i j) = boardStat f b + f v := by
  obtain ⟨⟨a0, a1, a2, a3⟩, ⟨b0, b1, b2, b3⟩, ⟨c0, c1, c2, c3⟩, ⟨d0, d1, d2, d3⟩⟩ := b
  interval_cases i <;> interval_cases j <;>
    simp only [cell, setCell, Arr4.get, Arr4.set, boardStat, rowStat] <;> ring

theorem atLeast_of_small (j : Nat) (hj : 3 ≤ j) (v : Int) (hv : v = 2 ∨ v = 4) :
    atLeast j v = 0 := by
  obtain ⟨m, rfl⟩ : ∃ m, j = m + 3 := ⟨j - 3, by omega⟩
  have e : (2 : Int) ^ (m + 3) = 2 ^ m * 8 := by rw [pow_add]; norm_num
  have hp : (0 : Int) < 2 ^ m := by positivity
  unfold atLeast
  rw [e]
  generalize (2 : Int) ^ m = p at *
  rw [if_neg (by omega)]

theorem addRandomTile_steady (g : Game) (d : Draw) (h : steady g) :
    steady (addRandomTile g d) := by
  rcases addRandomTile_cases g d with ⟨_, e⟩ | ⟨_, i, j, v, hi, hj, hz, hv, e⟩
  · rw [e]
    exact h
  · rw [e]
    have hv2 : tileSized v := by
      unfold tileSized
      omega
    refine ⟨?_, ?_, h.2.2.1, ?_⟩
    · intro i1 hi1 j1 hj1
      simp only [cell_setCell _ i j v hi hj]
      split_ifs
      · exact hv2
      · exact h.1 i1 hi1 j1 hj1
    · intro k hk1 hk2
      by_cases hk : k ≤ 2
      · have := boardStat_atLeast_le k (setCell g.Board i j v)
        simp only
        omega
      · have es := boardStat_setCell (atLeast k) g.Board i j v hi hj
        rw [hz, atLeast_zero, atLeast_of_small k (by omega) v hv] at es
        have := h.2.1 k hk1 hk2
        simp only
        omega
    · have es := boardStat_setCell square g.Board i j v hi hj
      rw [hz, square_zero] at es
      have hsq : 0 ≤ square v := by
        unfold square
        rcases hv with rfl | rfl <;> norm_num
      have := h.2.2.2
      simp only
      omega

theorem checkGameStatus_steady (g : Game) (h : steady g) : steady (checkGameStatus g) := by
  unfold steady
  rw [checkGameStatus_board, checkGameStatus_score]
  exact h

theorem Move_steady (g : Game) (dir : Direction) (d : Draw) (h : steady g) :
    steady (Move g dir d).1 := by
  unfold Move
  simp only
  split_ifs
  · exact (compact_steady g dir h).1
  · exact checkGameStatus_steady _ (addRandomTile_steady _ d (compact_steady g dir h).1)

theorem NewGame_steady (d1 d2 : Draw) : steady (NewGame d1 d2) := by
  have e : steady ⟨emptyBoard, 0, false, false⟩ := by
    refine ⟨?_, ?_, le_refl _, ?_⟩
    · intro i _ j _
      rw [cell_emptyBoard]
      exact Or.inl rfl
    · intro k _ hk2
      have : boardStat (atLeast k) emptyBoard = 0 := by
        simp only [boardStat, rowStat, emptyBoard, atLeast_zero]
        rfl
      simp only [this]
      omega
    · decide
  exact addRandomTile_steady _ d2 (addRandomTile_steady _ d1 e)

theorem reachable_steady (g : Game) (h : Reachable g) : steady g := by
  induction h with
  | start d1 d2 => exact NewGame_steady d1 d2
  | move g dir d _ ih => exact Move_steady g dir d ih

theorem reachable_tiles (g : Game) (h : Reachable g) : boardAll emptyOrTile g.Board := by
  have h0 : emptyOrTile 0 := fun hne => absurd rfl hne
  have p2 : emptyOrTile 2 := fun _ => ⟨1, le_refl 1, rfl⟩
  have p4 : emptyOrTile 4 := fun _ => ⟨2, by omega, rfl⟩
  induction h with
  | start d1 d2 => exact NewGame_all emptyOrTile h0 p2 p4 d1 d2
  | move g dir d hr ih =>
    have hc := steady_doubles g (reachable_steady g hr)
    have hb : boardAll (fun v => emptyOrTile v ∧ doubles v) g.Board :=
      fun i hi j hj => ⟨ih i hi j hj, hc i hi j hj⟩
    refine Move_all (fun v => emptyOrTile v ∧ doubles v) emptyOrTile (fun _ hv => hv.1) ?_ h0
      (fun _ hv => hv.2) p2 p4 g dir d hb
    intro v hv hne
    have hv0 : v ≠ 0 := by
      intro e
      rw [e] at hne
      exact hne rfl
    obtain ⟨n, hn, rfl⟩ := hv.1 hv0
    exact ⟨n + 1, by omega, by rw [pow_succ]; ring⟩

/-! ## When a compaction changes nothing -/

theorem rowLeft_eq_self_iff (r : Row) : rowLeft r = r ↔ settled r := by
  obtain ⟨a, b, c, d⟩ := r
  unfold rowLeft
  simp only [lineLeft, noMarks, List.foldl]
  rw [stepLeft_one]
  by_cases ha : a = 0 <;> split_ifs <;> rw [stepLeft_two] <;> split_ifs <;>
    rw [stepLeft_three] <;> split_ifs <;>
    simp_all [settled] <;> intros <;> omega

theorem moveLeft_board_fixed_iff (g : Game) :
    (moveLeft g).Board = g.Board ↔ settledRows g.Board := by
  obtain ⟨⟨r0, r1, r2, r3⟩, s, over, won⟩ := g
  rw [moveLeft_eq]
  simp only [Arr4.mk.injEq, rowLeft_eq_self_iff, settledRows]

theorem conj_board_fixed_iff (f : Board → Board) (hf : ∀ b, f (f b) = b) (m1 m2 : Game → Game)
    (hm : ∀ g, m2 g = mapBoard f (m1 (mapBoard f g))) (g : Game) :
    (m2 g).Board = g.Board ↔ (m1 (mapBoard f g)).Board = (mapBoard f g).Board := by
  rw [hm]
  simp only [mapBoard]
  constructor
  · intro h
    have := congrArg f h
    rwa [hf] at this
  · intro h
    rw [h, hf]

theorem moveRight_board_fixed_iff (g : Game) :
    (moveRight g).Board = g.Board ↔ settledRows (hmirror g.Board) := by
  rw [conj_board_fixed_iff hmirror hmirror_hmirror moveLeft moveRight moveRight_eq,
    moveLeft_board_fixed_iff]
  rfl

theorem moveUp_board_fixed_iff (g : Game) :
    (moveUp g).Board = g.Board ↔ settledRows (transpose g.Board) := by
  rw [conj_board_fixed_iff transpose transpose_transpose moveLeft moveUp moveUp_transpose,
    moveLeft_board_fixed_iff]
  rfl

theorem moveDown_board_fixed_iff (g : Game) :
    (moveDown g).Board = g.Board ↔ settledRows (hmirror (transpose g.Board)) := by
  rw [conj_board_fixed_iff transpose transpose_transpose moveRight moveDown moveDown_transpose,
    moveRight_board_fixed_iff]
  rfl

theorem settledRows_get (b : Board) (h : settledRows b) (i : Nat) (hi : i < 4) :
    settled (b.get i) := by
  obtain ⟨h0, h1, h2, h3⟩ := h
  interval_cases i <;> assumption

theorem rowFullDistinct_settled (r : Row) (h : rowFullDistinct r) :
    settled r ∧ settled r.reverse := by
  obtain ⟨⟨a, b, c, d⟩, e1, e2, e3⟩ := h
  exact ⟨⟨fun _ => ⟨a, e1⟩, fun _ => ⟨b, e2⟩, fun _ => ⟨c, e3⟩⟩,
    ⟨fun _ => ⟨d, Ne.symm e3⟩, fun _ => ⟨c, Ne.symm e2⟩, fun _ => ⟨b, Ne.symm e1⟩⟩⟩

theorem settled_both (r : Row) (h1 : settled r) (h2 : settled r.reverse) :
    rowZero r ∨ rowFullDistinct r := by
  obtain ⟨a, b, c, d⟩ := r
  simp only [settled, Arr4.reverse, rowZero, rowFullDistinct] at h1 h2 ⊢
  by_cases ha : a = 0 <;> by_cases hb : b = 0 <;> by_cases hc : c = 0 <;> by_cases hd : d = 0 <;>
    simp_all

theorem rowZero_get (r : Row) (h : rowZero r) (j : Nat) (hj : j < 4) : r.get j = 0 := by
  obtain ⟨h0, h1, h2, h3⟩ := h
  interval_cases j <;> assumption

theorem rowFullDistinct_get (r : Row) (h : rowFullDistinct r) :
    (∀ j, j < 4 → r.get j ≠ 0) ∧ (∀ j, j < 3 → r.get j ≠ r.get (j + 1)) := by
  obtain ⟨⟨a, b, c, d⟩, e1, e2, e3⟩ := h
  constructor
  · intro j hj
    interval_cases j <;> assumption
  · intro j hj
    interval_cases j <;> assumption

theorem rowFullDistinct_of_get (r : Row) (h1 : ∀ j, j < 4 → r.get j ≠ 0)
    (h2 : ∀ j, j < 3 → r.get j ≠ r.get (j + 1)) : rowFullDistinct r :=
  ⟨⟨h1 0 (by omega), h1 1 (by omega), h1 2 (by omega), h1 3 (by omega)⟩,
    h2 0 (by omega), h2 1 (by omega), h2 2 (by omega)⟩

theorem cell_as_column (b : Board) (i j : Nat) (hi : i < 4) (hj : j < 4) :
    ((transpose b).get j).get i = cell b i j :=
  cell_transpose b j i hj hi

theorem stuck_of_lines (b : Board) (hnz : ∃ i, i < 4 ∧ ∃ j, j < 4 ∧ cell b i j ≠ 0)
    (hr : ∀ i, i < 4 → rowZero (b.get i) ∨ rowFullDistinct (b.get i))
    (hc : ∀ j, j < 4 → rowZero ((transpose b).get j) ∨ rowFullDistinct ((transpose b).get j)) :
    isFull b ∧ noEqualNeighbours b := by
  obtain ⟨i0, hi0, j0, hj0, h0⟩ := hnz
  have row0 : ∀ j, j < 4 → cell b i0 j ≠ 0 := by
    rcases hr i0 hi0 with hz | hd
    · exact absurd (rowZero_get _ hz j0 hj0) h0
    · exact (rowFullDistinct_get _ hd).1
  have cols : ∀ j, j < 4 → rowFullDistinct ((transpose b).get j) := by
    intro j hj
    rcases hc j hj with hz | hd
    · have := rowZero_get _ hz i0 hi0
      rw [cell_as_column b i0 j hi0 hj] at this
      exact absurd this (row0 j hj)
    · exact hd
  have full : isFull b := by
    intro i hi j hj
    rw [← cell_as_column b i j hi hj]
    exact (rowFullDistinct_get _ (cols j hj)).1 i hi
  have rows : ∀ i, i < 4 → rowFullDistinct (b.get i) := by
    intro i hi
    rcases hr i hi with hz | hd
    · exact absurd (rowZero_get _ hz 0 (by omega)) (full i hi 0 (by omega))
    · exact hd
  refine ⟨full, ?_, ?_⟩
  · intro i hi j hj
    exact (rowFullDistinct_get _ (rows i hi)).2 j hj
  · intro i hi j hj
    have := (rowFullDistinct_get _ (cols j hj)).2 i hi
    rw [cell_as_column b i j (by omega) hj, cell_as_column b (i + 1) j (by omega) hj] at this
    exact this

theorem lines_of_stuck (b : Board) (hf : isFull b) (hn : noEqualNeighbours b) :
    (∀ i, i < 4 → rowFullDistinct (b.get i))
      ∧ (∀ j, j < 4 → rowFullDistinct ((transpose b).get j)) := by
  constructor
  · intro i hi
    exact rowFullDistinct_of_get _ (fun j hj => hf i hi j hj) (fun j hj => hn.1 i hi j hj)
  · intro j hj
    apply rowFullDistinct_of_get
    · intro i hi
      rw [cell_as_column b i j hi hj]
      exact hf i hi j hj
    · intro i hi
      rw [cell_as_column b i j (by omega) hj, cell_as_column b (i + 1) j (by omega) hj]
      exact hn.2 i hi j hj

theorem settledRows_of_get (b : Board) (h : ∀ i, i < 4 → settled (b.get i)) : settledRows b :=
  ⟨h 0 (by omega), h 1 (by omega), h 2 (by omega), h 3 (by omega)⟩

theorem stuck_iff_all_settled (b : Board) (hnz : ∃ i, i < 4 ∧ ∃ j, j < 4 ∧ cell b i j ≠ 0) :
    (isFull b ∧ noEqualNeighbours b) ↔
      (settledRows b ∧ settledRows (hmirror b) ∧ settledRows (transpose b)
        ∧ settledRows (hmirror (transpose b))) := by
  constructor
  · rintro ⟨hf, hn⟩
    obtain ⟨hr, hc⟩ := lines_of_stuck b hf hn
    refine ⟨settledRows_of_get _ fun i hi => (rowFullDistinct_settled _ (hr i hi)).1,
      settledRows_of_get _ fun i hi => ?_,
      settledRows_of_get _ fun j hj => (rowFullDistinct_settled _ (hc j hj)).1,
      settledRows_of_get _ fun j hj => ?_⟩
    · rw [get_hmirror b i hi]
      exact (rowFullDistinct_settled _ (hr i hi)).2
    · rw [get_hmirror _ j hj]
      exact (rowFullDistinct_settled _ (hc j hj)).2
  · rintro ⟨h1, h2, h3, h4⟩
    apply stuck_of_lines b hnz
    · intro i hi
      have e := settledRows_get _ h2 i hi
      rw [get_hmirror b i hi] at e
      exact settled_both _ (settledRows_get _ h1 i hi) e
    · intro j hj
      have e := settledRows_get _ h4 j hj
      rw [get_hmirror _ j hj] at e
      exact settled_both _ (settledRows_get _ h3 j hj) e

theorem compact_Left (g : Game) : compact g Left = moveLeft g := by
  simp [compact]

theorem compact_Right (g : Game) : compact g Right = moveRight g := by
  simp [compact, Left, Right]

theorem compact_Up (g : Game) : compact g Up = moveUp g := by
  simp [compact, Left, Right, Up]

theorem compact_Down (g : Game) : compact g Down = moveDown g := by
  simp [compact, Left, Right, Up, Down]

theorem Move_false_iff (g : Game) (dir : Direction) (d : Draw) :
    (Move g dir d).2 = false ↔ (compact g dir).Board = g.Board := by
  unfold Move
  simp only
  split_ifs with h
  · simp [h]
  · simp [h]

theorem all_fixed_iff (g : Game) (hnz : ∃ i, i < 4 ∧ ∃ j, j < 4 ∧ cell g.Board i j ≠ 0) :
    (isFull g.Board ∧ noEqualNeighbours g.Board) ↔
      ((moveLeft g).Board = g.Board ∧ (moveRight g).Board = g.Board
        ∧ (moveUp g).Board = g.Board ∧ (moveDown g).Board = g.Board) := by
  rw [moveLeft_board_fixed_iff, moveRight_board_fixed_iff, moveUp_board_fixed_iff,
    moveDown_board_fixed_iff]
  exact stuck_iff_all_settled g.Board hnz

theorem stuck_compact (g : Game) (dir : Direction) (hf : isFull g.Board)
    (hn : noEqualNeighbours g.Board) : compact g dir = g := by
  have hnz : ∃ i, i < 4 ∧ ∃ j, j < 4 ∧ cell g.Board i j ≠ 0 :=
    ⟨0, by omega, 0, by omega, hf 0 (by omega) 0 (by omega)⟩
  obtain ⟨h1, h2, h3, h4⟩ := (all_fixed_iff g hnz).mp ⟨hf, hn⟩
  apply compact_fixed
  unfold compact
  split_ifs
  · exact h1
  · exact h2
  · exact h3
  · exact h4
  · rfl

/-! ## A changed board has room for the new tile; flags only ever go up -/

theorem rowTiles_le (r : Row) : rowTiles r ≤ 4 := by
  unfold rowTiles
  split_ifs <;> omega

theorem rowLeft_fixed_or_room (r : Row) : rowLeft r = r ∨ rowTiles (rowLeft r) < 4 := by
  obtain ⟨a, b, c, d⟩ := r
  unfold rowLeft
  simp only [lineLeft, noMarks, List.foldl]
  rw [stepLeft_one]
  by_cases ha : a = 0 <;> split_ifs <;> rw [stepLeft_two] <;> split_ifs <;>
    rw [stepLeft_three] <;> split_ifs <;>
    simp_all [rowTiles] <;>
    first | omega | (right; split_ifs <;> omega) | (split_ifs <;> omega)

theorem moveLeft_fixed_or_room (g : Game) :
    (moveLeft g).Board = g.Board ∨ countTiles (moveLeft g).Board < 16 := by
  obtain ⟨⟨r0, r1, r2, r3⟩, s, over, won⟩ := g
  rw [moveLeft_eq]
  simp only [countTiles]
  have l0 := rowTiles_le (rowLeft r0)
  have l1 := rowTiles_le (rowLeft r1)
  have l2 := rowTiles_le (rowLeft r2)
  have l3 := rowTiles_le (rowLeft r3)
  rcases rowLeft_fixed_or_room r0 with e0 | e0
  · rcases rowLeft_fixed_or_room r1 with e1 | e1
    · rcases rowLeft_fixed_or_room r2 with e2 | e2
      · rcases rowLeft_fixed_or_room r3 with e3 | e3
        · left
          rw [e0, e1, e2, e3]
        · right; omega
      · right; omega
    · right; omega
  · right; omega

theorem compact_fixed_or_room (g : Game) (dir : Direction) :
    (compact g dir).Board = g.Board ∨ countTiles (compact g dir).Board < 16 := by
  refine compact_rel (fun g g1 => g1.Board = g.Board ∨ countTiles g1.Board < 16)
    (fun _ => Or.inl rfl) moveLeft_fixed_or_room ?_ ?_ g dir
  · intro g g1 h
    simp only [mapBoard, countTiles_hmirror] at h ⊢
    rcases h with h | h
    · left
      rw [h, hmirror_hmirror]
    · exact Or.inr h
  · intro g g1 h
    simp only [mapBoard, countTiles_transpose] at h ⊢
    rcases h with h | h
    · left
      rw [h, transpose_transpose]
    · exact Or.inr h

theorem Move_true_iff (g : Game) (dir : Direction) (d : Draw) :
    (Move g dir d).2 = true ↔ (compact g dir).Board ≠ g.Board := by
  unfold Move
  simp only
  split_ifs with h
  · simp [h]
  · simp [h]

theorem Move_changed (g : Game) (dir : Direction) (d : Draw)
    (h : (compact g dir).Board ≠ g.Board) :
    Move g dir d = (checkGameStatus (addRandomTile (compact g dir) d), true) := by
  unfold Move
  simp only [h, if_false]

theorem Move_unchanged (g : Game) (dir : Direction) (d : Draw)
    (h : (compact g dir).Board = g.Board) : Move g dir d = (g, false) := by
  unfold Move
  simp only [h, if_true, compact_fixed g dir h]

theorem compact_flags (g : Game) (dir : Direction) :
    (compact g dir).GameOver = g.GameOver ∧ (compact g dir).Won = g.Won := by
  refine compact_rel (fun g g1 => g1.GameOver = g.GameOver ∧ g1.Won = g.Won)
    (fun _ => ⟨rfl, rfl⟩) ?_ (fun _ _ h => h) (fun _ _ h => h) g dir
  intro g
  rw [moveLeft_eq]
  exact ⟨rfl, rfl⟩

theorem checkGameStatus_flags (g : Game) :
    (g.Won = true → (checkGameStatus g).Won = true)
      ∧ (g.GameOver = true → (checkGameStatus g).GameOver = true)
      ∧ ((checkGameStatus g).GameOver = true →
          g.GameOver = true ∨ (isFull g.Board ∧ noEqualNeighbours g.Board)) := by
  by_cases hw : holds g.Board 2048
  · have e : checkGameStatus g = { g with Won := true } := by
      unfold checkGameStatus
      rw [(has2048_iff g.Board).mpr hw]
      rfl
    rw [e]
    exact ⟨fun _ => rfl, fun h => h, fun h => Or.inl h⟩
  · rw [checkGameStatus_no2048 g hw]
    split_ifs with hc
    · exact ⟨fun h => h, fun _ => rfl, fun _ => Or.inr hc⟩
    · exact ⟨fun h => h, fun h => h, fun h => Or.inl h⟩

theorem Move_flags (g : Game) (dir : Direction) (d : Draw) :
    (g.Won = true → (Move g dir d).1.Won = true)
      ∧ (g.GameOver = true → (Move g dir d).1.GameOver = true) := by
  by_cases h : (compact g dir).Board = g.Board
  · rw [Move_unchanged g dir d h]
    exact ⟨fun h => h, fun h => h⟩
  · rw [Move_changed g dir d h]
    have f1 := compact_flags g dir
    have f2 := addRandomTile_frame (compact g dir) d
    have f3 := checkGameStatus_flags (addRandomTile (compact g dir) d)
    constructor
    · intro hw
      apply f3.1
      rw [f2.2.2, f1.2]
      exact hw
    · intro ho
      apply f3.2.1
      rw [f2.2.1, f1.1]
      exact ho

theorem NewGame_flags (d1 d2 : Draw) :
    (NewGame d1 d2).GameOver = false ∧ (NewGame d1 d2).Won = false := by
  unfold NewGame initializeBoard
  simp only [(addRandomTile_frame _ _).2.1, (addRandomTile_frame _ _).2.2]
  exact ⟨trivial, trivial⟩

theorem reachable_gameOver (g : Game) (h : Reachable g) (ho : g.GameOver = true) :
    isFull g.Board ∧ noEqualNeighbours g.Board := by
  induction h with
  | start d1 d2 =>
    rw [(NewGame_flags d1 d2).1] at ho
    exact Bool.noConfusion ho
  | move g dir d _ ih =>
    by_cases h : (compact g dir).Board = g.Board
    · rw [Move_unchanged g dir d h] at ho ⊢
      exact ih ho
    · rw [Move_changed g dir d h] at ho ⊢
      simp only at ho ⊢
      rw [checkGameStatus_board]
      rcases (checkGameStatus_flags _).2.2 ho with h1 | h1
      · rw [(addRandomTile_frame _ d).2.1, (compact_flags g dir).1] at h1
        obtain ⟨hf, hn⟩ := ih h1
        exact absurd (congrArg Game.Board (stuck_compact g dir hf hn)) h
      · exact h1

theorem reachable_play (g : Game) (h : Reachable g) (moves : List (Direction × Draw)) :
    Reachable (play g moves) := by
  unfold play
  induction moves generalizing g with
  | nil => exact h
  | cons m t ih =>
    rw [List.foldl_cons]
    exact ih _ (Reachable.move g m.1 m.2 h)

/-! ## Claims -/

/-- C1: when the compaction routine selected by the direction leaves the board equal to the
board before the call, `Move` returns false and the state after the call (Board, Score,
GameOver, Won) is exactly the state before it; the Score in particular is not changed. -/
theorem C1_move_without_change (g : Game) (dir : Direction) (d : Draw)
    (h : (compact g dir).Board = g.Board) :
    Move g dir d = (g, false) ∧ (Move g dir d).1.Score = g.Score
      ∧ (compact g dir).Score = g.Score := by
  have hc := compact_fixed g dir h
  have hm : Move g dir d = (g, false) := by
    unfold Move
    simp only [h, if_true, hc]
  exact ⟨hm, by rw [hm], by rw [hc]⟩

theorem C1_move_without_change_witness :
    (compact cornerGame Left).Board = cornerGame.Board
      ∧ Move cornerGame Left ⟨7, true⟩ = (cornerGame, false) :=
  ⟨by decide, (C1_move_without_change cornerGame Left ⟨7, true⟩ (by decide)).1⟩

/-- C2, as stated, fails for a tile value whose double leaves the range of the 64-bit `int`:
with `a = 2^62` the row `[a,a,a,a]` becomes `[-2^63,-2^63,0,0]`, which is not `[2a,2a,0,0]`,
and the pass over the row leaves the Score as it was instead of adding `4a`. -/
theorem C2_counterexample :
    (0 : Int) < 4611686018427387904
      ∧ bigFourGame.Board.get 0
          = ⟨4611686018427387904, 4611686018427387904, 4611686018427387904,
              4611686018427387904⟩
      ∧ (moveLeft bigFourGame).Board.get 0
          = ⟨-9223372036854775808, -9223372036854775808, 0, 0⟩
      ∧ (moveLeft bigFourGame).Board.get 0
          ≠ ⟨2 * 4611686018427387904, 2 * 4611686018427387904, 0, 0⟩
      ∧ (moveLeftRow bigFourGame 0).Score = bigFourGame.Score
      ∧ (moveLeftRow bigFourGame 0).Score ≠ bigFourGame.Score + 4 * 4611686018427387904 := by
  decide

/-- C2, amended: for every tile value `a` with `0 < a < 2^62`, `moveLeft` turns a row
`[a,a,a,a]` into `[2a,2a,0,0]`, never into `[4a,0,0,0]`; when the Score `s` before is a
64-bit value with `s + 4a < 2^63`, the pass over that row adds exactly `4a` to the Score,
which is the whole increase of the Score when the other rows are empty. -/
theorem C2_single_merge_per_cell (g : Game) (i : Nat) (a : Int) (hi : i < 4) (ha : 0 < a)
    (hb : a < 4611686018427387904) (hrow : g.Board.get i = ⟨a, a, a, a⟩) :
    (moveLeft g).Board.get i = ⟨2 * a, 2 * a, 0, 0⟩
      ∧ (moveLeft g).Board.get i ≠ ⟨4 * a, 0, 0, 0⟩
      ∧ (moveLeftRow g i).Board.get i = ⟨2 * a, 2 * a, 0, 0⟩
      ∧ (-9223372036854775808 ≤ g.Score → g.Score + 4 * a < 9223372036854775808 →
          (moveLeftRow g i).Score = g.Score + 4 * a
            ∧ ((∀ k, k < 4 → k ≠ i → g.Board.get k = ⟨0, 0, 0, 0⟩) →
                (moveLeft g).Score = g.Score + 4 * a)) := by
  have hl := fun s => lineLeft_four a s (by omega) (by omega) hb
  have hr : rowLeft ⟨a, a, a, a⟩ = ⟨2 * a, 2 * a, 0, 0⟩ := by
    unfold rowLeft
    rw [hl, mul_comm]
  refine ⟨?_, ?_, ?_, ?_⟩
  · rw [moveLeft_get g i hi, hrow, hr]
  · rw [moveLeft_get g i hi, hrow, hr]
    intro hc
    have := congrArg Arr4.x1 hc
    simp only at this
    omega
  · rw [moveLeftRow_get g i hi, hrow, hr]
  · intro hs1 hs2
    have hg : scoreLeft ⟨a, a, a, a⟩ g.Score = g.Score + 4 * a := by
      unfold scoreLeft
      rw [hl]
      simp only
      rw [wrap64_of_range (g.Score + a * 2) (by omega) (by omega),
        wrap64_of_range _ (by omega) (by omega)]
      omega
    refine ⟨?_, ?_⟩
    · rw [moveLeftRow_score, hrow, hg]
    · intro hk
      rw [moveLeft_eq]
      have h0 := hk 0 (by omega)
      have h1 := hk 1 (by omega)
      have h2 := hk 2 (by omega)
      have h3 := hk 3 (by omega)
      simp only [Arr4.get_0, Arr4.get_1, Arr4.get_2, Arr4.get_3] at h0 h1 h2 h3 hrow
      interval_cases i <;>
        simp only [Arr4.get_0, Arr4.get_1, Arr4.get_2, Arr4.get_3] at hrow <;>
        simp [hrow, h0, h1, h2, h3, hg, scoreLeft_zero]

theorem C2_single_merge_per_cell_witness :
    (moveLeft fourTwosGame).Board.get 1 = ⟨4, 4, 0, 0⟩
      ∧ (moveLeft fourTwosGame).Score = fourTwosGame.Score + 8 :=
  have h := C2_single_merge_per_cell fourTwosGame 1 2 (by decide) (by decide) (by decide)
    (by decide)
  ⟨h.1, (h.2.2.2 (by decide) (by decide)).2 (by decide)⟩

/-- C3: when no two consecutive non-zero tiles of row `i` (zeros between them ignored) are
equal, `moveLeft` leaves in row `i` the same tiles in the same order packed against the left
edge and followed by zeros, and the pass over that row leaves the Score as it was; when this
holds of every row the Score after `moveLeft` is the Score before. -/
theorem C3_slide_without_merge (g : Game) (i : Nat) (hi : i < 4)
    (h : List.Chain' (fun x y => x ≠ y) (tiles (g.Board.get i))) :
    ((moveLeft g).Board.get i).toList = packed (g.Board.get i)
      ∧ (moveLeftRow g i).Score = g.Score
      ∧ ((∀ k, k < 4 → List.Chain' (fun x y => x ≠ y) (tiles (g.Board.get k))) →
          (moveLeft g).Score = g.Score) := by
  have key : ∀ (r : Row) (s : Int), List.Chain' (fun x y => x ≠ y) (tiles r) →
      scoreLeft r s = s :=
    fun r s hr => (lineLeft_slide r s hr).2
  refine ⟨?_, ?_, ?_⟩
  · rw [moveLeft_get g i hi]
    exact (lineLeft_slide _ 0 h).1
  · rw [moveLeftRow_score, key _ _ h]
  · intro hk
    rw [moveLeft_eq]
    have h0 := hk 0 (by omega)
    have h1 := hk 1 (by omega)
    have h2 := hk 2 (by omega)
    have h3 := hk 3 (by omega)
    simp only [Arr4.get_0, Arr4.get_1, Arr4.get_2, Arr4.get_3] at h0 h1 h2 h3
    simp only [key _ _ h0, key _ _ h1, key _ _ h2, key _ _ h3]

theorem C3_slide_without_merge_witness :
    ((moveLeft slideGame).Board.get 2).toList = [2, 0, 0, 0]
      ∧ (moveLeft slideGame).Score = slideGame.Score :=
  have h := C3_slide_without_merge slideGame 2 (by decide)
    (by simp [slideGame, tiles, Arr4.get, Arr4.toList])
  ⟨h.1, h.2.2 (fun k hk => by
    interval_cases k <;> simp [slideGame, tiles, Arr4.get, Arr4.toList])⟩

/-- C4: running `moveRight` on the horizontal mirror of a board (each row reversed) and
mirroring the result gives exactly the board produced by `moveLeft` on the original board,
and both runs add the same amount to the Score. -/
theorem C4_left_right_symmetry (g : Game) :
    hmirror (moveRight (mapBoard hmirror g)).Board = (moveLeft g).Board
      ∧ (moveRight (mapBoard hmirror g)).Score - (mapBoard hmirror g).Score
          = (moveLeft g).Score - g.Score := by
  rw [moveRight_hmirror]
  exact ⟨rfl, rfl⟩

/-- C5: running `moveDown` on the vertical mirror of a board (row order reversed) and
mirroring the result gives exactly the board produced by `moveUp` on the original board,
and both runs add the same amount to the Score. -/
theorem C5_up_down_symmetry (g : Game) :
    vmirror (moveDown (mapBoard vmirror g)).Board = (moveUp g).Board
      ∧ (moveDown (mapBoard vmirror g)).Score - (mapBoard vmirror g).Score
          = (moveUp g).Score - g.Score := by
  rw [moveDown_vmirror]
  exact ⟨rfl, rfl⟩

/-- C6: when some cell of the board equals 2048, `checkGameStatus` sets Won to true, whatever
the other cells hold, and leaves Board, Score and GameOver as they were. -/
theorem C6_win_detection (g : Game) (h : holds g.Board 2048) :
    (checkGameStatus g).Won = true ∧ (checkGameStatus g).Board = g.Board
      ∧ (checkGameStatus g).Score = g.Score ∧ (checkGameStatus g).GameOver = g.GameOver := by
  unfold checkGameStatus
  rw [(has2048_iff g.Board).mpr h]
  exact ⟨rfl, rfl, rfl, rfl⟩

theorem C6_win_detection_witness :
    holds wonFullGame.Board 2048 ∧ (checkGameStatus wonFullGame).Won = true :=
  ⟨by decide, (C6_win_detection wonFullGame (by decide)).1⟩

/-- C7, as stated, fails: this board is full and has no two equal neighbours, yet
`checkGameStatus` leaves GameOver false, because a cell holds 2048 and the call returns
right after setting Won. -/
theorem C7_counterexample :
    isFull wonFullGame.Board ∧ noEqualNeighbours wonFullGame.Board
      ∧ wonFullGame.GameOver = false ∧ (checkGameStatus wonFullGame).GameOver = false
      ∧ (checkGameStatus wonFullGame).Won = true := by
  decide

/-- C7, amended: when the board is full, has no two equal cells adjacent in any row or
column, and no cell equals 2048, `checkGameStatus` sets GameOver to true. -/
theorem C7_game_over_detection (g : Game) (hf : isFull g.Board)
    (hn : noEqualNeighbours g.Board) (hw : ¬ holds g.Board 2048) :
    (checkGameStatus g).GameOver = true := by
  rw [checkGameStatus_no2048 g hw, if_pos ⟨hf, hn⟩]

theorem C7_game_over_detection_witness :
    isFull stuckGame.Board ∧ noEqualNeighbours stuckGame.Board ∧ ¬ holds stuckGame.Board 2048
      ∧ stuckGame.GameOver = false ∧ (checkGameStatus stuckGame).GameOver = true :=
  ⟨by decide, by decide, by decide, rfl,
    C7_game_over_detection stuckGame (by decide) (by decide) (by decide)⟩

/-- C8: when no cell of the board equals 2048, `checkGameStatus` leaves Won, Board and Score
as they were, and GameOver after the call is GameOver before it or-ed with "the board has no
empty cell and no two horizontally or vertically adjacent cells are equal"; so on a full
board with an adjacent equal pair the call leaves GameOver as it was. -/
theorem C8_status_without_2048 (g : Game) (hw : ¬ holds g.Board 2048) :
    (checkGameStatus g).Won = g.Won ∧ (checkGameStatus g).Board = g.Board
      ∧ (checkGameStatus g).Score = g.Score
      ∧ (checkGameStatus g).GameOver
          = (g.GameOver || decide (isFull g.Board ∧ noEqualNeighbours g.Board))
      ∧ (isFull g.Board → ¬ noEqualNeighbours g.Board →
          (checkGameStatus g).GameOver = g.GameOver) := by
  rw [checkGameStatus_no2048 g hw]
  by_cases hc : isFull g.Board ∧ noEqualNeighbours g.Board
  · simp only [hc, and_self, if_true, decide_True, Bool.or_true, true_and, not_true_eq_false,
      false_implies, implies_true, and_true]
  · simp only [hc, if_false, decide_False, Bool.or_false, true_and, implies_true, and_true]

theorem C8_status_without_2048_witness :
    ¬ holds pairGame.Board 2048 ∧ isFull pairGame.Board ∧ ¬ noEqualNeighbours pairGame.Board
      ∧ (checkGameStatus pairGame).GameOver = false :=
  ⟨by decide, by decide, by decide,
    (C8_status_without_2048 pairGame (by decide)).2.2.2.2 (by decide) (by decide)⟩

/-- C9: for every state and every outcome of the random draws, `addRandomTile` on a board
with no empty cell leaves the whole state unchanged; on a board with an empty cell it changes
exactly one cell, which was 0 before and is 2 or 4 after, while every other cell, Score,
GameOver and Won stay as they were; so when exactly one cell is empty the new tile lands in
that cell. -/
theorem C9_tile_spawn (g : Game) (d : Draw) :
    (isFull g.Board → addRandomTile g d = g)
      ∧ (¬ isFull g.Board →
          ∃ i j, i < 4 ∧ j < 4 ∧ cell g.Board i j = 0
            ∧ (cell (addRandomTile g d).Board i j = 2 ∨ cell (addRandomTile g d).Board i j = 4)
            ∧ (∀ i1, i1 < 4 → ∀ j1, j1 < 4 → ¬ (i1 = i ∧ j1 = j) →
                cell (addRandomTile g d).Board i1 j1 = cell g.Board i1 j1)
            ∧ (addRandomTile g d).Score = g.Score
            ∧ (addRandomTile g d).GameOver = g.GameOver
            ∧ (addRandomTile g d).Won = g.Won)
      ∧ (∀ i, i < 4 → ∀ j, j < 4 → cell g.Board i j = 0 →
          (∀ i1, i1 < 4 → ∀ j1, j1 < 4 → cell g.Board i1 j1 = 0 → i1 = i ∧ j1 = j) →
          (cell (addRandomTile g d).Board i j = 2 ∨ cell (addRandomTile g d).Board i j = 4)
            ∧ (∀ i1, i1 < 4 → ∀ j1, j1 < 4 → ¬ (i1 = i ∧ j1 = j) →
                cell (addRandomTile g d).Board i1 j1 = cell g.Board i1 j1)) := by
  have key : ¬ isFull g.Board →
      ∃ i j, i < 4 ∧ j < 4 ∧ cell g.Board i j = 0
        ∧ (cell (addRandomTile g d).Board i j = 2 ∨ cell (addRandomTile g d).Board i j = 4)
        ∧ (∀ i1, i1 < 4 → ∀ j1, j1 < 4 → ¬ (i1 = i ∧ j1 = j) →
            cell (addRandomTile g d).Board i1 j1 = cell g.Board i1 j1)
        ∧ (addRandomTile g d).Score = g.Score
        ∧ (addRandomTile g d).GameOver = g.GameOver
        ∧ (addRandomTile g d).Won = g.Won := by
    intro hf
    rcases addRandomTile_cases g d with ⟨h, _⟩ | ⟨_, i, j, v, hi, hj, hz, hv, e⟩
    · exact absurd h hf
    · rw [e]
      refine ⟨i, j, hi, hj, hz, ?_, ?_, rfl, rfl, rfl⟩
      · simp only [cell_setCell _ i j v hi hj, and_self, if_true]
        exact hv
      · intro i1 _ j1 _ hne
        simp only [cell_setCell _ i j v hi hj, hne, if_false]
  refine ⟨?_, key, ?_⟩
  · intro hf
    rcases addRandomTile_cases g d with ⟨_, e⟩ | ⟨h, _⟩
    · exact e
    · exact absurd hf h
  · intro i hi j hj hz huniq
    obtain ⟨i2, j2, hi2, hj2, hz2, hv, hrest, _⟩ := key (fun hf => hf i hi j hj hz)
    obtain ⟨rfl, rfl⟩ := huniq i2 hi2 j2 hj2 hz2
    exact ⟨hv, hrest⟩

theorem C9_tile_spawn_witness :
    addRandomTile stuckGame ⟨5, true⟩ = stuckGame
      ∧ (cell (addRandomTile oneGapGame ⟨5, true⟩).Board 2 1 = 2
          ∨ cell (addRandomTile oneGapGame ⟨5, true⟩).Board 2 1 = 4) :=
  ⟨(C9_tile_spawn stuckGame ⟨5, true⟩).1 (by decide),
    ((C9_tile_spawn oneGapGame ⟨5, true⟩).2.2 2 (by decide) 1 (by decide) (by decide)
      (by decide)).1⟩

/-- C10: for every outcome of the random draws, `NewGame()` returns a state whose board has
exactly two non-zero cells, every cell being 0, 2 or 4, with Score 0, GameOver false and Won
false. -/
theorem C10_new_game (d1 d2 : Draw) :
    countTiles (NewGame d1 d2).Board = 2
      ∧ (∀ i, i < 4 → ∀ j, j < 4 → cell (NewGame d1 d2).Board i j ≠ 0 →
          cell (NewGame d1 d2).Board i j = 2 ∨ cell (NewGame d1 d2).Board i j = 4)
      ∧ (NewGame d1 d2).Score = 0 ∧ (NewGame d1 d2).GameOver = false
      ∧ (NewGame d1 d2).Won = false := by
  unfold NewGame initializeBoard
  dsimp only
  have h0 : ¬ isFull emptyBoard := by decide
  rcases addRandomTile_cases
      { zeroGame with Board := emptyBoard, Score := 0, GameOver := false, Won := false } d1 with
    ⟨h, _⟩ | ⟨_, i, j, v, hi, hj, hz, hv, e1⟩
  · exact absurd h h0
  · rw [e1]
    dsimp only at hz ⊢
    have hv0 : v ≠ 0 := by rcases hv with rfl | rfl <;> decide
    have c1 : countTiles (setCell emptyBoard i j v) = 1 := by
      rw [countTiles_setCell _ i j v hi hj hz hv0]
      rfl
    rcases addRandomTile_cases
        { Board := setCell emptyBoard i j v, Score := 0, GameOver := false, Won := false } d2 with
      ⟨h, _⟩ | ⟨_, i2, j2, v2, hi2, hj2, hz2, hv2, e2⟩
    · have := countTiles_full _ h
      dsimp only at this
      omega
    · rw [e2]
      dsimp only at hz2 ⊢
      have hv2' : v2 ≠ 0 := by rcases hv2 with rfl | rfl <;> decide
      refine ⟨?_, ?_, rfl, rfl, rfl⟩
      · rw [countTiles_setCell _ i2 j2 v2 hi2 hj2 hz2 hv2', c1]
      · intro a _ b _
        rw [cell_setCell _ i2 j2 v2 hi2 hj2, cell_setCell _ i j v hi hj, cell_emptyBoard]
        split_ifs
        · exact fun _ => hv2
        · exact fun _ => hv
        · exact fun h => absurd rfl h

/-- C11, as stated, fails once a doubling leaves the range of the 64-bit `int`: every
non-zero cell of this board is the power of two `2^62`, yet after `Move` to the left the cell
`Board[0][0]` holds `-2^63`, which is not zero and not a power of two. -/
theorem C11_counterexample :
    (∀ i, i < 4 → ∀ j, j < 4 → cell bigPairGame.Board i j ≠ 0 →
        tileValue (cell bigPairGame.Board i j))
      ∧ cell (Move bigPairGame Left ⟨0, false⟩).1.Board 0 0 = -9223372036854775808
      ∧ cell (Move bigPairGame Left ⟨0, false⟩).1.Board 0 0 ≠ 0
      ∧ ¬ tileValue (cell (Move bigPairGame Left ⟨0, false⟩).1.Board 0 0) := by
  have e : cell (Move bigPairGame Left ⟨0, false⟩).1.Board 0 0 = -9223372036854775808 := by
    decide
  refine ⟨?_, e, by decide, ?_⟩
  · intro i hi j hj hne
    interval_cases i <;> interval_cases j <;>
      first
      | exact absurd rfl hne
      | exact ⟨62, by omega, by norm_num [cell, bigPairGame, Arr4.get]⟩
  · rintro ⟨n, _, hn⟩
    rw [e] at hn
    have : (0 : Int) < 2 ^ n := by positivity
    omega

/-- C11, amended: the board produced by `NewGame()` has every non-zero cell a power of two
that is at least 2; when every non-zero cell of a state is such a power of two and is below
`2^62`, every non-zero cell of the board after `Move` is a power of two that is at least 2,
for every direction and every outcome of the random draws; and in every state reachable from
`NewGame()` by `Move` calls every non-zero cell is a power of two that is at least 2 and is
below `2^18`. -/
theorem C11_power_of_two_invariant (d1 d2 : Draw) (g g0 : Game) (dir : Direction) (d : Draw)
    (h : ∀ i, i < 4 → ∀ j, j < 4 → cell g.Board i j ≠ 0 →
      tileValue (cell g.Board i j) ∧ cell g.Board i j < 4611686018427387904)
    (hr : Reachable g0) :
    (∀ i, i < 4 → ∀ j, j < 4 → cell (NewGame d1 d2).Board i j ≠ 0 →
        tileValue (cell (NewGame d1 d2).Board i j))
      ∧ (∀ i, i < 4 → ∀ j, j < 4 → cell (Move g dir d).1.Board i j ≠ 0 →
          tileValue (cell (Move g dir d).1.Board i j))
      ∧ (∀ i, i < 4 → ∀ j, j < 4 → cell g0.Board i j ≠ 0 →
          tileValue (cell g0.Board i j) ∧ cell g0.Board i j < 262144) := by
  have h0 : emptyOrTile 0 := fun hne => absurd rfl hne
  have p2 : emptyOrTile 2 := fun _ => ⟨1, le_refl 1, rfl⟩
  have p4 : emptyOrTile 4 := fun _ => ⟨2, by omega, rfl⟩
  refine ⟨NewGame_all emptyOrTile h0 p2 p4 d1 d2, ?_, ?_⟩
  · refine Move_all (fun v => v ≠ 0 → tileValue v ∧ v < 4611686018427387904) emptyOrTile
      (fun v hv hne => (hv hne).1) ?_ h0 ?_ p2 p4 g dir d h
    · intro v hv hne
      have hv0 : v ≠ 0 := by
        intro e
        rw [e] at hne
        exact hne rfl
      obtain ⟨n, hn, rfl⟩ := (hv hv0).1
      exact ⟨n + 1, by omega, by rw [pow_succ]; ring⟩
    · intro v hv
      by_cases hz : v = 0
      · rw [hz]
        exact ⟨by decide, by decide⟩
      · obtain ⟨⟨n, _, hn⟩, hlt⟩ := hv hz
        have : (0 : Int) < 2 ^ n := by positivity
        exact ⟨by omega, hlt⟩
  · intro i hi j hj hne
    have hs := reachable_steady g0 hr
    exact ⟨reachable_tiles g0 hr i hi j hj hne, (steady_cells g0.Board hs.1 hs.2.1 i hi j hj).2⟩

theorem C11_power_of_two_invariant_witness :
    cell (Move fourTwosGame Left ⟨3, false⟩).1.Board 1 0 ≠ 0
      ∧ tileValue (cell (Move fourTwosGame Left ⟨3, false⟩).1.Board 1 0) :=
  ⟨by decide,
    (C11_power_of_two_invariant ⟨0, false⟩ ⟨0, false⟩ fourTwosGame (NewGame ⟨0, false⟩ ⟨1, true⟩)
      Left ⟨3, false⟩
      (fun i hi j hj hne => by
        interval_cases i <;> interval_cases j <;>
          first
          | exact absurd rfl hne
          | exact ⟨⟨1, le_refl 1, rfl⟩, by decide⟩)
      (Reachable.start ⟨0, false⟩ ⟨1, true⟩)).2.1
      1 (by decide) 0 (by decide) (by decide)⟩

/-- C12, as stated, fails when the addition to the Score leaves the range of the 64-bit
`int`: all cells of this state are non-negative and its Score is `2^63 - 1`; `Move` to the left
merges the two 2s, and the Score after it is `-2^63 + 3`, below the Score before. -/
theorem C12_counterexample :
    (∀ i, i < 4 → ∀ j, j < 4 → 0 ≤ cell topScoreGame.Board i j)
      ∧ (Move topScoreGame Left ⟨0, false⟩).1.Score = -9223372036854775805
      ∧ (Move topScoreGame Left ⟨0, false⟩).1.Score < topScoreGame.Score := by
  decide

/-- C12, amended: in every state reachable from `NewGame()` by `Move` calls the Score is at
least 0, a further `Move` does not lower it, and its increase is exactly the sum of the doubled
values written by the merges of that move; for every state whose cells are all non-negative
and below `2^62` and whose Score is a 64-bit value that stays below `2^63` when that sum is
added, the Score after `Move` is at least the Score before and the increase is exactly that
sum; and in any state the Score after `Move` is the Score before with the doubled values added
one after the other in 64-bit arithmetic. -/
theorem C12_score_monotone (g0 g g1 : Game) (dir : Direction) (d : Draw) (hr : Reachable g0)
    (hn : ∀ i, i < 4 → ∀ j, j < 4 →
      0 ≤ cell g.Board i j ∧ cell g.Board i j < 4611686018427387904)
    (hs : -9223372036854775808 ≤ g.Score)
    (hsum : g.Score + (mergesOf g dir).sum < 9223372036854775808) :
    0 ≤ g0.Score ∧ g0.Score ≤ (Move g0 dir d).1.Score
      ∧ (Move g0 dir d).1.Score = g0.Score + (mergesOf g0 dir).sum
      ∧ g.Score ≤ (Move g dir d).1.Score
      ∧ (Move g dir d).1.Score = g.Score + (mergesOf g dir).sum
      ∧ (Move g1 dir d).1.Score = (mergesOf g1 dir).foldl addScore g1.Score := by
  have h0 := reachable_steady g0 hr
  obtain ⟨_, e0, n0⟩ := compact_steady g0 dir h0
  have hpos : ∀ v, v ∈ mergesOf g dir → 0 ≤ v :=
    mergesOf_all (fun v => 0 ≤ v ∧ v < 4611686018427387904) (fun v => 0 ≤ v)
      (fun v hv => by simp only at hv ⊢; omega)
      (fun v hv => ⟨by simp only at hv; omega, hv.2⟩) g dir hn
  have e : (compact g dir).Score = g.Score + (mergesOf g dir).sum := by
    rw [compactLog_addScore]
    exact foldl_addScore_exact _ _ hpos hs hsum
  have n : 0 ≤ (mergesOf g dir).sum := List.sum_nonneg hpos
  refine ⟨h0.2.2.1, ?_, ?_, ?_, ?_, ?_⟩
  · rw [Move_score, e0]
    omega
  · rw [Move_score, e0]
  · rw [Move_score, e]
    omega
  · rw [Move_score, e]
  · rw [Move_score, compactLog_addScore]

theorem C12_score_monotone_witness :
    mergesOf fourTwosGame Left = [4, 4]
      ∧ (Move fourTwosGame Left ⟨3, false⟩).1.Score
          = fourTwosGame.Score + (mergesOf fourTwosGame Left).sum :=
  ⟨by decide,
    (C12_score_monotone (NewGame ⟨0, false⟩ ⟨1, true⟩) fourTwosGame cornerGame Left ⟨3, false⟩
      (Reachable.start ⟨0, false⟩ ⟨1, true⟩) (by decide) (by decide) (by decide)).2.2.2.2.1⟩

/-- C13, as stated, fails when no game exists yet: a GET request to `handleMove` is answered
with a client error, yet the session goes from `nil` to a freshly created game. -/
theorem C13_counterexample :
    rejected neverDecodes getRequest
      ∧ isClientError (handleMove neverDecodes none getRequest someDraws).2 = true
      ∧ (handleMove neverDecodes none getRequest someDraws).1
          = some (NewGame someDraws.first someDraws.second)
      ∧ (handleMove neverDecodes none getRequest someDraws).1 ≠ none := by
  refine ⟨Or.inl (by decide), by decide, by decide, by decide⟩

/-- C13, amended: when a game exists, a move request with a non-POST method, an undecodable
body or a direction string other than exactly "up", "down", "left", "right" is answered with
a client error and leaves the session (the current game and its Board, Score, GameOver, Won)
as it was; when no game exists yet such a request is answered with a client error too, after
the handler has created a new game. -/
theorem C13_rejected_move_keeps_game (decode : String → Option MoveRequest) (g : Game)
    (r : Request) (dr : Draws) (h : rejected decode r) :
    (handleMove decode (some g) r dr).1 = some g
      ∧ isClientError (handleMove decode (some g) r dr).2 = true
      ∧ (handleMove decode none r dr).1 = some (NewGame dr.first dr.second)
      ∧ isClientError (handleMove decode none r dr).2 = true := by
  have key : ∀ s : Session, (handleMove decode s r dr).1 = some (ensureGame s dr)
      ∧ isClientError (handleMove decode s r dr).2 = true := by
    intro s
    unfold handleMove
    rcases h with h | h | ⟨m, hm, h1, h2, h3, h4⟩
    · simp only [h, ne_eq, not_false_eq_true, if_true]
      exact ⟨trivial, by decide⟩
    · by_cases hp : r.Method ≠ MethodPost
      · simp only [hp, ne_eq, not_false_eq_true, if_true]
        exact ⟨trivial, by decide⟩
      · simp only [hp, if_false, h]
        exact ⟨trivial, by decide⟩
    · by_cases hp : r.Method ≠ MethodPost
      · simp only [hp, ne_eq, not_false_eq_true, if_true]
        exact ⟨trivial, by decide⟩
      · simp only [hp, if_false, hm, h1, h2, h3, h4]
        exact ⟨trivial, by decide⟩
  exact ⟨(key (some g)).1, (key (some g)).2, (key none).1, (key none).2⟩

theorem C13_rejected_move_keeps_game_witness :
    rejected neverDecodes getRequest
      ∧ (handleMove neverDecodes (some cornerGame) getRequest someDraws).1 = some cornerGame
      ∧ isClientError (handleMove neverDecodes (some cornerGame) getRequest someDraws).2
          = true :=
  have h : rejected neverDecodes getRequest := Or.inl (by decide)
  ⟨h, (C13_rejected_move_keeps_game neverDecodes cornerGame getRequest someDraws h).1,
    (C13_rejected_move_keeps_game neverDecodes cornerGame getRequest someDraws h).2.1⟩

/-- C14, as stated, fails for tiles whose sum leaves the range of the 64-bit `int`: the row
`[2^62, 2^62, 0, 0]` consists of non-negative integers, its reference compaction is
`[2^63, 0, 0, 0]`, and `moveLeft` leaves `[-2^63, 0, 0, 0]`. -/
theorem C14_counterexample :
    (∀ j, j < 4 → 0 ≤ (bigPairGame.Board.get 0).get j)
      ∧ ((moveLeft bigPairGame).Board.get 0).toList = [-9223372036854775808, 0, 0, 0]
      ∧ (referenceLine (bigPairGame.Board.get 0).toList).1 = [9223372036854775808, 0, 0, 0]
      ∧ ((moveLeft bigPairGame).Board.get 0).toList
          ≠ (referenceLine (bigPairGame.Board.get 0).toList).1 := by
  decide

/-- C14, amended: for every row of 4 non-negative integers below `2^62`, the row that
`moveLeft` leaves in its place equals the reference compaction of that row (drop the zeros,
scan from the left edge replacing each pair of equal neighbours by their sum with every tile
in at most one merge, pad with zeros to length 4); when the Score before is a 64-bit value
that stays below `2^63` with the sum of the merged (doubled) values added, the Score added for
the row is that sum; and when this holds of all four rows together, the Score after
`moveLeft` is the Score before plus these sums over the four rows. -/
theorem C14_reference_compaction (g : Game) (i : Nat) (hi : i < 4)
    (hrow : ∀ j, j < 4 →
      0 ≤ (g.Board.get i).get j ∧ (g.Board.get i).get j < 4611686018427387904) :
    ((moveLeft g).Board.get i).toList = (referenceLine (g.Board.get i).toList).1
      ∧ (-9223372036854775808 ≤ g.Score →
          g.Score + (referenceLine (g.Board.get i).toList).2 < 9223372036854775808 →
          (moveLeftRow g i).Score = g.Score + (referenceLine (g.Board.get i).toList).2)
      ∧ ((∀ k, k < 4 → ∀ j, j < 4 →
            0 ≤ cell g.Board k j ∧ cell g.Board k j < 4611686018427387904) →
          -9223372036854775808 ≤ g.Score →
          g.Score + (referenceLine g.Board.x0.toList).2 + (referenceLine g.Board.x1.toList).2
            + (referenceLine g.Board.x2.toList).2 + (referenceLine g.Board.x3.toList).2
              < 9223372036854775808 →
          (moveLeft g).Score
            = g.Score + (referenceLine g.Board.x0.toList).2
              + (referenceLine g.Board.x1.toList).2 + (referenceLine g.Board.x2.toList).2
              + (referenceLine g.Board.x3.toList).2) := by
  have hP : ∀ v : Int, 0 ≤ v ∧ v < 4611686018427387904 → doubles v :=
    fun v hv => ⟨by omega, hv.2⟩
  have hQ : ∀ v : Int, 0 ≤ v ∧ v < 4611686018427387904 → 0 ≤ v + v :=
    fun v hv => by omega
  have href : ∀ r : Row, (referenceLine r.toList).2 = (mergePairs (tiles r)).2.sum :=
    fun _ => rfl
  have hra : rowAll (fun v => 0 ≤ v ∧ v < 4611686018427387904) (g.Board.get i) :=
    ⟨hrow 0 (by omega), hrow 1 (by omega), hrow 2 (by omega), hrow 3 (by omega)⟩
  have hrd : rowAll doubles (g.Board.get i) :=
    ⟨hP _ hra.1, hP _ hra.2.1, hP _ hra.2.2.1, hP _ hra.2.2.2⟩
  refine ⟨?_, ?_, ?_⟩
  · rw [moveLeft_get g i hi]
    exact rowLeft_reference _ hrd
  · intro hs hsum
    rw [href, ← mergesLeft_reference _ hrd] at hsum ⊢
    rw [moveLeftRow_score, scoreLeft_eq]
    exact foldl_addScore_exact _ _
      (mergesLeft_all _ (fun v => 0 ≤ v) hQ _ hrd hra) hs hsum
  · intro hall hs hsum
    have hd : boardAll doubles g.Board := boardAll_mono _ doubles hP _ hall
    obtain ⟨d0, d1, d2, d3⟩ := (boardAll_rows doubles g.Board).mp hd
    have hpos : ∀ v, v ∈ (moveLeftLog g).2 → 0 ≤ v := by
      have := mergesOf_all _ (fun v => 0 ≤ v) hQ hP g Left hall
      unfold mergesOf compactLog at this
      simpa using this
    have hlog : (moveLeftLog g).2.sum
        = (referenceLine g.Board.x0.toList).2 + (referenceLine g.Board.x1.toList).2
          + (referenceLine g.Board.x2.toList).2 + (referenceLine g.Board.x3.toList).2 := by
      rw [moveLeftLog_eq]
      simp only [List.sum_append, mergesLeft_reference _ d0, mergesLeft_reference _ d1,
        mergesLeft_reference _ d2, mergesLeft_reference _ d3, href]
    have e := moveLeftLog_addScore g
    rw [moveLeftLog_fst, foldl_addScore_exact _ _ hpos hs (by rw [hlog]; omega), hlog] at e
    rw [e]
    omega

theorem C14_reference_compaction_witness :
    ((moveLeft fourTwosGame).Board.get 1).toList = [4, 4, 0, 0]
      ∧ (moveLeftRow fourTwosGame 1).Score = fourTwosGame.Score + 8 :=
  ⟨(C14_reference_compaction fourTwosGame 1 (by decide) (by decide)).1,
    (C14_reference_compaction fourTwosGame 1 (by decide) (by decide)).2.1 (by decide)
      (by decide)⟩

/-- C15, as stated, fails for a tile value whose double leaves the range of the 64-bit
`int`: with `a = 2^62` the row `[a,a,a,0]` becomes `[-2^63,a,0,0]` under `moveLeft` and
`[0,0,a,-2^63]` under `moveRight`, not `[2a,a,0,0]` and `[0,0,a,2a]`. -/
theorem C15_counterexample :
    (0 : Int) < 4611686018427387904
      ∧ bigThreeGame.Board.get 0
          = ⟨4611686018427387904, 4611686018427387904, 4611686018427387904, 0⟩
      ∧ (moveLeft bigThreeGame).Board.get 0
          = ⟨-9223372036854775808, 4611686018427387904, 0, 0⟩
      ∧ (moveLeft bigThreeGame).Board.get 0
          ≠ ⟨2 * 4611686018427387904, 4611686018427387904, 0, 0⟩
      ∧ (moveRight bigThreeGame).Board.get 0
          = ⟨0, 0, 4611686018427387904, -9223372036854775808⟩
      ∧ (moveRight bigThreeGame).Board.get 0
          ≠ ⟨0, 0, 4611686018427387904, 2 * 4611686018427387904⟩ := by
  decide

/-- C15, amended: for every tile value `a` with `0 < a < 2^62`, `moveLeft` turns the row
`[a,a,a,0]` into `[2a,a,0,0]` and `moveRight` turns it into `[0,0,a,2a]` (the pair nearer the
target edge merges), and `moveLeft` turns the row `[a,a,2a,0]` into `[2a,2a,0,0]`, not
`[4a,0,0,0]` (a tile produced by a merge does not merge again in the same move). -/
theorem C15_merge_tie_break (g : Game) (i : Nat) (a : Int) (hi : i < 4) (ha : 0 < a)
    (hb : a < 4611686018427387904) :
    (g.Board.get i = ⟨a, a, a, 0⟩ →
        (moveLeft g).Board.get i = ⟨2 * a, a, 0, 0⟩
          ∧ (moveRight g).Board.get i = ⟨0, 0, a, 2 * a⟩)
      ∧ (g.Board.get i = ⟨a, a, 2 * a, 0⟩ →
          (moveLeft g).Board.get i = ⟨2 * a, 2 * a, 0, 0⟩
            ∧ (moveLeft g).Board.get i ≠ ⟨4 * a, 0, 0, 0⟩) := by
  have hne : a ≠ 0 := by omega
  have hlo : -4611686018427387904 ≤ a := by omega
  constructor
  · intro hrow
    constructor
    · rw [moveLeft_get g i hi, hrow]
      unfold rowLeft
      rw [lineLeft_three a 0 hne hlo hb, mul_comm]
    · rw [moveRight_get g i hi, hrow]
      unfold rowLeft
      have e : (⟨a, a, a, 0⟩ : Row).reverse = ⟨0, a, a, a⟩ := rfl
      rw [e, lineLeft_gap_three a 0 hne hlo hb, mul_comm]
      rfl
  · intro hrow
    have hl : (moveLeft g).Board.get i = ⟨2 * a, 2 * a, 0, 0⟩ := by
      rw [moveLeft_get g i hi, hrow]
      unfold rowLeft
      rw [mul_comm 2 a, lineLeft_pair_double a 0 hne hlo hb]
    refine ⟨hl, ?_⟩
    rw [hl]
    intro hc
    have := congrArg Arr4.x1 hc
    simp only at this
    omega

theorem C15_merge_tie_break_witness :
    (moveLeft threeTwosGame).Board.get 0 = ⟨4, 2, 0, 0⟩
      ∧ (moveRight threeTwosGame).Board.get 0 = ⟨0, 0, 2, 4⟩
      ∧ (moveLeft pairThenDoubleGame).Board.get 3 = ⟨4, 4, 0, 0⟩ :=
  ⟨((C15_merge_tie_break threeTwosGame 0 2 (by decide) (by decide) (by decide)).1
      (by decide)).1,
    ((C15_merge_tie_break threeTwosGame 0 2 (by decide) (by decide) (by decide)).1
      (by decide)).2,
    ((C15_merge_tie_break pairThenDoubleGame 3 2 (by decide) (by decide) (by decide)).2
      (by decide)).1⟩

/-- C16: for every board with at least one non-zero cell, `hasEmptyCells()` and
`hasPossibleMoves()` are both false exactly when none of `moveLeft`, `moveRight`, `moveUp`,
`moveDown` changes the board, and that is exactly when `Move` returns false for all four
directions. -/
theorem C16_game_over_iff_no_move (g : Game)
    (hnz : ∃ i, i < 4 ∧ ∃ j, j < 4 ∧ cell g.Board i j ≠ 0) :
    ((hasEmptyCells g = false ∧ hasPossibleMoves g = false) ↔
        ((moveLeft g).Board = g.Board ∧ (moveRight g).Board = g.Board
          ∧ (moveUp g).Board = g.Board ∧ (moveDown g).Board = g.Board))
      ∧ (((moveLeft g).Board = g.Board ∧ (moveRight g).Board = g.Board
            ∧ (moveUp g).Board = g.Board ∧ (moveDown g).Board = g.Board) ↔
          ∀ d : Draw, (Move g Left d).2 = false ∧ (Move g Right d).2 = false
            ∧ (Move g Up d).2 = false ∧ (Move g Down d).2 = false) := by
  constructor
  · rw [← all_fixed_iff g hnz]
    have e1 : hasEmptyCells g = false ↔ isFull g.Board := by
      rw [← Bool.not_eq_true, hasEmptyCells_iff, not_not]
    have e2 : hasPossibleMoves g = false ↔ noEqualNeighbours g.Board := by
      rw [← Bool.not_eq_true, hasPossibleMoves_iff, not_not]
    rw [e1, e2]
  · simp only [Move_false_iff, compact_Left, compact_Right, compact_Up, compact_Down]
    constructor
    · intro h _
      exact h
    · intro h
      exact h ⟨0, false⟩

theorem C16_game_over_iff_no_move_witness :
    (hasEmptyCells stuckGame = false ∧ hasPossibleMoves stuckGame = false)
      ∧ (moveLeft stuckGame).Board = stuckGame.Board
      ∧ (moveRight stuckGame).Board = stuckGame.Board
      ∧ (moveUp stuckGame).Board = stuckGame.Board
      ∧ (moveDown stuckGame).Board = stuckGame.Board :=
  ⟨by decide, (C16_game_over_iff_no_move stuckGame (by decide)).1.mp (by decide)⟩

/-- C17: `moveUp` on a board equals the transpose of `moveLeft` applied to the transpose of
the board, and `moveDown` equals the transpose of `moveRight` applied to the transpose, with
the same amount added to the Score in each pair; the flags are left alone by all four. -/
theorem C17_vertical_is_transposed_horizontal (g : Game) :
    (moveUp g).Board = transpose (moveLeft (mapBoard transpose g)).Board
      ∧ (moveDown g).Board = transpose (moveRight (mapBoard transpose g)).Board
      ∧ (moveUp g).Score - g.Score
          = (moveLeft (mapBoard transpose g)).Score - (mapBoard transpose g).Score
      ∧ (moveDown g).Score - g.Score
          = (moveRight (mapBoard transpose g)).Score - (mapBoard transpose g).Score
      ∧ moveUp g = mapBoard transpose (moveLeft (mapBoard transpose g))
      ∧ moveDown g = mapBoard transpose (moveRight (mapBoard transpose g)) := by
  refine ⟨?_, ?_, ?_, ?_, moveUp_transpose g, moveDown_transpose g⟩
  · rw [moveUp_transpose]
    rfl
  · rw [moveDown_transpose]
    rfl
  · rw [moveUp_transpose]
    rfl
  · rw [moveDown_transpose]
    rfl

/-- C18: when `Move` returns true, the board right after the compaction has at least one empty
cell, so the `addRandomTile` inside `Move` changes the state, and the final board has exactly
one more non-zero cell than the board right after the compaction. -/
theorem C18_successful_move_spawns (g : Game) (dir : Direction) (d : Draw)
    (h : (Move g dir d).2 = true) :
    (∃ i, i < 4 ∧ ∃ j, j < 4 ∧ cell (compact g dir).Board i j = 0)
      ∧ ¬ isFull (compact g dir).Board
      ∧ addRandomTile (compact g dir) d ≠ compact g dir
      ∧ countTiles (Move g dir d).1.Board = countTiles (compact g dir).Board + 1 := by
  have hch : (compact g dir).Board ≠ g.Board := (Move_true_iff g dir d).mp h
  have hroom : countTiles (compact g dir).Board < 16 := by
    rcases compact_fixed_or_room g dir with e | e
    · exact absurd e hch
    · exact e
  have hnf : ¬ isFull (compact g dir).Board := by
    intro hf
    have := countTiles_full _ hf
    omega
  have hcount : countTiles (addRandomTile (compact g dir) d).Board
      = countTiles (compact g dir).Board + 1 := by
    rcases addRandomTile_cases (compact g dir) d with ⟨hf, _⟩ | ⟨_, i, j, v, hi, hj, hz, hv, e⟩
    · exact absurd hf hnf
    · rw [e]
      exact countTiles_setCell _ i j v hi hj hz (by rcases hv with rfl | rfl <;> decide)
  refine ⟨?_, hnf, ?_, ?_⟩
  · by_contra hc
    apply hnf
    intro i hi j hj hz
    exact hc ⟨i, hi, j, hj, hz⟩
  · intro e
    rw [e] at hcount
    omega
  · rw [Move_changed g dir d hch]
    simp only
    rw [checkGameStatus_board, hcount]

theorem C18_successful_move_spawns_witness :
    (Move fourTwosGame Left ⟨3, false⟩).2 = true
      ∧ countTiles (Move fourTwosGame Left ⟨3, false⟩).1.Board
          = countTiles (compact fourTwosGame Left).Board + 1 :=
  ⟨by decide, (C18_successful_move_spawns fourTwosGame Left ⟨3, false⟩ (by decide)).2.2.2⟩

/-- C19, as stated, fails when a doubling leaves the range of the 64-bit `int`: on the row
`[2^62, 2^62, 0, 0]` `moveLeft` changes the sum of the cells from `2^63` to `-2^63`, and on
the row `[-2^63, -2^63, 0, 0]` it performs one merge, which leaves 0, so that the number of
non-zero cells drops by two. -/
theorem C19_counterexample :
    boardSum bigPairGame.Board = 9223372036854775808
      ∧ boardSum (moveLeft bigPairGame).Board = -9223372036854775808
      ∧ boardSum (moveLeft bigPairGame).Board ≠ boardSum bigPairGame.Board
      ∧ countTiles minPairGame.Board = 2 ∧ countTiles (moveLeft minPairGame).Board = 0
      ∧ (moveLeftLog minPairGame).1 = moveLeft minPairGame
      ∧ (moveLeftLog minPairGame).2.length = 1
      ∧ countTiles (moveLeft minPairGame).Board + (moveLeftLog minPairGame).2.length
          ≠ countTiles minPairGame.Board := by
  decide

/-- C19, amended: on every board whose cells all lie in `-2^62 .. 2^62 - 1`, each of
`moveLeft`, `moveRight`, `moveUp`, `moveDown` leaves the sum of all 16 cells as it was and
lowers the number of non-zero cells by exactly the number of merges it performs (the length of
the log kept by the routine with the ghost log); and on every board whatever, none of the four
increases the number of non-zero cells, and the routine with the ghost log computes the same
state. -/
theorem C19_tile_sum_conservation (g g1 : Game)
    (h : ∀ i, i < 4 → ∀ j, j < 4 →
      -4611686018427387904 ≤ cell g.Board i j ∧ cell g.Board i j < 4611686018427387904) :
    (boardSum (moveLeft g).Board = boardSum g.Board
        ∧ countTiles (moveLeft g).Board + (moveLeftLog g).2.length = countTiles g.Board
        ∧ countTiles (moveLeft g1).Board ≤ countTiles g1.Board
        ∧ (moveLeftLog g1).1 = moveLeft g1)
      ∧ (boardSum (moveRight g).Board = boardSum g.Board
        ∧ countTiles (moveRight g).Board + (moveRightLog g).2.length = countTiles g.Board
        ∧ countTiles (moveRight g1).Board ≤ countTiles g1.Board
        ∧ (moveRightLog g1).1 = moveRight g1)
      ∧ (boardSum (moveUp g).Board = boardSum g.Board
        ∧ countTiles (moveUp g).Board + (moveUpLog g).2.length = countTiles g.Board
        ∧ countTiles (moveUp g1).Board ≤ countTiles g1.Board
        ∧ (moveUpLog g1).1 = moveUp g1)
      ∧ (boardSum (moveDown g).Board = boardSum g.Board
        ∧ countTiles (moveDown g).Board + (moveDownLog g).2.length = countTiles g.Board
        ∧ countTiles (moveDown g1).Board ≤ countTiles g1.Board
        ∧ (moveDownLog g1).1 = moveDown g1) := by
  have key : ∀ dir : Direction,
      boardSum (compact g dir).Board = boardSum g.Board
        ∧ countTiles (compact g dir).Board + (compactLog g dir).2.length = countTiles g.Board
        ∧ countTiles (compact g1 dir).Board ≤ countTiles g1.Board
        ∧ (compactLog g1 dir).1 = compact g1 dir := by
    intro dir
    have hc := compactLog_count g dir h
    unfold mergesOf at hc
    exact ⟨compact_sum g dir h, hc, compact_count_le g1 dir, compactLog_fst g1 dir⟩
  have eL : ∀ x : Game, compactLog x Left = moveLeftLog x := fun x => by simp [compactLog]
  have eR : ∀ x : Game, compactLog x Right = moveRightLog x :=
    fun x => by simp [compactLog, Left, Right]
  have eU : ∀ x : Game, compactLog x Up = moveUpLog x :=
    fun x => by simp [compactLog, Left, Right, Up]
  have eD : ∀ x : Game, compactLog x Down = moveDownLog x :=
    fun x => by simp [compactLog, Left, Right, Up, Down]
  have kL := key Left
  have kR := key Right
  have kU := key Up
  have kD := key Down
  simp only [compact_Left, eL] at kL
  simp only [compact_Right, eR] at kR
  simp only [compact_Up, eU] at kU
  simp only [compact_Down, eD] at kD
  exact ⟨kL, kR, kU, kD⟩

theorem C19_tile_sum_conservation_witness :
    boardSum (moveLeft fourTwosGame).Board = boardSum fourTwosGame.Board
      ∧ countTiles (moveLeft fourTwosGame).Board + (moveLeftLog fourTwosGame).2.length
          = countTiles fourTwosGame.Board :=
  ⟨(C19_tile_sum_conservation fourTwosGame minPairGame (by decide)).1.1,
    (C19_tile_sum_conservation fourTwosGame minPairGame (by decide)).1.2.1⟩

/-- C20: in every state reachable from `NewGame()` by `Move` calls, if GameOver is true then
the board has no empty cell and no two adjacent equal cells, and every further `Move` returns
false and leaves Board, Score, GameOver and Won as they were; and in any state `Move` never
resets Won or GameOver from true to false. -/
theorem C20_game_over_absorbing (g g1 : Game) (dir : Direction) (d : Draw) (hr : Reachable g)
    (ho : g.GameOver = true) :
    isFull g.Board ∧ noEqualNeighbours g.Board ∧ Move g dir d = (g, false)
      ∧ (g1.Won = true → (Move g1 dir d).1.Won = true)
      ∧ (g1.GameOver = true → (Move g1 dir d).1.GameOver = true) := by
  obtain ⟨hf, hn⟩ := reachable_gameOver g hr ho
  refine ⟨hf, hn, ?_, (Move_flags g1 dir d).1, (Move_flags g1 dir d).2⟩
  exact Move_unchanged g dir d (congrArg Game.Board (stuck_compact g dir hf hn))

set_option maxRecDepth 100000 in
theorem C20_game_over_absorbing_witness :
    overGame.GameOver = true ∧ Move overGame Up ⟨5, true⟩ = (overGame, false) :=
  ⟨by decide,
    (C20_game_over_absorbing overGame cornerGame Up ⟨5, true⟩
      (reachable_play _ (Reachable.start ⟨2, false⟩ ⟨3, true⟩) overScript) (by decide)).2.2.1⟩

end Game2048
